import Mathlib

/-!
Verification of the sf_auto_tl Starfield ESM localization engine.

This file gives a shallow embedding, in Lean 4, of the core of the
`starfield-engine` Python package:

* `engine/esm_parser.py`  — the binary-codec parser (`parse_esm_bytes`,
  `_parse_records`, `_parse_subrecords`, `_decode_text`,
  `_is_printable_text`, `_build_record_id`);
* `engine/esm_writer.py`  — the rewriter (`rewrite_esm_bytes`,
  `_rewrite_records`, `_rewrite_subrecords`);
* `engine/llm_client.py`  — tag masking, reply parsing and the batched,
  retried driver (`_mask_tags`, `_unmask_tags`, `_parse_response`,
  `_translate_batch`, `translate_records`);
* `engine/translator.py`  — the deduplication / fan-out part of
  `Translator._run_task` and the error handling around `write_esm`.

Modelling conventions:

* Python `bytes` values are `List Nat` (each entry one byte).
* Python `str` values are `List Char`.
* Python dicts are association lists updated with Python's
  insert-or-overwrite semantics (`dictUpd`).
* Byte walkers (`_parse_records`, `_rewrite_records`, ...) index into the
  enclosing buffer only inside the window `[offset, end)`; we therefore
  model them directly on the remaining window (a list suffix/slice).
  Loops are driven by explicit fuel so that every definition is
  executable by kernel reduction; the top-level wrappers supply fuel
  `length + 1`, which is shown (or used under hypotheses showing it) to
  be sufficient whenever the Python loop terminates.  A fuel exhaustion
  marker corresponds to a Python loop iteration that makes no progress,
  i.e. to `_rewrite_records` looping forever on a `GRUP` whose stored
  size is zero.
* Python exceptions relevant to the claims are explicit `Except` errors:
  `struct.pack` range errors, `bytes.decode("ascii")` failures and
  `struct.unpack_from` buffer overruns.
* `zlib.decompress` is external library code; it is modelled for
  RFC 1950/1951 streams whose deflate payload uses stored
  (uncompressed) blocks, including the Adler-32 checksum; any other
  stream is conservatively mapped to failure, which the parser treats
  exactly like `zlib.error`.
* Python's `str.isprintable` depends on the full Unicode tables, so the
  text filter takes the per-character printability predicate as a
  parameter `pr`; all theorems either hold for every such predicate or
  evaluate it only on characters whose printability is unambiguous.
-/

namespace SfAutoTl

/-! ## Bytes and little-endian fields -/

abbrev Bytes := List Nat

/-- Byte at index `i` of a buffer, 0 when out of range (all uses are
guarded so that the index is in range). -/
def byteAt (d : Bytes) (i : Nat) : Nat := d.getD i 0

/-- Model of `struct.unpack_from("<H", d, off)[0]` (guarded uses only). -/
def readU16 (d : Bytes) (off : Nat) : Nat :=
  byteAt d off + 2 ^ 8 * byteAt d (off + 1)

/-- Model of `struct.unpack_from("<I", d, off)[0]` (guarded uses only). -/
def readU32 (d : Bytes) (off : Nat) : Nat :=
  byteAt d off + 2 ^ 8 * byteAt d (off + 1) + 2 ^ 16 * byteAt d (off + 2) +
    2 ^ 24 * byteAt d (off + 3)

/-- Little-endian 2-byte encoding, as produced by `struct.pack("<H", n)`
for `n ≤ 0xFFFF`. -/
def u16le (n : Nat) : Bytes := [n % 2 ^ 8, n / 2 ^ 8 % 2 ^ 8]

/-- Little-endian 4-byte encoding, as produced by `struct.pack("<I", n)`
for `n < 2^32`. -/
def u32le (n : Nat) : Bytes :=
  [n % 2 ^ 8, n / 2 ^ 8 % 2 ^ 8, n / 2 ^ 16 % 2 ^ 8, n / 2 ^ 24 % 2 ^ 8]

/-- Model of `struct.pack_into("<I", header, 4, n)` on a record or group
header: bytes 4..8 are replaced by the little-endian encoding of `n`. -/
def setSizeField (h : Bytes) (n : Nat) : Bytes :=
  h.take 4 ++ u32le n ++ h.drop 8

theorem byteAt_append_left {a b : Bytes} {i : Nat} (h : i < a.length) :
    byteAt (a ++ b) i = byteAt a i := by
  simp [byteAt, List.getD, List.getElem?_append_left h]

theorem byteAt_append_right (a b : Bytes) (i : Nat) :
    byteAt (a ++ b) (a.length + i) = byteAt b i := by
  simp [byteAt, List.getD, List.getElem?_append_right (Nat.le_add_right _ _),
    Nat.add_sub_cancel_left]

theorem byteAt_drop (l : Bytes) (m i : Nat) :
    byteAt (l.drop m) i = byteAt l (m + i) := by
  simp [byteAt, List.getD, List.getElem?_drop]

theorem byteAt_take {l : Bytes} {n i : Nat} (h : i < n) :
    byteAt (l.take n) i = byteAt l i := by
  simp [byteAt, List.getD, List.getElem?_take, h]

theorem readU16_append_left {a b : Bytes} {off : Nat}
    (h : off + 2 ≤ a.length) :
    readU16 (a ++ b) off = readU16 a off := by
  unfold readU16
  rw [byteAt_append_left (by omega), byteAt_append_left (by omega)]

theorem readU32_append_left {a b : Bytes} {off : Nat}
    (h : off + 4 ≤ a.length) :
    readU32 (a ++ b) off = readU32 a off := by
  unfold readU32
  rw [byteAt_append_left (by omega), byteAt_append_left (by omega),
    byteAt_append_left (by omega), byteAt_append_left (by omega)]

theorem readU32_u32le (n : Nat) (h : n < 2 ^ 32) :
    readU32 (u32le n) 0 = n := by
  have h0 : readU32 (u32le n) 0 = n % 2 ^ 8 + 2 ^ 8 * (n / 2 ^ 8 % 2 ^ 8) +
      2 ^ 16 * (n / 2 ^ 16 % 2 ^ 8) + 2 ^ 24 * (n / 2 ^ 24 % 2 ^ 8) := rfl
  rw [h0]
  omega

theorem readU16_u16le (n : Nat) (h : n < 2 ^ 16) :
    readU16 (u16le n) 0 = n := by
  have h0 : readU16 (u16le n) 0 = n % 2 ^ 8 + 2 ^ 8 * (n / 2 ^ 8 % 2 ^ 8) := rfl
  rw [h0]
  omega

theorem u32le_length (n : Nat) : (u32le n).length = 4 := by
  simp [u32le]

theorem u16le_length (n : Nat) : (u16le n).length = 2 := by
  simp [u16le]

/-- Reading a 4-byte field that is literally stored as `u32le v`. -/
theorem readU32_of_slice {h : Bytes} {off v : Nat}
    (hs : (h.drop off).take 4 = u32le v)
    (hv : v < 2 ^ 32) : readU32 h off = v := by
  have h4 : ∀ i, i < 4 → byteAt h (off + i) = byteAt (u32le v) i := by
    intro i hi
    rw [← hs, byteAt_take hi, byteAt_drop]
  have e0 := h4 0 (by omega)
  have e1 := h4 1 (by omega)
  have e2 := h4 2 (by omega)
  have e3 := h4 3 (by omega)
  simp only [Nat.add_zero] at e0
  have := readU32_u32le v hv
  unfold readU32 at this ⊢
  simp only [Nat.zero_add, Nat.add_zero] at this
  rw [e0, e1, e2, e3]
  exact this

/-- Writing back the very value a size field already holds leaves the
header unchanged. -/
theorem setSizeField_self {h : Bytes} {v : Nat}
    (hs : (h.drop 4).take 4 = u32le v) :
    setSizeField h v = h := by
  have h2 : u32le v ++ h.drop 8 = h.drop 4 := by
    have h3 : (h.drop 4).take 4 ++ (h.drop 4).drop 4 = h.drop 4 :=
      List.take_append_drop 4 (h.drop 4)
    rw [List.drop_drop] at h3
    norm_num at h3
    rw [← hs]
    exact h3
  calc setSizeField h v = h.take 4 ++ u32le v ++ h.drop 8 := rfl
    _ = h.take 4 ++ (u32le v ++ h.drop 8) := List.append_assoc _ _ _
    _ = h.take 4 ++ h.drop 4 := by rw [h2]
    _ = h := List.take_append_drop 4 h

/-! ## Tags, errors, record ids (engine/esm_parser.py constants) -/

/-- ASCII bytes of the tag `FULL`. -/
def FULL : Bytes := [70, 85, 76, 76]

/-- ASCII bytes of the tag `GRUP`. -/
def GRUP : Bytes := [71, 82, 85, 80]

/-- ASCII bytes of the tag `TES4`. -/
def TES4 : Bytes := [84, 69, 83, 52]

/-- Model of `TRANSLATABLE_SUBRECORD_TYPES`
(`FULL`, `DESC`, `NNAM`, `SHRT`, `RNAM`). -/
def TRANSLATABLE_SUBRECORD_TYPES : List Bytes :=
  [FULL, [68, 69, 83, 67], [78, 78, 65, 77], [83, 72, 82, 84], [82, 78, 65, 77]]

/-- Model of `TRANSLATABLE_COMBINATIONS`: the pairs
(INFO,NAM1), (QUST,CNAM), (QUST,NAM2), (TMLM,ITXT), (TMLM,BTXT),
(TMLM,UNAM), (NPC_,LNAM), (REFR,UNAM), (NPC_,ATTX), (MESG,ITXT),
(PERK,EPF2), (BOOK,CNAM), (MGEF,DNAM), in ASCII bytes. -/
def TRANSLATABLE_COMBINATIONS : List (Bytes × Bytes) :=
  [([73, 78, 70, 79], [78, 65, 77, 49]),
   ([81, 85, 83, 84], [67, 78, 65, 77]),
   ([81, 85, 83, 84], [78, 65, 77, 50]),
   ([84, 77, 76, 77], [73, 84, 88, 84]),
   ([84, 77, 76, 77], [66, 84, 88, 84]),
   ([84, 77, 76, 77], [85, 78, 65, 77]),
   ([78, 80, 67, 95], [76, 78, 65, 77]),
   ([82, 69, 70, 82], [85, 78, 65, 77]),
   ([78, 80, 67, 95], [65, 84, 84, 88]),
   ([77, 69, 83, 71], [73, 84, 88, 84]),
   ([80, 69, 82, 75], [69, 80, 70, 50]),
   ([66, 79, 79, 75], [67, 78, 65, 77]),
   ([77, 71, 69, 70], [68, 78, 65, 77])]

/-- Translatability test shared by parser and writer:
`sub_type in TRANSLATABLE_SUBRECORD_TYPES or
(record_type, sub_type) in TRANSLATABLE_COMBINATIONS`. -/
def isTranslatableSub (recTy subTy : Bytes) : Bool :=
  TRANSLATABLE_SUBRECORD_TYPES.contains subTy ||
    TRANSLATABLE_COMBINATIONS.contains (recTy, subTy)

/-- Python exceptions that the modelled code can raise, plus a fuel
marker `nonterm` standing for a loop iteration making no progress
(Python would loop forever there). -/
inductive PyErr where
  | structPackError
  | unicodeDecodeError
  | structUnpackError
  | nonterm
deriving DecidableEq, Repr

deriving instance DecidableEq for Except

/-- Uppercase hexadecimal digit for a value `0 ≤ n < 16`. -/
def hexDigit (n : Nat) : Char :=
  if n < 10 then Char.ofNat (48 + n) else Char.ofNat (55 + n)

/-- Model of Python's `f"{form_id:08X}"` for `form_id < 2^32`. -/
def hex8 (n : Nat) : List Char :=
  [hexDigit (n / 16 ^ 7 % 16), hexDigit (n / 16 ^ 6 % 16),
   hexDigit (n / 16 ^ 5 % 16), hexDigit (n / 16 ^ 4 % 16),
   hexDigit (n / 16 ^ 3 % 16), hexDigit (n / 16 ^ 2 % 16),
   hexDigit (n / 16 % 16), hexDigit (n % 16)]

/-- Model of `bytes.decode("ascii")`: fails on any byte ≥ 0x80. -/
def asciiDecode (bs : Bytes) : Except PyErr (List Char) :=
  if bs.all (· < 128) then .ok (bs.map Char.ofNat)
  else .error .unicodeDecodeError

/-- Model of `_build_record_id` (identical in parser and writer):
`f"{record_type.decode('ascii')}:{form_id:08X}:{subrecord_type.decode('ascii')}"`. -/
def build_record_id (recTy : Bytes) (formId : Nat) (subTy : Bytes) :
    Except PyErr (List Char) := do
  let r ← asciiDecode recTy
  let s ← asciiDecode subTy
  pure (r ++ [':'] ++ hex8 formId ++ [':'] ++ s)

/-- Translation maps `record_id → target_text`; a Python dict modelled
as an association list in insertion order with unique keys. -/
abbrev TransMap := List (List Char × List Char)

/-- UTF-8 bytes of one scalar value (Python `str.encode("utf-8")`,
per character). -/
def utf8Char (c : Char) : Bytes :=
  let n := c.toNat
  if n < 0x80 then [n]
  else if n < 0x800 then [0xC0 + n / 64, 0x80 + n % 64]
  else if n < 0x10000 then
    [0xE0 + n / 4096, 0x80 + n / 64 % 64, 0x80 + n % 64]
  else
    [0xF0 + n / 262144, 0x80 + n / 4096 % 64, 0x80 + n / 64 % 64,
     0x80 + n % 64]

/-- Model of `text.encode("utf-8")`. -/
def utf8Encode (s : List Char) : Bytes := (s.map utf8Char).flatten

/-! ## The rewriter (engine/esm_writer.py)

`_rewrite_subrecords` and `_rewrite_records` read the buffer only inside
their `[offset, end)` window, so they are modelled directly on that
window (a byte-list slice).  Fuel bounds the number of loop iterations;
the wrappers pass `length + 1`, which suffices because every iteration
of `_rewrite_subrecords` advances by at least 6 bytes and every
iteration of `_rewrite_records` advances by at least 1 byte except on a
`GRUP` holding a stored size of 0, where Python loops forever and the
model returns `PyErr.nonterm`. -/

/-- Loop body of `_rewrite_subrecords`, on the remaining window.
Local Python variables (`sub_type`, `sub_size`, `sub_data`, `new_data`,
`new_size`) are inlined: `sub_type = rest.take 4`,
`sub_size = readU16 rest 4`, `new_data = utf8Encode newText ++ [0]`. -/
def rewriteSubsGo (recTy : Bytes) (formId : Nat) (translations : TransMap) :
    Nat → Bytes → Except PyErr Bytes
  | fuel, rest =>
    if rest.isEmpty then .ok []
    else match fuel with
    | 0 => .error .nonterm
    | fuel + 1 =>
      if rest.length < 6 then .ok rest
      else if 6 + readU16 rest 4 > rest.length then .ok rest
      else if isTranslatableSub recTy (rest.take 4) &&
          decide (0 < readU16 rest 4) then
        match build_record_id recTy formId (rest.take 4) with
        | .error e => .error e
        | .ok rid =>
          match translations.lookup rid with
          | some newText =>
            if (utf8Encode newText ++ [0]).length > 65535 then
              .error .structPackError
            else do
              let tail ← rewriteSubsGo recTy formId translations fuel
                (rest.drop (6 + readU16 rest 4))
              pure (rest.take 4 ++ u16le (utf8Encode newText ++ [0]).length ++
                (utf8Encode newText ++ [0]) ++ tail)
          | none => do
            let tail ← rewriteSubsGo recTy formId translations fuel
              (rest.drop (6 + readU16 rest 4))
            pure (rest.take (6 + readU16 rest 4) ++ tail)
      else do
        let tail ← rewriteSubsGo recTy formId translations fuel
          (rest.drop (6 + readU16 rest 4))
        pure (rest.take (6 + readU16 rest 4) ++ tail)

/-- Model of `_rewrite_subrecords(data, record_type, form_id, translations)`. -/
def rewrite_subrecords (recTy : Bytes) (formId : Nat)
    (translations : TransMap) (data : Bytes) : Except PyErr Bytes :=
  rewriteSubsGo recTy formId translations (data.length + 1) data

/-- Loop body of `_rewrite_records`, on the remaining window.  Note that
the record branch never looks at the flags field: compressed records are
treated exactly like uncompressed ones.  Local Python variables are
inlined: `group_size = readU32 rest 4`,
`group_end - offset = min (readU32 rest 4) rest.length`,
`data_size = readU32 rest 4`, `form_id = readU32 rest 12`,
`record_data_end - offset = min (24 + readU32 rest 4) rest.length`. -/
def rewriteRecsGo (translations : TransMap) :
    Nat → Bytes → Except PyErr Bytes
  | fuel, rest =>
    if rest.isEmpty then .ok []
    else match fuel with
    | 0 => .error .nonterm
    | fuel + 1 =>
    if rest.length < 4 then .ok rest
    else if rest.take 4 = GRUP then
      if rest.length < 24 then .ok rest
      else do
        let inner ← rewriteRecsGo translations fuel
          ((rest.drop 24).take (min (readU32 rest 4) rest.length - 24))
        if 24 + inner.length ≥ 2 ^ 32 then .error .structPackError
        else do
          let tail ← rewriteRecsGo translations fuel
            (rest.drop (min (readU32 rest 4) rest.length))
          pure (setSizeField (rest.take 24) (24 + inner.length) ++
            inner ++ tail)
    else
      if rest.length < 24 then .ok rest
      else do
        let newSub ← rewrite_subrecords (rest.take 4) (readU32 rest 12)
          translations
          ((rest.drop 24).take (min (24 + readU32 rest 4) rest.length - 24))
        if newSub.length ≥ 2 ^ 32 then .error .structPackError
        else do
          let tail ← rewriteRecsGo translations fuel
            (rest.drop (min (24 + readU32 rest 4) rest.length))
          pure (setSizeField (rest.take 24) newSub.length ++ newSub ++ tail)

/-- Model of `rewrite_esm_bytes(data, translations)`. -/
def rewrite_esm_bytes (data : Bytes) (translations : TransMap) :
    Except PyErr Bytes :=
  if data.length < 24 then .ok data
  else if data.take 4 ≠ TES4 then .ok data
  else
    let headerDataSize := readU32 data 4
    let firstRecordOffset := 24 + headerDataSize
    if firstRecordOffset > data.length then .ok data
    else do
      let recordsPart ← rewriteRecsGo translations (data.length + 1)
        (data.drop firstRecordOffset)
      pure (data.take firstRecordOffset ++ recordsPart)

/-! ## List slicing helpers -/

theorem take_append_of_le {a b : Bytes} {n : Nat} (h : n ≤ a.length) :
    (a ++ b).take n = a.take n := by
  rw [List.take_append_eq_append_take, Nat.sub_eq_zero_of_le h,
    List.take_zero, List.append_nil]

theorem take_append_len {a b : Bytes} {n : Nat} (h : n = a.length) :
    (a ++ b).take n = a := by
  subst h; exact List.take_left a b

theorem drop_append_len {a b : Bytes} {n : Nat} (h : n = a.length) :
    (a ++ b).drop n = b := by
  subst h; exact List.drop_left a b

theorem drop_append_add {a b : Bytes} {n m : Nat} (h : n = a.length) :
    (a ++ b).drop (n + m) = b.drop m := by
  rw [← List.drop_drop, drop_append_len h]

/-- Every tag accepted by the translatability test is pure ASCII. -/
theorem translatable_subTy_ascii {recTy subTy : Bytes}
    (h : isTranslatableSub recTy subTy = true) :
    subTy.all (· < 128) = true := by
  simp only [isTranslatableSub, List.contains, Bool.or_eq_true,
    List.elem_eq_mem, decide_eq_true_eq] at h
  rcases h with h | h
  · have hall : ∀ y ∈ TRANSLATABLE_SUBRECORD_TYPES,
        y.all (· < 128) = true := by decide
    exact hall subTy h
  · have hall : ∀ y ∈ TRANSLATABLE_COMBINATIONS.map Prod.snd,
        y.all (· < 128) = true := by decide
    exact hall subTy (List.mem_map_of_mem Prod.snd h)

/-- With both tags ASCII, `_build_record_id` succeeds. -/
theorem build_record_id_ok {recTy subTy : Bytes}
    (h1 : recTy.all (· < 128) = true) (h2 : subTy.all (· < 128) = true)
    (formId : Nat) :
    build_record_id recTy formId subTy =
      .ok (recTy.map Char.ofNat ++ [':'] ++ hex8 formId ++ [':'] ++
        subTy.map Char.ofNat) := by
  simp only [build_record_id, asciiDecode, h1, h2, if_pos]
  rfl

/-- Reduction of an `Except` bind on a success value. -/
theorem ebind_ok {α β : Type} (v : α) (f : α → Except PyErr β) :
    (Except.ok v >>= f) = f v := rfl

/-- Reduction of an `Except` bind on an error value. -/
theorem ebind_error {α β : Type} (e : PyErr) (f : α → Except PyErr β) :
    ((Except.error e : Except PyErr α) >>= f) = .error e := rfl

/-- Identification of `pure` for the `Except` monad. -/
theorem epure_eq {α : Type} (v : α) :
    (pure v : Except PyErr α) = .ok v := rfl

/-- Rewriting a subrecord window with the empty translation map copies
it byte for byte (for an ASCII record tag), for any window contents —
including windows that are not well-formed subrecord sequences, such as
the stored bytes of a compressed record. -/
theorem rewriteSubsGo_empty {recTy : Bytes} (hA : recTy.all (· < 128) = true)
    (formId : Nat) : ∀ fuel rest, rest.length < fuel →
    rewriteSubsGo recTy formId [] fuel rest = .ok rest := by
  intro fuel
  induction fuel with
  | zero => intro rest h; omega
  | succ k ih =>
    intro rest hlen
    rw [rewriteSubsGo]
    by_cases hre : rest.isEmpty
    · rw [List.isEmpty_iff] at hre
      simp [hre]
    · rw [if_neg (by simp_all)]
      by_cases h6 : rest.length < 6
      · simp [h6]
      · rw [if_neg h6]
        by_cases hgt : 6 + readU16 rest 4 > rest.length
        · rw [if_pos hgt]
        · rw [if_neg hgt]
          have hdroplen : (rest.drop (6 + readU16 rest 4)).length < k := by
            rw [List.length_drop]; omega
          have htail := ih (rest.drop (6 + readU16 rest 4)) hdroplen
          by_cases htr : (isTranslatableSub recTy (rest.take 4) &&
              decide (0 < readU16 rest 4)) = true
          · rw [if_pos htr]
            have hsub : (rest.take 4).all (· < 128) = true :=
              translatable_subTy_ascii (Bool.and_elim_left htr)
            rw [build_record_id_ok hA hsub formId]
            show (rewriteSubsGo recTy formId [] k
                (rest.drop (6 + readU16 rest 4)) >>=
                fun tail => pure (rest.take (6 + readU16 rest 4) ++ tail)) =
              Except.ok rest
            rw [htail, ebind_ok, epure_eq, List.take_append_drop]
          · rw [if_neg htr]
            show (rewriteSubsGo recTy formId [] k
                (rest.drop (6 + readU16 rest 4)) >>=
                fun tail => pure (rest.take (6 + readU16 rest 4) ++ tail)) =
              Except.ok rest
            rw [htail, ebind_ok, epure_eq, List.take_append_drop]

/-! ## Structured well-formed files

A well-formed ESM byte string, in the sense of the specification, is a
TES4 header record followed by groups and records whose stored size
fields agree with the data they frame.  The tree after the header is
captured by the mutual inductives below together with their byte
encodings and well-formedness predicates. -/

mutual
inductive EsmNode : Type where
  | record (header : Bytes) (payload : Bytes) : EsmNode
  | group (header : Bytes) (children : EsmForest) : EsmNode
inductive EsmForest : Type where
  | nil : EsmForest
  | cons (head : EsmNode) (tail : EsmForest) : EsmForest
end

mutual
def encodeNode : EsmNode → Bytes
  | .record h p => h ++ p
  | .group h c => h ++ encodeForest c
def encodeForest : EsmForest → Bytes
  | .nil => []
  | .cons n f => encodeNode n ++ encodeForest f
end

mutual
def nodeCount : EsmNode → Nat
  | .record _ _ => 1
  | .group _ c => 1 + forestCount c
def forestCount : EsmForest → Nat
  | .nil => 0
  | .cons n f => nodeCount n + forestCount f
end

mutual
def wfNode : EsmNode → Bool
  | .record h p => (h.length == 24) && !(h.take 4 == GRUP) &&
      (h.take 4).all (· < 128) &&
      ((h.drop 4).take 4 == u32le p.length) && decide (p.length < 2 ^ 32)
  | .group h c => (h.length == 24) && (h.take 4 == GRUP) &&
      ((h.drop 4).take 4 == u32le (24 + (encodeForest c).length)) &&
      decide (24 + (encodeForest c).length < 2 ^ 32) && wfForest c
def wfForest : EsmForest → Bool
  | .nil => true
  | .cons n f => wfNode n && wfForest f
end

mutual
theorem nodeCount_le_encode : ∀ n : EsmNode, wfNode n = true →
    nodeCount n ≤ (encodeNode n).length
  | .record h p, hw => by
    rw [wfNode] at hw
    simp only [Bool.and_eq_true, beq_iff_eq] at hw
    have h24 : h.length = 24 := hw.1.1.1.1
    simp only [nodeCount, encodeNode, List.length_append, h24]
    omega
  | .group h c, hw => by
    rw [wfNode] at hw
    simp only [Bool.and_eq_true, beq_iff_eq] at hw
    have h24 : h.length = 24 := hw.1.1.1.1
    have ih := forestCount_le_encode c hw.2
    simp only [nodeCount, encodeNode, List.length_append, h24]
    omega
theorem forestCount_le_encode : ∀ f : EsmForest, wfForest f = true →
    forestCount f ≤ (encodeForest f).length
  | .nil, _ => by simp [forestCount, encodeForest]
  | .cons n f, hw => by
    rw [wfForest] at hw
    simp only [Bool.and_eq_true] at hw
    have h1 := nodeCount_le_encode n hw.1
    have h2 := forestCount_le_encode f hw.2
    simp only [forestCount, encodeForest, List.length_append]
    omega
end

/-- Rewriting the encoded byte stream of a well-formed forest with the
empty translation map is the identity, provided the fuel exceeds the
node count. -/
theorem rewriteRecsGo_empty_forest : ∀ fuel (f : EsmForest), wfForest f = true →
    forestCount f < fuel →
    rewriteRecsGo [] fuel (encodeForest f) = .ok (encodeForest f) := by
  intro fuel
  induction fuel with
  | zero => intro f _ h; omega
  | succ k ih =>
    intro f hw hcount
    match f with
    | .nil => rw [encodeForest]; rw [rewriteRecsGo]; simp
    | .cons (.record h p) f' =>
      rw [wfForest, wfNode] at hw
      simp only [Bool.and_eq_true, beq_iff_eq, Bool.not_eq_true',
        beq_eq_false_iff_ne, decide_eq_true_eq] at hw
      obtain ⟨⟨⟨⟨⟨h24, hne⟩, hascii⟩, hsz⟩, hp32⟩, hwf'⟩ := hw
      have hc : forestCount (EsmForest.cons (EsmNode.record h p) f') =
          1 + forestCount f' := by rw [forestCount, nodeCount]
      have henc : encodeForest (EsmForest.cons (.record h p) f') =
          h ++ (p ++ encodeForest f') := by
        rw [encodeForest, encodeNode, List.append_assoc]
      rw [henc]
      have hlen : (h ++ (p ++ encodeForest f')).length =
          24 + p.length + (encodeForest f').length := by
        simp [h24]; omega
      have hne0 : (h ++ (p ++ encodeForest f')).isEmpty = false := by
        cases h with
        | nil => simp at h24
        | cons a t => rfl
      rw [rewriteRecsGo]
      rw [if_neg (by simp [hne0])]
      rw [if_neg (by omega)]
      have htake4 : (h ++ (p ++ encodeForest f')).take 4 = h.take 4 :=
        take_append_of_le (by omega)
      rw [if_neg (by rw [htake4]; exact hne)]
      rw [if_neg (by omega)]
      have hread : readU32 (h ++ (p ++ encodeForest f')) 4 = p.length := by
        rw [readU32_append_left (by omega)]
        exact readU32_of_slice hsz hp32
      rw [hread]
      have hmin : min (24 + p.length) (h ++ (p ++ encodeForest f')).length =
          24 + p.length := by omega
      rw [hmin]
      have hdrop24 : (h ++ (p ++ encodeForest f')).drop 24 =
          p ++ encodeForest f' := drop_append_len h24.symm
      have hslice : ((h ++ (p ++ encodeForest f')).drop 24).take
          (24 + p.length - 24) = p := by
        rw [hdrop24]
        simp [take_append_len]
      rw [hslice]
      have hsubs : rewrite_subrecords ((h ++ (p ++ encodeForest f')).take 4)
          (readU32 (h ++ (p ++ encodeForest f')) 12) [] p = .ok p := by
        rw [htake4]
        exact rewriteSubsGo_empty hascii _ _ p (Nat.lt_succ_self _)
      simp only [hsubs, ebind_ok]
      rw [if_neg (by omega)]
      have hdropE : (h ++ (p ++ encodeForest f')).drop (24 + p.length) =
          encodeForest f' := by
        have : (h ++ (p ++ encodeForest f')) = (h ++ p) ++ encodeForest f' := by
          rw [List.append_assoc]
        rw [this]
        exact drop_append_len (by simp [h24])
      rw [hdropE]
      simp only [ih f' hwf' (by omega), ebind_ok, epure_eq]
      have htake24 : (h ++ (p ++ encodeForest f')).take 24 = h :=
        take_append_len h24.symm
      rw [htake24, setSizeField_self hsz, List.append_assoc]
    | .cons (.group h c) f' =>
      rw [wfForest, wfNode] at hw
      simp only [Bool.and_eq_true, beq_iff_eq, decide_eq_true_eq] at hw
      obtain ⟨⟨⟨⟨⟨h24, heq⟩, hsz⟩, h32⟩, hwc⟩, hwf'⟩ := hw
      have hc : forestCount (EsmForest.cons (EsmNode.group h c) f') =
          1 + forestCount c + forestCount f' := by
        rw [forestCount, nodeCount]
      have henc : encodeForest (EsmForest.cons (.group h c) f') =
          h ++ (encodeForest c ++ encodeForest f') := by
        rw [encodeForest, encodeNode, List.append_assoc]
      rw [henc]
      have hlen : (h ++ (encodeForest c ++ encodeForest f')).length =
          24 + (encodeForest c).length + (encodeForest f').length := by
        simp [h24]; omega
      have hne0 : (h ++ (encodeForest c ++ encodeForest f')).isEmpty = false := by
        cases h with
        | nil => simp at h24
        | cons a t => rfl
      rw [rewriteRecsGo]
      rw [if_neg (by simp [hne0])]
      rw [if_neg (by omega)]
      have htake4 : (h ++ (encodeForest c ++ encodeForest f')).take 4 =
          h.take 4 := take_append_of_le (by omega)
      rw [if_pos (by rw [htake4]; exact heq)]
      rw [if_neg (by omega)]
      have hread : readU32 (h ++ (encodeForest c ++ encodeForest f')) 4 =
          24 + (encodeForest c).length := by
        rw [readU32_append_left (by omega)]
        exact readU32_of_slice hsz h32
      rw [hread]
      have hmin : min (24 + (encodeForest c).length)
          (h ++ (encodeForest c ++ encodeForest f')).length =
          24 + (encodeForest c).length := by omega
      rw [hmin]
      have hdrop24 : (h ++ (encodeForest c ++ encodeForest f')).drop 24 =
          encodeForest c ++ encodeForest f' := drop_append_len h24.symm
      have hslice : ((h ++ (encodeForest c ++ encodeForest f')).drop 24).take
          (24 + (encodeForest c).length - 24) = encodeForest c := by
        rw [hdrop24]
        simp [take_append_len]
      rw [hslice]
      simp only [ih c hwc (by omega), ebind_ok]
      rw [if_neg (by omega)]
      have hdropE : (h ++ (encodeForest c ++ encodeForest f')).drop
          (24 + (encodeForest c).length) = encodeForest f' := by
        have : (h ++ (encodeForest c ++ encodeForest f')) =
            (h ++ encodeForest c) ++ encodeForest f' := by
          rw [List.append_assoc]
        rw [this]
        exact drop_append_len (by simp [h24])
      rw [hdropE]
      simp only [ih f' hwf' (by omega), ebind_ok, epure_eq]
      have htake24 : (h ++ (encodeForest c ++ encodeForest f')).take 24 = h :=
        take_append_len h24.symm
      rw [htake24, setSizeField_self hsz, List.append_assoc]

theorem readU32_append_right (a b : Bytes) (off : Nat) :
    readU32 (a ++ b) (a.length + off) = readU32 b off := by
  unfold readU32
  rw [(by omega : a.length + off + 1 = a.length + (off + 1)),
    (by omega : a.length + off + 2 = a.length + (off + 2)),
    (by omega : a.length + off + 3 = a.length + (off + 3)),
    byteAt_append_right, byteAt_append_right, byteAt_append_right,
    byteAt_append_right]

/-- Byte string of a well-formed ESM file: a TES4 header record (tag,
stored payload size, 16 further header bytes, payload) followed by the
encoding of a forest of groups and records. -/
def mkEsmFile (tes4rest tes4payload : Bytes) (f : EsmForest) : Bytes :=
  TES4 ++ u32le tes4payload.length ++ tes4rest ++ tes4payload ++
    encodeForest f

/-- C1.  For every well-formed ESM byte string (a TES4 header record
followed by groups and records whose size fields agree with the data —
record flags, and hence the compressed bit, and record payloads, and
hence non-translatable subrecords, are arbitrary), rewriting with the
empty translation map returns the input bytes unchanged. -/
theorem claim1_rewrite_empty_map_is_identity
    (tes4rest tes4payload : Bytes) (f : EsmForest)
    (h16 : tes4rest.length = 16) (hp : tes4payload.length < 2 ^ 32)
    (hw : wfForest f = true) :
    rewrite_esm_bytes (mkEsmFile tes4rest tes4payload f) [] =
      .ok (mkEsmFile tes4rest tes4payload f) := by
  have hT4 : TES4.length = 4 := by decide
  have hu4 : (u32le tes4payload.length).length = 4 := u32le_length _
  have hlen : (mkEsmFile tes4rest tes4payload f).length =
      24 + tes4payload.length + (encodeForest f).length := by
    simp only [mkEsmFile, List.length_append, hT4, hu4, h16]
  have hassoc : mkEsmFile tes4rest tes4payload f =
      TES4 ++ (u32le tes4payload.length ++
        (tes4rest ++ (tes4payload ++ encodeForest f))) := by
    simp [mkEsmFile, List.append_assoc]
  have htake : (mkEsmFile tes4rest tes4payload f).take 4 = TES4 := by
    rw [hassoc]
    exact take_append_len hT4.symm
  have hread : readU32 (mkEsmFile tes4rest tes4payload f) 4 =
      tes4payload.length := by
    rw [hassoc, (by rw [hT4] : 4 = TES4.length + 0), readU32_append_right,
      readU32_append_left (by omega)]
    exact readU32_u32le _ hp
  have hdrop : (mkEsmFile tes4rest tes4payload f).drop
      (24 + tes4payload.length) = encodeForest f := by
    show (TES4 ++ u32le tes4payload.length ++ tes4rest ++ tes4payload ++
      encodeForest f).drop (24 + tes4payload.length) = encodeForest f
    exact drop_append_len (by simp [hT4, hu4, h16]; omega)
  have hcount : forestCount f < (mkEsmFile tes4rest tes4payload f).length + 1 := by
    have h1 := forestCount_le_encode f hw
    omega
  rw [rewrite_esm_bytes]
  rw [if_neg (by omega)]
  rw [if_neg (not_not_intro htake)]
  rw [hread]
  rw [if_neg (by omega)]
  rw [hdrop]
  simp only [rewriteRecsGo_empty_forest _ f hw hcount, ebind_ok, epure_eq]
  have : (mkEsmFile tes4rest tes4payload f).take (24 + tes4payload.length) =
      TES4 ++ u32le tes4payload.length ++ tes4rest ++ tes4payload := by
    show (TES4 ++ u32le tes4payload.length ++ tes4rest ++ tes4payload ++
      encodeForest f).take (24 + tes4payload.length) = _
    exact take_append_len (by simp [hT4, hu4, h16]; omega)
  rw [this]
  rw [mkEsmFile]

/-- Sample record header: tag `WEAP`, payload size 3, flags 0x00040000
(the compressed bit — the identity holds for it just the same), form id
0x100, revision 0, version/unknown 0. -/
def sampleRecHeader : Bytes :=
  [87, 69, 65, 80] ++ u32le 3 ++ u32le 262144 ++ u32le 256 ++ u32le 0 ++
    [0, 0, 0, 0]

/-- Sample group header framing one 27-byte record. -/
def sampleGroupHeader : Bytes :=
  GRUP ++ u32le 51 ++ [0, 0, 0, 0] ++ u32le 0 ++ u32le 0 ++ u32le 0

/-- Sample forest: one group containing one (flagged-compressed) record
with an opaque 3-byte payload. -/
def sampleForest : EsmForest :=
  .cons (.group sampleGroupHeader
    (.cons (.record sampleRecHeader [1, 2, 3]) .nil)) .nil

/-- Witness for C1 at a concrete file containing a group and a record
whose compressed flag is set. -/
theorem claim1_rewrite_empty_map_is_identity_witness :
    (List.replicate 16 0 : Bytes).length = 16 ∧
    ([7] : Bytes).length < 2 ^ 32 ∧ wfForest sampleForest = true ∧
    rewrite_esm_bytes (mkEsmFile (List.replicate 16 0) [7] sampleForest) [] =
      .ok (mkEsmFile (List.replicate 16 0) [7] sampleForest) :=
  ⟨by decide, by decide, by decide,
    claim1_rewrite_empty_map_is_identity (List.replicate 16 0) [7]
      sampleForest (by decide) (by decide) (by decide)⟩

/-! ## Structured subrecord sequences and the pointwise rewrite -/

/-- One well-formed subrecord frame: a 4-byte tag and at most 0xFFFF
payload bytes. -/
structure EsmSub where
  tag : Bytes
  data : Bytes

/-- Byte encoding `tag ++ size(u16) ++ data` of one subrecord. -/
def encodeSub (s : EsmSub) : Bytes := s.tag ++ u16le s.data.length ++ s.data

/-- Byte encoding of a subrecord sequence. -/
def encodeSubs (l : List EsmSub) : Bytes := (l.map encodeSub).flatten

/-- Frame well-formedness of one subrecord. -/
def wfSub (s : EsmSub) : Bool :=
  (s.tag.length == 4) && decide (s.data.length < 2 ^ 16)

/-- Frame well-formedness of a subrecord sequence. -/
def wfSubs (l : List EsmSub) : Bool := l.all wfSub

/-- What one loop iteration of `_rewrite_subrecords` emits for one
well-formed subrecord: the replacement payload if the subrecord is
translatable, non-empty and its composite id is in the map; the original
bytes otherwise.  Errors mirror the loop body: an ASCII decode failure
in `_build_record_id` and the `struct.pack("<H", ...)` range error. -/
def rewriteSub1 (recTy : Bytes) (formId : Nat) (tr : TransMap)
    (s : EsmSub) : Except PyErr Bytes :=
  if isTranslatableSub recTy s.tag && decide (0 < s.data.length) then
    match build_record_id recTy formId s.tag with
    | .error e => .error e
    | .ok rid =>
      match tr.lookup rid with
      | some newText =>
        if (utf8Encode newText ++ [0]).length > 65535 then
          .error .structPackError
        else
          .ok (s.tag ++ u16le (utf8Encode newText ++ [0]).length ++
            (utf8Encode newText ++ [0]))
      | none => .ok (encodeSub s)
  else .ok (encodeSub s)

/-- Sequential composition of the pointwise rewrite over a subrecord
list, stopping at the first error, as the loop does. -/
def rewriteSubsSpec (recTy : Bytes) (formId : Nat) (tr : TransMap) :
    List EsmSub → Except PyErr Bytes
  | [] => .ok []
  | s :: l =>
    match rewriteSub1 recTy formId tr s with
    | .error e => .error e
    | .ok b =>
      match rewriteSubsSpec recTy formId tr l with
      | .error e => .error e
      | .ok bs => .ok (b ++ bs)

theorem readU16_append_right (a b : Bytes) (off : Nat) :
    readU16 (a ++ b) (a.length + off) = readU16 b off := by
  unfold readU16
  rw [(by omega : a.length + off + 1 = a.length + (off + 1)),
    byteAt_append_right, byteAt_append_right]

theorem encodeSub_length {s : EsmSub} (hw : wfSub s = true) :
    (encodeSub s).length = 6 + s.data.length := by
  rw [wfSub] at hw
  simp only [Bool.and_eq_true, beq_iff_eq] at hw
  simp [encodeSub, u16le_length, hw.1]
  omega

/-- On the encoding of a well-formed subrecord sequence the
`_rewrite_subrecords` loop computes exactly the sequential composition
of the pointwise rewrites. -/
theorem rewriteSubsGo_decompose (recTy : Bytes) (formId : Nat)
    (tr : TransMap) : ∀ (l : List EsmSub) (fuel : Nat),
    wfSubs l = true → (encodeSubs l).length < fuel →
    rewriteSubsGo recTy formId tr fuel (encodeSubs l) =
      rewriteSubsSpec recTy formId tr l := by
  intro l
  induction l with
  | nil =>
    intro fuel _ _
    show rewriteSubsGo recTy formId tr fuel [] = _
    cases fuel with
    | zero => rw [rewriteSubsGo, rewriteSubsSpec]; simp
    | succ k => rw [rewriteSubsGo, rewriteSubsSpec]; simp
  | cons s l' ih =>
    intro fuel hw hfuel
    rw [wfSubs, List.all_cons, Bool.and_eq_true] at hw
    obtain ⟨hws, hwl'⟩ := hw
    have htag4 : s.tag.length = 4 := by
      rw [wfSub] at hws
      simp only [Bool.and_eq_true, beq_iff_eq] at hws
      exact hws.1
    have hd16 : s.data.length < 2 ^ 16 := by
      rw [wfSub] at hws
      simp only [Bool.and_eq_true, decide_eq_true_eq] at hws
      exact hws.2
    have henc : encodeSubs (s :: l') =
        s.tag ++ (u16le s.data.length ++ (s.data ++ encodeSubs l')) := by
      simp [encodeSubs, encodeSub, List.append_assoc]
    have hlenc : (encodeSubs (s :: l')).length =
        6 + s.data.length + (encodeSubs l').length := by
      rw [henc]
      simp [htag4, u16le_length]
      omega
    match fuel with
    | 0 => omega
    | k + 1 =>
      have hne0 : (encodeSubs (s :: l')).isEmpty = false := by
        rw [henc]
        match s.tag, htag4 with
        | _ :: _, _ => rfl
      rw [rewriteSubsGo, rewriteSubsSpec]
      rw [if_neg (by simp [hne0])]
      rw [if_neg (by omega)]
      have hread : readU16 (encodeSubs (s :: l')) 4 = s.data.length := by
        rw [henc, (by rw [htag4] : 4 = s.tag.length + 0), readU16_append_right,
          readU16_append_left (by rw [u16le_length]), readU16_u16le _ hd16]
      rw [hread]
      rw [if_neg (by omega)]
      have htake4 : (encodeSubs (s :: l')).take 4 = s.tag := by
        rw [henc]
        exact take_append_len htag4.symm
      have htake6d : (encodeSubs (s :: l')).take (6 + s.data.length) =
          encodeSub s := by
        have h1 : encodeSubs (s :: l') = encodeSub s ++ encodeSubs l' := by
          simp [encodeSubs]
        rw [h1]
        exact take_append_len (encodeSub_length hws).symm
      have hdrop6d : (encodeSubs (s :: l')).drop (6 + s.data.length) =
          encodeSubs l' := by
        have h1 : encodeSubs (s :: l') = encodeSub s ++ encodeSubs l' := by
          simp [encodeSubs]
        rw [h1]
        exact drop_append_len (encodeSub_length hws).symm
      have htail := ih k hwl' (by omega)
      rw [htake4, rewriteSub1]
      by_cases hb : (isTranslatableSub recTy s.tag &&
          decide (0 < s.data.length)) = true
      · rw [if_pos hb, if_pos hb]
        cases hid : build_record_id recTy formId s.tag with
        | error e => rfl
        | ok rid =>
          dsimp only []
          cases hlook : tr.lookup rid with
          | some newText =>
            dsimp only []
            by_cases hbig : (utf8Encode newText ++ [0]).length > 65535
            · rw [if_pos hbig, if_pos hbig]
            · rw [if_neg hbig, if_neg hbig]
              rw [hdrop6d, htail]
              cases h2 : rewriteSubsSpec recTy formId tr l' with
              | error e => rfl
              | ok bs => rfl
          | none =>
            dsimp only []
            rw [hdrop6d, htail, htake6d]
            cases h2 : rewriteSubsSpec recTy formId tr l' with
            | error e => rfl
            | ok bs => rfl
      · rw [if_neg hb, if_neg hb]
        rw [hdrop6d, htail, htake6d]
        cases h2 : rewriteSubsSpec recTy formId tr l' with
        | error e => rfl
        | ok bs => rfl

/-- One `_rewrite_records` loop iteration on a size-consistent record
whose header is `h` and whose stored payload is `payload`: the emitted
bytes are the header with its size field recomputed, followed by the
rewritten subrecords, followed by the rewrite of the remaining bytes.
Holds for every translation map; the record flags (bytes 8..12 of `h`)
are never consulted. -/
theorem rewriteRecsGo_record_step (tr : TransMap) (h payload rest' : Bytes)
    (fuel : Nat) (h24 : h.length = 24) (hne : h.take 4 ≠ GRUP)
    (hsz : (h.drop 4).take 4 = u32le payload.length)
    (hp32 : payload.length < 2 ^ 32) :
    rewriteRecsGo tr (fuel + 1) (h ++ (payload ++ rest')) =
      (do
        let newSub ← rewrite_subrecords (h.take 4) (readU32 h 12) tr payload
        if newSub.length ≥ 2 ^ 32 then
          (.error .structPackError : Except PyErr Bytes)
        else do
          let tail ← rewriteRecsGo tr fuel rest'
          pure (setSizeField h newSub.length ++ newSub ++ tail)) := by
  have hlen : (h ++ (payload ++ rest')).length =
      24 + payload.length + rest'.length := by
    simp [h24]
    omega
  have hne0 : (h ++ (payload ++ rest')).isEmpty = false := by
    cases h with
    | nil => simp at h24
    | cons a t => rfl
  have htake4 : (h ++ (payload ++ rest')).take 4 = h.take 4 :=
    take_append_of_le (by omega)
  have hread4 : readU32 (h ++ (payload ++ rest')) 4 = payload.length := by
    rw [readU32_append_left (by omega)]
    exact readU32_of_slice hsz hp32
  have hread12 : readU32 (h ++ (payload ++ rest')) 12 = readU32 h 12 :=
    readU32_append_left (by omega)
  have htake24 : (h ++ (payload ++ rest')).take 24 = h :=
    take_append_len h24.symm
  have hdrop24 : (h ++ (payload ++ rest')).drop 24 = payload ++ rest' :=
    drop_append_len h24.symm
  rw [rewriteRecsGo]
  rw [if_neg (by simp [hne0])]
  rw [if_neg (by omega)]
  rw [if_neg (by rw [htake4]; exact hne)]
  rw [if_neg (by omega)]
  rw [hread4, hread12, htake4]
  have hmin : min (24 + payload.length) (h ++ (payload ++ rest')).length =
      24 + payload.length := by omega
  rw [hmin]
  have hslice : ((h ++ (payload ++ rest')).drop 24).take
      (24 + payload.length - 24) = payload := by
    rw [hdrop24]
    simp [take_append_len]
  rw [hslice]
  have hdropE : (h ++ (payload ++ rest')).drop (24 + payload.length) =
      rest' := by
    have hre : h ++ (payload ++ rest') = (h ++ payload) ++ rest' := by
      rw [List.append_assoc]
    rw [hre]
    exact drop_append_len (by simp [h24])
  rw [hdropE, htake24]

def scratchTes4 : Bytes := TES4 ++ u32le 0 ++ List.replicate 16 0

def scratchSub : Bytes := FULL ++ u16le 3 ++ [72, 105, 0]

def scratchRecHeader : Bytes :=
  [87, 69, 65, 80] ++ u32le 9 ++ u32le 0 ++ u32le 256 ++ u32le 0 ++ [0, 0, 0, 0]

def scratchFile : Bytes := scratchTes4 ++ scratchRecHeader ++ scratchSub

def scratchId : List Char :=
  ['W', 'E', 'A', 'P', ':', '0', '0', '0', '0', '0', '1', '0', '0', ':', 'F', 'U', 'L', 'L']

example : rewrite_esm_bytes scratchFile [] = .ok scratchFile := by decide

example : rewrite_esm_bytes scratchFile [(scratchId, ['O', 'k'])] =
    .ok (scratchTes4 ++ scratchRecHeader ++ (FULL ++ u16le 3 ++ [79, 107, 0])) := by decide


/-- C4.  Frame effect of the rewriter, for every input file and every
translation map (in particular any map whose keys come from parsing the
file): (a) the TES4 header record together with all its subrecords —
the first `24 + stored header size` bytes — is byte-identical between
input and output, even when it contains subrecords carrying universal
tags; (b) on a well-formed subrecord sequence the rewriter emits
exactly the pointwise rewrite of each subrecord in order; and (c) the
pointwise rewrite of every non-translatable subrecord is its original
byte sequence. -/
theorem claim4_tes4_and_nontranslatable_frame
    (data : Bytes) (tr : TransMap) (out : Bytes)
    (hok : rewrite_esm_bytes data tr = .ok out)
    (recTy : Bytes) (formId : Nat) (l : List EsmSub)
    (hw : wfSubs l = true) :
    out.take (24 + readU32 data 4) = data.take (24 + readU32 data 4) ∧
    rewrite_subrecords recTy formId tr (encodeSubs l) =
      rewriteSubsSpec recTy formId tr l ∧
    (∀ s ∈ l, isTranslatableSub recTy s.tag = false →
      rewriteSub1 recTy formId tr s = .ok (encodeSub s)) := by
  refine ⟨?_, ?_, ?_⟩
  · rw [rewrite_esm_bytes] at hok
    by_cases hc1 : data.length < 24
    · rw [if_pos hc1, Except.ok.injEq] at hok
      subst hok; rfl
    · rw [if_neg hc1] at hok
      by_cases hc2 : data.take 4 ≠ TES4
      · rw [if_pos hc2, Except.ok.injEq] at hok
        subst hok; rfl
      · rw [if_neg hc2] at hok
        by_cases hc3 : 24 + readU32 data 4 > data.length
        · rw [if_pos hc3, Except.ok.injEq] at hok
          subst hok; rfl
        · rw [if_neg hc3] at hok
          cases hr : rewriteRecsGo tr (data.length + 1)
              (data.drop (24 + readU32 data 4)) with
          | error e =>
            rw [hr, ebind_error] at hok
            exact Except.noConfusion hok
          | ok r =>
            simp only [hr, ebind_ok, epure_eq, Except.ok.injEq] at hok
            subst hok
            rw [take_append_len]
            rw [List.length_take]
            omega
  · exact rewriteSubsGo_decompose recTy formId tr l
      ((encodeSubs l).length + 1) hw (Nat.lt_succ_self _)
  · intro s _ hnt
    rw [rewriteSub1, if_neg (by simp [hnt])]

/-- Rewritten output bytes of `scratchFile` under the sample map. -/
def scratchOut : Bytes :=
  scratchTes4 ++ scratchRecHeader ++ (FULL ++ u16le 3 ++ [79, 107, 0])

/-- Sample subrecord sequence: a non-translatable `EDID` subrecord
followed by a translatable `FULL` one. -/
def sampleSubs : List EsmSub :=
  [⟨[69, 68, 73, 68], [1]⟩, ⟨FULL, [72, 105, 0]⟩]

/-- Witness for C4 at a concrete file and map. -/
theorem claim4_tes4_and_nontranslatable_frame_witness :
    rewrite_esm_bytes scratchFile [(scratchId, ['O', 'k'])] =
      .ok scratchOut ∧
    wfSubs sampleSubs = true ∧
    (scratchOut.take (24 + readU32 scratchFile 4) =
      scratchFile.take (24 + readU32 scratchFile 4) ∧
    rewrite_subrecords [87, 69, 65, 80] 256 [(scratchId, ['O', 'k'])]
        (encodeSubs sampleSubs) =
      rewriteSubsSpec [87, 69, 65, 80] 256 [(scratchId, ['O', 'k'])]
        sampleSubs ∧
    (∀ s ∈ sampleSubs, isTranslatableSub [87, 69, 65, 80] s.tag = false →
      rewriteSub1 [87, 69, 65, 80] 256 [(scratchId, ['O', 'k'])] s =
        .ok (encodeSub s))) :=
  ⟨by decide, by decide,
    claim4_tes4_and_nontranslatable_frame scratchFile
      [(scratchId, ['O', 'k'])] scratchOut (by decide)
      [87, 69, 65, 80] 256 sampleSubs (by decide)⟩

theorem rewriteRecsGo_nil (tr : TransMap) (fuel : Nat) :
    rewriteRecsGo tr fuel [] = .ok [] := by
  cases fuel with
  | zero => rw [rewriteRecsGo]; rfl
  | succ k => rw [rewriteRecsGo]; rfl

/-- The pointwise rewrite of a translatable, non-empty subrecord whose
composite id is in the map is the replacement frame. -/
theorem rewriteSub1_hit (recTy : Bytes) (formId : Nat) (tr : TransMap)
    (tag : Bytes) (d : Bytes) (newText rid : List Char)
    (htr : isTranslatableSub recTy tag = true) (hd : 0 < d.length)
    (hid : build_record_id recTy formId tag = .ok rid)
    (hlook : tr.lookup rid = some newText)
    (hsmall : (utf8Encode newText ++ [0]).length ≤ 65535) :
    rewriteSub1 recTy formId tr ⟨tag, d⟩ =
      .ok (tag ++ u16le (utf8Encode newText ++ [0]).length ++
        (utf8Encode newText ++ [0])) := by
  rw [rewriteSub1]
  rw [if_pos (by simp [htr, hd])]
  rw [hid]
  dsimp only []
  rw [hlook]
  dsimp only []
  rw [if_neg (by omega)]

/-- C10.  The rewriter keys replacement solely by the composite
(record tag, form id, subrecord tag), with no uniqueness check: when one
composite id matches several subrecords — two same-tag subrecords
inside one record payload, or the same form id under the same record
tag in two consecutive records — a single translation map entry
rewrites every matching occurrence with the same replacement bytes. -/
theorem claim10_duplicate_composite_ids_all_rewritten
    (recTy : Bytes) (formId : Nat) (tr : TransMap) (tag : Bytes)
    (d1 d2 : Bytes) (newText rid : List Char) (h1 h2 : Bytes) (fuel : Nat)
    (htag4 : tag.length = 4) (htr : isTranslatableSub recTy tag = true)
    (hd1 : 0 < d1.length) (hd1b : d1.length < 2 ^ 16)
    (hd2 : 0 < d2.length) (hd2b : d2.length < 2 ^ 16)
    (hid : build_record_id recTy formId tag = .ok rid)
    (hlook : tr.lookup rid = some newText)
    (hsmall : (utf8Encode newText ++ [0]).length ≤ 65535)
    (hh1 : h1.length = 24) (hh1g : h1.take 4 ≠ GRUP)
    (hh1t : h1.take 4 = recTy)
    (hh1s : (h1.drop 4).take 4 = u32le (encodeSubs [⟨tag, d1⟩]).length)
    (hh1f : readU32 h1 12 = formId)
    (hh2 : h2.length = 24) (hh2g : h2.take 4 ≠ GRUP)
    (hh2t : h2.take 4 = recTy)
    (hh2s : (h2.drop 4).take 4 = u32le (encodeSubs [⟨tag, d2⟩]).length)
    (hh2f : readU32 h2 12 = formId) :
    rewrite_subrecords recTy formId tr (encodeSubs [⟨tag, d1⟩, ⟨tag, d2⟩]) =
      .ok ((tag ++ u16le (utf8Encode newText ++ [0]).length ++
          (utf8Encode newText ++ [0])) ++
        ((tag ++ u16le (utf8Encode newText ++ [0]).length ++
          (utf8Encode newText ++ [0])) ++ [])) ∧
    rewriteRecsGo tr (fuel + 2)
        (h1 ++ (encodeSubs [⟨tag, d1⟩] ++
          (h2 ++ (encodeSubs [⟨tag, d2⟩] ++ [])))) =
      .ok (setSizeField h1 ((tag ++ u16le (utf8Encode newText ++ [0]).length ++
            (utf8Encode newText ++ [0])) ++ []).length ++
        ((tag ++ u16le (utf8Encode newText ++ [0]).length ++
            (utf8Encode newText ++ [0])) ++ []) ++
        (setSizeField h2 ((tag ++ u16le (utf8Encode newText ++ [0]).length ++
            (utf8Encode newText ++ [0])) ++ []).length ++
          ((tag ++ u16le (utf8Encode newText ++ [0]).length ++
            (utf8Encode newText ++ [0])) ++ []) ++ [])) := by
  have hw1 : wfSubs [(⟨tag, d1⟩ : EsmSub)] = true := by
    simp [wfSubs, wfSub, htag4]; omega
  have hw2 : wfSubs [(⟨tag, d2⟩ : EsmSub)] = true := by
    simp [wfSubs, wfSub, htag4]; omega
  have hw12 : wfSubs [(⟨tag, d1⟩ : EsmSub), ⟨tag, d2⟩] = true := by
    simp [wfSubs, wfSub, htag4]; omega
  have hrepl := rewriteSub1_hit recTy formId tr tag d1 newText rid htr hd1
    hid hlook hsmall
  have hrepl2 := rewriteSub1_hit recTy formId tr tag d2 newText rid htr hd2
    hid hlook hsmall
  have hspec1 : rewriteSubsSpec recTy formId tr [⟨tag, d1⟩] =
      .ok ((tag ++ u16le (utf8Encode newText ++ [0]).length ++
        (utf8Encode newText ++ [0])) ++ []) := by
    rw [rewriteSubsSpec, hrepl]
    dsimp only []
    rw [rewriteSubsSpec]
  have hspec2 : rewriteSubsSpec recTy formId tr [⟨tag, d2⟩] =
      .ok ((tag ++ u16le (utf8Encode newText ++ [0]).length ++
        (utf8Encode newText ++ [0])) ++ []) := by
    rw [rewriteSubsSpec, hrepl2]
    dsimp only []
    rw [rewriteSubsSpec]
  constructor
  · rw [rewrite_subrecords]
    rw [rewriteSubsGo_decompose recTy formId tr _ _ hw12 (Nat.lt_succ_self _)]
    rw [rewriteSubsSpec, hrepl]
    dsimp only []
    rw [rewriteSubsSpec, hrepl2]
    dsimp only []
    rw [rewriteSubsSpec]
  · rw [rewriteRecsGo_record_step tr h1 (encodeSubs [⟨tag, d1⟩]) _ (fuel + 1)
      hh1 hh1g hh1s (by
        have := encodeSub_length (s := ⟨tag, d1⟩)
          (by simp [wfSub, htag4]; omega)
        simp only [encodeSubs, List.map, List.flatten] at this ⊢
        simp [this]; omega)]
    rw [hh1t, hh1f]
    rw [rewrite_subrecords]
    rw [rewriteSubsGo_decompose recTy formId tr _ _ hw1 (Nat.lt_succ_self _)]
    rw [hspec1]
    simp only [ebind_ok]
    rw [if_neg (by
      simp only [List.length_append, u16le_length, htag4, List.length_cons,
        List.length_nil] at hsmall ⊢
      omega)]
    rw [rewriteRecsGo_record_step tr h2 (encodeSubs [⟨tag, d2⟩]) _ fuel
      hh2 hh2g hh2s (by
        have := encodeSub_length (s := ⟨tag, d2⟩)
          (by simp [wfSub, htag4]; omega)
        simp only [encodeSubs, List.map, List.flatten] at this ⊢
        simp [this]; omega)]
    rw [hh2t, hh2f]
    rw [rewrite_subrecords]
    rw [rewriteSubsGo_decompose recTy formId tr _ _ hw2 (Nat.lt_succ_self _)]
    rw [hspec2]
    simp only [ebind_ok]
    rw [if_neg (by
      simp only [List.length_append, u16le_length, htag4, List.length_cons,
        List.length_nil] at hsmall ⊢
      omega)]
    rw [rewriteRecsGo_nil]
    simp only [ebind_ok, epure_eq]

/-- Witness for C10: two `FULL` subrecords inside one `WEAP` record and
the same form id 0x100 in two consecutive `WEAP` records, all rewritten
by the single map entry for `WEAP:00000100:FULL`. -/
theorem claim10_duplicate_composite_ids_all_rewritten_witness :
    isTranslatableSub [87, 69, 65, 80] FULL = true ∧
    List.lookup scratchId [(scratchId, ['O', 'k'])] = some ['O', 'k'] ∧
    (rewrite_subrecords [87, 69, 65, 80] 256 [(scratchId, ['O', 'k'])]
        (encodeSubs [⟨FULL, [72, 105, 0]⟩, ⟨FULL, [89, 111, 0]⟩]) =
      .ok ((FULL ++ u16le (utf8Encode ['O', 'k'] ++ [0]).length ++
          (utf8Encode ['O', 'k'] ++ [0])) ++
        ((FULL ++ u16le (utf8Encode ['O', 'k'] ++ [0]).length ++
          (utf8Encode ['O', 'k'] ++ [0])) ++ [])) ∧
    rewriteRecsGo [(scratchId, ['O', 'k'])] (0 + 2)
        (scratchRecHeader ++ (encodeSubs [⟨FULL, [72, 105, 0]⟩] ++
          (scratchRecHeader ++ (encodeSubs [⟨FULL, [89, 111, 0]⟩] ++ [])))) =
      .ok (setSizeField scratchRecHeader
          ((FULL ++ u16le (utf8Encode ['O', 'k'] ++ [0]).length ++
            (utf8Encode ['O', 'k'] ++ [0])) ++ []).length ++
        ((FULL ++ u16le (utf8Encode ['O', 'k'] ++ [0]).length ++
          (utf8Encode ['O', 'k'] ++ [0])) ++ []) ++
        (setSizeField scratchRecHeader
            ((FULL ++ u16le (utf8Encode ['O', 'k'] ++ [0]).length ++
              (utf8Encode ['O', 'k'] ++ [0])) ++ []).length ++
          ((FULL ++ u16le (utf8Encode ['O', 'k'] ++ [0]).length ++
            (utf8Encode ['O', 'k'] ++ [0])) ++ []) ++ []))) :=
  ⟨by decide, by decide,
    claim10_duplicate_composite_ids_all_rewritten [87, 69, 65, 80] 256
      [(scratchId, ['O', 'k'])] FULL [72, 105, 0] [89, 111, 0] ['O', 'k']
      scratchId scratchRecHeader scratchRecHeader 0 (by decide) (by decide)
      (by decide) (by decide) (by decide) (by decide) (by decide) (by decide)
      (by decide) (by decide) (by decide) (by decide) (by decide) (by decide)
      (by decide) (by decide) (by decide) (by decide) (by decide)⟩

/-! ## The parser (engine/esm_parser.py)

The parser is modelled with the same window/fuel conventions as the
writer.  Primitives that can raise in Python are explicit:
`struct.unpack_from` reads are `unpackU16E`/`unpackU32E` and the ASCII
decode inside `_build_record_id` comes from `build_record_id` above.
`zlib.decompress` failures are `Option.none`. -/

/-- One extracted translatable unit (`StringRecord`). -/
structure StringRecord where
  record_id : List Char
  text : List Char
deriving DecidableEq, Repr

/-- Model of `struct.unpack_from("<H", d, off)[0]` with its buffer
check: reading past the end raises `struct.error`. -/
def unpackU16E (d : Bytes) (off : Nat) : Except PyErr Nat :=
  if off + 2 ≤ d.length then .ok (readU16 d off) else .error .structUnpackError

/-- Model of `struct.unpack_from("<I", d, off)[0]` with its buffer
check. -/
def unpackU32E (d : Bytes) (off : Nat) : Except PyErr Nat :=
  if off + 4 ≤ d.length then .ok (readU32 d off) else .error .structUnpackError

/-- The Unicode replacement character U+FFFD. -/
def replChar : Char := Char.ofNat 0xFFFD

/-- Model of UTF-8 decoding with `errors="replace"`, fuelled (each step
consumes at least the lead byte, so fuel `length + 1` never runs out).
Valid sequences (including the checks for overlong encodings,
surrogates and the U+10FFFF bound) decode exactly as CPython does; an
invalid or truncated sequence yields U+FFFD and resumes after the lead
byte, whereas CPython replaces each maximal invalid subpart.  The two
policies agree on all valid input and both produce at least one U+FFFD
on any invalid input, which is all the callers observe: `_is_printable_text`
rejects any text containing U+FFFD. -/
def utf8DecodeReplace : Nat → Bytes → List Char
  | 0, _ => []
  | _, [] => []
  | fuel + 1, b :: rest =>
    if b < 0x80 then Char.ofNat b :: utf8DecodeReplace fuel rest
    else if 0xC2 ≤ b ∧ b ≤ 0xDF then
      match rest with
      | b1 :: rest1 =>
        if 0x80 ≤ b1 ∧ b1 ≤ 0xBF then
          Char.ofNat ((b - 0xC0) * 64 + (b1 - 0x80)) ::
            utf8DecodeReplace fuel rest1
        else replChar :: utf8DecodeReplace fuel rest
      | [] => [replChar]
    else if 0xE0 ≤ b ∧ b ≤ 0xEF then
      match rest with
      | b1 :: b2 :: rest2 =>
        if ((b = 0xE0 ∧ 0xA0 ≤ b1 ∧ b1 ≤ 0xBF) ∨
            (0xE1 ≤ b ∧ b ≤ 0xEC ∧ 0x80 ≤ b1 ∧ b1 ≤ 0xBF) ∨
            (b = 0xED ∧ 0x80 ≤ b1 ∧ b1 ≤ 0x9F) ∨
            (0xEE ≤ b ∧ 0x80 ≤ b1 ∧ b1 ≤ 0xBF)) ∧
            0x80 ≤ b2 ∧ b2 ≤ 0xBF then
          Char.ofNat ((b - 0xE0) * 4096 + (b1 - 0x80) * 64 + (b2 - 0x80)) ::
            utf8DecodeReplace fuel rest2
        else replChar :: utf8DecodeReplace fuel rest
      | _ => replChar :: utf8DecodeReplace fuel rest
    else if 0xF0 ≤ b ∧ b ≤ 0xF4 then
      match rest with
      | b1 :: b2 :: b3 :: rest3 =>
        if ((b = 0xF0 ∧ 0x90 ≤ b1 ∧ b1 ≤ 0xBF) ∨
            (0xF1 ≤ b ∧ b ≤ 0xF3 ∧ 0x80 ≤ b1 ∧ b1 ≤ 0xBF) ∨
            (b = 0xF4 ∧ 0x80 ≤ b1 ∧ b1 ≤ 0x8F)) ∧
            0x80 ≤ b2 ∧ b2 ≤ 0xBF ∧ 0x80 ≤ b3 ∧ b3 ≤ 0xBF then
          Char.ofNat ((b - 0xF0) * 262144 + (b1 - 0x80) * 4096 +
              (b2 - 0x80) * 64 + (b3 - 0x80)) ::
            utf8DecodeReplace fuel rest3
        else replChar :: utf8DecodeReplace fuel rest
      | _ => replChar :: utf8DecodeReplace fuel rest
    else replChar :: utf8DecodeReplace fuel rest

/-- Model of `_decode_text`: strip one trailing NUL byte, then decode
UTF-8 with replacement. -/
def decode_text (bs : Bytes) : List Char :=
  let stripped := if bs.getLast? = some 0 then bs.dropLast else bs
  utf8DecodeReplace (stripped.length + 1) stripped

/-- Model of `_is_printable_text`.  The per-character
`str.isprintable` test is the parameter `pr` (it depends on the full
Unicode tables); the float comparison `count / len >= 0.9` is taken as
the exact comparison `10 * count ≥ 9 * len`. -/
def is_printable_text (pr : Char → Bool) (t : List Char) : Bool :=
  if t.isEmpty then false
  else if t.contains replChar then false
  else decide (10 * (t.filter (fun c =>
    pr c || c = Char.ofNat 10 || c = Char.ofNat 13 ||
      c = Char.ofNat 9)).length ≥ 9 * t.length)

/-- Adler-32 checksum (RFC 1950), as verified by `zlib.decompress`. -/
def adler32 (bs : Bytes) : Nat :=
  let p := bs.foldl
    (fun st c => ((st.1 + c) % 65521, (st.2 + st.1 + c) % 65521)) (1, 0)
  p.2 * 65536 + p.1

/-- Inflate a deflate stream made of stored (BTYPE=0) blocks, returning
the data and what follows the final block.  Other block types are not
modelled and map to `none`. -/
def inflateStoredGo : Nat → Bytes → Option (Bytes × Bytes)
  | 0, _ => none
  | fuel + 1, bs =>
    match bs with
    | [] => none
    | bfirst :: rest =>
      if bfirst / 2 % 4 ≠ 0 then none
      else match rest with
      | lenLo :: lenHi :: nlenLo :: nlenHi :: rest2 =>
        let len := lenLo + 256 * lenHi
        if nlenLo + 256 * nlenHi ≠ 65535 - len then none
        else if rest2.length < len then none
        else if bfirst % 2 = 1 then some (rest2.take len, rest2.drop len)
        else match inflateStoredGo fuel (rest2.drop len) with
          | some (d, rem) => some (rest2.take len ++ d, rem)
          | none => none
      | _ => none

/-- Model of `zlib.decompress` restricted to RFC 1950 streams whose
deflate payload uses stored blocks: checks the zlib header (CM=8,
CINFO≤7, FCHECK, no FDICT) and the Adler-32 trailer.  Streams using
Huffman-coded blocks are conservatively mapped to `none`; the parser
treats `none` exactly as it treats `zlib.error`. -/
def zlibDecompress (bs : Bytes) : Option Bytes :=
  match bs with
  | cmf :: flg :: rest =>
    if cmf % 16 ≠ 8 then none
    else if cmf / 16 > 7 then none
    else if (cmf * 256 + flg) % 31 ≠ 0 then none
    else if flg / 32 % 2 = 1 then none
    else match inflateStoredGo (rest.length + 1) rest with
      | none => none
      | some (d, rem) =>
        match rem with
        | a3 :: a2 :: a1 :: a0 :: _ =>
          if a3 * 16777216 + a2 * 65536 + a1 * 256 + a0 = adler32 d then
            some d
          else none
        | _ => none
  | _ => none

/-- The compressed-record flag bit 0x00040000. -/
def COMPRESSED_FLAG : Nat := 262144

/-- Loop body of `_parse_subrecords`, on the remaining window.
`sub_type = rest.take 4`; the text checks mirror
`if text and _is_printable_text(text)`. -/
def parseSubsGo (pr : Char → Bool) (recTy : Bytes) (formId : Nat) :
    Nat → Bytes → Except PyErr (List StringRecord)
  | fuel, rest =>
    if rest.isEmpty then .ok []
    else match fuel with
    | 0 => .error .nonterm
    | fuel + 1 =>
      if rest.length < 6 then .ok []
      else do
        let subSize ← unpackU16E rest 4
        if 6 + subSize > rest.length then .ok []
        else if isTranslatableSub recTy (rest.take 4) &&
            decide (0 < subSize) then
          if decide (decode_text ((rest.drop 6).take subSize) ≠ []) &&
              is_printable_text pr (decode_text ((rest.drop 6).take subSize))
          then do
            let rid ← build_record_id recTy formId (rest.take 4)
            let tail ← parseSubsGo pr recTy formId fuel
              (rest.drop (6 + subSize))
            pure (⟨rid, decode_text ((rest.drop 6).take subSize)⟩ :: tail)
          else parseSubsGo pr recTy formId fuel (rest.drop (6 + subSize))
        else parseSubsGo pr recTy formId fuel (rest.drop (6 + subSize))

/-- Model of `_parse_subrecords(data, record_type, form_id)`. -/
def parse_subrecords (pr : Char → Bool) (recTy : Bytes) (formId : Nat)
    (data : Bytes) : Except PyErr (List StringRecord) :=
  parseSubsGo pr recTy formId (data.length + 1) data

/-- The `try/except Exception` wrapper around `_parse_subrecords` in
`_parse_records`: any Python exception is logged and the record's
subrecords are dropped.  The fuel marker is not a Python exception and
is propagated. -/
def tryParseSubs (pr : Char → Bool) (recTy : Bytes) (formId : Nat)
    (data : Bytes) : Except PyErr (List StringRecord) :=
  match parse_subrecords pr recTy formId data with
  | .ok subs => .ok subs
  | .error .nonterm => .error .nonterm
  | .error _ => .ok []

/-- Loop body of `_parse_records`, on the remaining window.  Python
local variables are inlined as in `rewriteRecsGo`; the `(records,
offset)` pair is collapsed to the records list since every caller
discards the returned offset. -/
def parseRecsGo (pr : Char → Bool) :
    Nat → Bytes → Except PyErr (List StringRecord)
  | fuel, rest =>
    if rest.isEmpty then .ok []
    else match fuel with
    | 0 => .error .nonterm
    | fuel + 1 =>
      if rest.length < 4 then .ok []
      else if rest.take 4 = GRUP then
        if rest.length < 24 then .ok []
        else do
          let groupSize ← unpackU32E rest 4
          if groupSize < 24 then .ok []
          else do
            let inner ← parseRecsGo pr fuel
              ((rest.drop 24).take (min groupSize rest.length - 24))
            let tail ← parseRecsGo pr fuel
              (rest.drop (min groupSize rest.length))
            pure (inner ++ tail)
      else
        if rest.length < 24 then .ok []
        else do
          let dataSize ← unpackU32E rest 4
          let flags ← unpackU32E rest 8
          let formId ← unpackU32E rest 12
          if 24 + dataSize > rest.length then .ok []
          else if flags &&& COMPRESSED_FLAG ≠ 0 then
            if ((rest.drop 24).take dataSize).length < 4 then
              parseRecsGo pr fuel (rest.drop (24 + dataSize))
            else do
              let _ ← unpackU32E ((rest.drop 24).take dataSize) 0
              match zlibDecompress (((rest.drop 24).take dataSize).drop 4) with
              | none => parseRecsGo pr fuel (rest.drop (24 + dataSize))
              | some d => do
                let subs ← tryParseSubs pr (rest.take 4) formId d
                let tail ← parseRecsGo pr fuel (rest.drop (24 + dataSize))
                pure (subs ++ tail)
          else do
            let subs ← tryParseSubs pr (rest.take 4) formId
              ((rest.drop 24).take dataSize)
            let tail ← parseRecsGo pr fuel (rest.drop (24 + dataSize))
            pure (subs ++ tail)

/-- Model of `parse_esm_bytes(data)`, parameterised by the
`str.isprintable` predicate `pr`. -/
def parse_esm_bytes (pr : Char → Bool) (data : Bytes) :
    Except PyErr (List StringRecord) :=
  if data.isEmpty then .ok []
  else if data.length < 24 then .ok []
  else if data.take 4 ≠ TES4 then .ok []
  else do
    let headerDataSize ← unpackU32E data 4
    if 24 + headerDataSize > data.length then .ok []
    else parseRecsGo pr (data.length + 1) (data.drop (24 + headerDataSize))

/-- Printability predicate used at concrete inputs: agrees with
Python's `str.isprintable` on the ASCII range, on which alone the
concrete texts below evaluate it. -/
def asciiPrintable (c : Char) : Bool :=
  decide (32 ≤ c.toNat) && decide (c.toNat ≤ 126)

example : parse_esm_bytes asciiPrintable scratchFile =
    .ok [⟨scratchId, ['H', 'i']⟩] := by decide

/-- Stored-block zlib stream holding the subrecord bytes
`FULL`, size 3, `Hi\x00`. -/
def sampleZStream : Bytes :=
  [120, 1, 1, 9, 0, 246, 255] ++ (FULL ++ u16le 3 ++ [72, 105, 0]) ++
    [10, 188, 1, 232]

/-- Record header of a compressed `WEAP` record (flag 0x00040000) whose
stored payload is the 4-byte expected-size prefix plus the zlib
stream. -/
def compressedRecHeader : Bytes :=
  [87, 69, 65, 80] ++ u32le 24 ++ u32le 262144 ++ u32le 256 ++ u32le 0 ++
    [0, 0, 0, 0]

/-- A well-formed file whose only record is compressed. -/
def compressedFile : Bytes :=
  scratchTes4 ++ compressedRecHeader ++ (u32le 9 ++ sampleZStream)

example : zlibDecompress sampleZStream = some (FULL ++ u16le 3 ++ [72, 105, 0]) := by decide

example : parse_esm_bytes asciiPrintable compressedFile =
    .ok [⟨scratchId, ['H', 'i']⟩] := by decide

/-- C2.  Evaluation of the code at the failing input: the compressed
`WEAP` record in `compressedFile` parses (via inflation) to the string
record `WEAP:00000100:FULL = "Hi"`, yet rewriting the file with a
translation for exactly that record id returns the file byte-for-byte
unchanged — the rewriter never inflates the payload, applies no
replacement, does not re-deflate, and leaves the stale 4-byte
expected-size prefix `u32le 9` in place (the claim requires the prefix
to become the new inflated size, here 12). -/
theorem claim2_compressed_record_not_recompressed :
    parse_esm_bytes asciiPrintable compressedFile =
      .ok [⟨scratchId, ['H', 'i']⟩] ∧
    rewrite_esm_bytes compressedFile
        [(scratchId, ['H', 'e', 'l', 'l', 'o'])] =
      .ok compressedFile ∧
    (FULL ++ u16le 6 ++ (utf8Encode ['H', 'e', 'l', 'l', 'o'] ++ [0])).length
      = 12 := by
  refine ⟨by decide, by decide, by decide⟩

/-- Errors of `_build_record_id` are always ASCII decode errors. -/
theorem build_record_id_error_unicode {recTy subTy : Bytes} {formId : Nat}
    {e : PyErr} (h : build_record_id recTy formId subTy = .error e) :
    e = .unicodeDecodeError := by
  rw [build_record_id] at h
  by_cases h1 : recTy.all (· < 128) = true
  · have ha1 : asciiDecode recTy = .ok (recTy.map Char.ofNat) := by
      rw [asciiDecode, if_pos h1]
    simp only [ha1, ebind_ok] at h
    by_cases h2 : subTy.all (· < 128) = true
    · have ha2 : asciiDecode subTy = .ok (subTy.map Char.ofNat) := by
        rw [asciiDecode, if_pos h2]
      simp only [ha2, ebind_ok, epure_eq] at h
      exact Except.noConfusion h
    · have ha2 : asciiDecode subTy = .error .unicodeDecodeError := by
        rw [asciiDecode, if_neg h2]
      simp only [ha2, ebind_error] at h
      injection h with h'
      exact h'.symm
  · have ha1 : asciiDecode recTy = .error .unicodeDecodeError := by
      rw [asciiDecode, if_neg h1]
    simp only [ha1, ebind_error] at h
    injection h with h'
    exact h'.symm

/-- The `_parse_subrecords` loop either succeeds or raises exactly a
`UnicodeDecodeError` (from a non-ASCII record tag reaching
`_build_record_id`); it never runs out of fuel when given more fuel
than window bytes. -/
theorem parseSubsGo_ok (pr : Char → Bool) (recTy : Bytes) (formId : Nat) :
    ∀ fuel rest, rest.length < fuel →
    (∃ l, parseSubsGo pr recTy formId fuel rest = .ok l) ∨
    parseSubsGo pr recTy formId fuel rest = .error .unicodeDecodeError := by
  intro fuel
  induction fuel with
  | zero => intro rest h; omega
  | succ k ih =>
    intro rest hlen
    rw [parseSubsGo]
    by_cases hre : rest.isEmpty
    · rw [if_pos hre]
      exact Or.inl ⟨[], rfl⟩
    · rw [if_neg hre]
      by_cases h6 : rest.length < 6
      · rw [if_pos h6]
        exact Or.inl ⟨[], rfl⟩
      · rw [if_neg h6]
        have hu : unpackU16E rest 4 = .ok (readU16 rest 4) := by
          rw [unpackU16E, if_pos (by omega)]
        simp only [hu, ebind_ok]
        have hdlen : (rest.drop (6 + readU16 rest 4)).length < k := by
          rw [List.length_drop]; omega
        by_cases hgt : 6 + readU16 rest 4 > rest.length
        · rw [if_pos hgt]
          exact Or.inl ⟨[], rfl⟩
        · rw [if_neg hgt]
          by_cases htr : (isTranslatableSub recTy (rest.take 4) &&
              decide (0 < readU16 rest 4)) = true
          · rw [if_pos htr]
            by_cases htxt : (decide
                (decode_text ((rest.drop 6).take (readU16 rest 4)) ≠ []) &&
                is_printable_text pr
                  (decode_text ((rest.drop 6).take (readU16 rest 4)))) = true
            · rw [if_pos htxt]
              cases hid : build_record_id recTy formId (rest.take 4) with
              | error e =>
                simp only [hid, ebind_error]
                rw [build_record_id_error_unicode hid]
                exact Or.inr rfl
              | ok rid =>
                simp only [hid, ebind_ok]
                rcases ih (rest.drop (6 + readU16 rest 4)) hdlen with
                  ⟨l, hl⟩ | he
                · exact Or.inl
                    ⟨⟨rid, decode_text ((rest.drop 6).take (readU16 rest 4))⟩
                      :: l, by simp only [hl, ebind_ok, epure_eq]⟩
                · right
                  simp only [he, ebind_error]
            · rw [if_neg htxt]
              exact ih (rest.drop (6 + readU16 rest 4)) hdlen
          · rw [if_neg htr]
            exact ih (rest.drop (6 + readU16 rest 4)) hdlen

/-- The `try/except` wrapper around `_parse_subrecords` always
succeeds. -/
theorem tryParseSubs_ok (pr : Char → Bool) (recTy : Bytes) (formId : Nat)
    (d : Bytes) : ∃ l, tryParseSubs pr recTy formId d = .ok l := by
  rcases parseSubsGo_ok pr recTy formId (d.length + 1) d (Nat.lt_succ_self _)
    with ⟨l, hl⟩ | he
  · exact ⟨l, by rw [tryParseSubs, parse_subrecords, hl]⟩
  · exact ⟨[], by rw [tryParseSubs, parse_subrecords, he]⟩

/-- The `_parse_records` loop never raises when given more fuel than
window bytes: every defect branch degrades to skipping. -/
theorem parseRecsGo_ok (pr : Char → Bool) :
    ∀ fuel rest, rest.length < fuel →
    ∃ l, parseRecsGo pr fuel rest = .ok l := by
  intro fuel
  induction fuel with
  | zero => intro rest h; omega
  | succ k ih =>
    intro rest hlen
    rw [parseRecsGo]
    by_cases hre : rest.isEmpty
    · rw [if_pos hre]; exact ⟨[], rfl⟩
    · rw [if_neg hre]
      by_cases h4 : rest.length < 4
      · rw [if_pos h4]; exact ⟨[], rfl⟩
      · rw [if_neg h4]
        by_cases hg : rest.take 4 = GRUP
        · rw [if_pos hg]
          by_cases h24 : rest.length < 24
          · rw [if_pos h24]; exact ⟨[], rfl⟩
          · rw [if_neg h24]
            have hu : unpackU32E rest 4 = .ok (readU32 rest 4) := by
              rw [unpackU32E, if_pos (by omega)]
            simp only [hu, ebind_ok]
            by_cases hgs : readU32 rest 4 < 24
            · rw [if_pos hgs]; exact ⟨[], rfl⟩
            · rw [if_neg hgs]
              obtain ⟨li, hli⟩ := ih
                ((rest.drop 24).take (min (readU32 rest 4) rest.length - 24))
                (by
                  have := List.length_take_le
                    (min (readU32 rest 4) rest.length - 24) (rest.drop 24)
                  simp only [List.length_drop] at this
                  omega)
              obtain ⟨lt, hlt⟩ := ih
                (rest.drop (min (readU32 rest 4) rest.length))
                (by rw [List.length_drop]; omega)
              exact ⟨li ++ lt, by
                simp only [hli, hlt, ebind_ok, epure_eq]⟩
        · rw [if_neg hg]
          by_cases h24 : rest.length < 24
          · rw [if_pos h24]; exact ⟨[], rfl⟩
          · rw [if_neg h24]
            have hu4 : unpackU32E rest 4 = .ok (readU32 rest 4) := by
              rw [unpackU32E, if_pos (by omega)]
            have hu8 : unpackU32E rest 8 = .ok (readU32 rest 8) := by
              rw [unpackU32E, if_pos (by omega)]
            have hu12 : unpackU32E rest 12 = .ok (readU32 rest 12) := by
              rw [unpackU32E, if_pos (by omega)]
            simp only [hu4, hu8, hu12, ebind_ok]
            by_cases hds : 24 + readU32 rest 4 > rest.length
            · rw [if_pos hds]; exact ⟨[], rfl⟩
            · rw [if_neg hds]
              obtain ⟨lt, hlt⟩ := ih (rest.drop (24 + readU32 rest 4))
                (by rw [List.length_drop]; omega)
              by_cases hcf : readU32 rest 8 &&& COMPRESSED_FLAG ≠ 0
              · rw [if_pos hcf]
                by_cases hc4 : ((rest.drop 24).take (readU32 rest 4)).length < 4
                · rw [if_pos hc4]
                  exact ⟨lt, hlt⟩
                · rw [if_neg hc4]
                  have huc : unpackU32E ((rest.drop 24).take (readU32 rest 4))
                      0 = .ok (readU32 ((rest.drop 24).take (readU32 rest 4))
                      0) := by
                    rw [unpackU32E, if_pos (by omega)]
                  simp only [huc, ebind_ok]
                  cases hz : zlibDecompress
                      (((rest.drop 24).take (readU32 rest 4)).drop 4) with
                  | none => exact ⟨lt, hlt⟩
                  | some d =>
                    obtain ⟨ls, hls⟩ := tryParseSubs_ok pr (rest.take 4)
                      (readU32 rest 12) d
                    exact ⟨ls ++ lt, by
                      simp only [hls, hlt, ebind_ok, epure_eq]⟩
              · rw [if_neg hcf]
                obtain ⟨ls, hls⟩ := tryParseSubs_ok pr (rest.take 4)
                  (readU32 rest 12) ((rest.drop 24).take (readU32 rest 4))
                exact ⟨ls ++ lt, by simp only [hls, hlt, ebind_ok, epure_eq]⟩

/-- C9.  For every byte string — truncated headers, size fields larger
than the remaining bytes, non-ASCII tags, corrupt zlib streams included
— and every printability predicate, parsing returns a (possibly
partial) record list and never raises: every defect branch only skips
that record or halts that sibling sequence. -/
theorem claim9_parse_never_raises (pr : Char → Bool) (data : Bytes) :
    ∃ l, parse_esm_bytes pr data = .ok l := by
  rw [parse_esm_bytes]
  by_cases h0 : data.isEmpty
  · rw [if_pos h0]; exact ⟨[], rfl⟩
  · rw [if_neg h0]
    by_cases h24 : data.length < 24
    · rw [if_pos h24]; exact ⟨[], rfl⟩
    · rw [if_neg h24]
      by_cases ht : data.take 4 ≠ TES4
      · rw [if_pos ht]; exact ⟨[], rfl⟩
      · rw [if_neg ht]
        have hu : unpackU32E data 4 = .ok (readU32 data 4) := by
          rw [unpackU32E, if_pos (by omega)]
        simp only [hu, ebind_ok]
        by_cases hfo : 24 + readU32 data 4 > data.length
        · rw [if_pos hfo]; exact ⟨[], rfl⟩
        · rw [if_neg hfo]
          exact parseRecsGo_ok pr (data.length + 1)
            (data.drop (24 + readU32 data 4))
            (by rw [List.length_drop]; omega)

/-! ## The LLM client (engine/llm_client.py)

Python `str` values are `List Char`.  `re` idioms are modelled by
single-pass character scans; Python dicts by `dictUpd` below. -/

/-- Python dict assignment `m[k] = v`: overwrite in place if the key
exists, else append. -/
def dictUpd {α β : Type} [BEq α] (m : List (α × β)) (k : α) (v : β) :
    List (α × β) :=
  if m.any (fun p => p.1 == k) then
    m.map (fun p => if p.1 == k then (k, v) else p)
  else m ++ [(k, v)]

/-- Python `dict.update(new)`: assign every entry of `new` in order. -/
def dictUpdAll {α β : Type} [BEq α] (m new : List (α × β)) :
    List (α × β) :=
  new.foldl (fun acc p => dictUpd acc p.1 p.2) m

/-- Whitespace characters of Python's `\s` / `str.strip()` (the ASCII
subset; the concrete texts below contain no exotic Unicode spaces). -/
def isPyWs (c : Char) : Bool :=
  c = Char.ofNat 32 || c = Char.ofNat 9 || c = Char.ofNat 10 ||
    c = Char.ofNat 13 || c = Char.ofNat 11 || c = Char.ofNat 12

/-- Model of `str.strip()`. -/
def pyStrip (s : List Char) : List Char :=
  ((s.dropWhile isPyWs).reverse.dropWhile isPyWs).reverse

/-- Value of a digit string (`int(...)` on the captured group). -/
def natOfDigits (ds : List Char) : Nat :=
  ds.foldl (fun a c => 10 * a + (c.toNat - 48)) 0

/-- Model of `re.match(r"\[(\d+)\]\s*(.*)", line)`: an anchored
number-in-brackets header; returns the number and the rest of the line
after skipping whitespace. -/
def matchNumLine (l : List Char) : Option (Nat × List Char) :=
  match l with
  | '[' :: rest =>
    if (rest.takeWhile Char.isDigit).isEmpty then none
    else match rest.dropWhile Char.isDigit with
      | ']' :: r2 =>
        some (natOfDigits (rest.takeWhile Char.isDigit), r2.dropWhile isPyWs)
      | _ => none
  | _ => none

/-- Joining of continuation lines followed by trimming:
`"\n".join(current_lines).strip()`. -/
def trimJoin (ls : List (List Char)) : List Char :=
  pyStrip (List.intercalate [Char.ofNat 10] ls)

/-- State machine of `_parse_response`'s first loop: accumulate numbered
translations, joining continuation lines, later numbers overwriting
earlier ones. -/
def parseNumberedGo :
    List (List Char) → Option (Nat × List (List Char)) →
    List (Nat × List Char) → List (Nat × List Char)
  | [], cur, acc =>
    match cur with
    | some (i, ls) => dictUpd acc i (trimJoin ls)
    | none => acc
  | ln :: rest, cur, acc =>
    match matchNumLine ln with
    | some (n, txt) =>
      parseNumberedGo rest (some (n, [txt]))
        (match cur with
         | some (i, ls) => dictUpd acc i (trimJoin ls)
         | none => acc)
    | none =>
      match cur with
      | some (i, ls) => parseNumberedGo rest (some (i, ls ++ [ln])) acc
      | none => parseNumberedGo rest none acc

/-- The numbered-translation dictionary extracted from a reply:
`response_text.strip().split("\n")` fed to the state machine. -/
def parseNumbered (responseText : List Char) : List (Nat × List Char) :=
  parseNumberedGo ((pyStrip responseText).splitOn (Char.ofNat 10)) none []

/-- Second loop of `_parse_response`: one entry per input record, at
1-based index `i+1`; an absent or empty translation falls back to the
record's original text. -/
def buildResult (translations : List (Nat × List Char)) :
    List StringRecord → Nat → TransMap → TransMap
  | [], _, acc => acc
  | r :: rs, i, acc =>
    buildResult translations rs (i + 1)
      (if ((translations.lookup (i + 1)).getD []).isEmpty then
        dictUpd acc r.record_id r.text
      else dictUpd acc r.record_id ((translations.lookup (i + 1)).getD []))

/-- Model of `_parse_response(response_text, records)`. -/
def parse_response (responseText : List Char)
    (records : List StringRecord) : TransMap :=
  buildResult (parseNumbered responseText) records 0 []

/-! ### Tag masking -/

/-- Decimal digit character. -/
def digitChar (n : Nat) : Char := Char.ofNat (48 + n)

def natDigitsGo : Nat → Nat → List Char
  | 0, _ => []
  | fuel + 1, n =>
    if n < 10 then [digitChar n]
    else natDigitsGo fuel (n / 10) ++ [digitChar (n % 10)]

/-- Decimal representation of a natural number (`str(i)`). -/
def toDecimal (n : Nat) : List Char := natDigitsGo (n + 1) n

/-- The placeholder `f"{{{{TAG_{i}}}}}"`, i.e. the literal text
`{{TAG_i}}`. -/
def placeholder (i : Nat) : List Char :=
  '{' :: '{' :: 'T' :: 'A' :: 'G' :: '_' :: (toDecimal i ++ ['}', '}'])

/-- Single left-to-right scan computing
`re.findall(r"<[^>]+>", s)`: a match is `<`, one or more non-`>`
characters, then `>`.  The scan state is `none` outside a candidate and
`some buf` after an unmatched `<` (with `buf` the non-`>` characters
seen since); `<>` aborts a candidate exactly as the regex fails there
and resumes scanning after the `>`, and an unclosed trailing candidate
produces no match, exactly as the regex finds no further `>`. -/
def scanTagsGo : List Char → Option (List Char) → List (List Char)
  | [], _ => []
  | c :: rest, none =>
    if c = '<' then scanTagsGo rest (some []) else scanTagsGo rest none
  | c :: rest, some buf =>
    if c = '>' then
      if buf.isEmpty then scanTagsGo rest none
      else ('<' :: (buf ++ ['>'])) :: scanTagsGo rest none
    else scanTagsGo rest (some (buf ++ [c]))

/-- Model of `_TAG_PATTERN.findall(text)`. -/
def findall_tags (s : List Char) : List (List Char) := scanTagsGo s none

/-- Model of `str.replace(old, new, 1)`: replace the leftmost
occurrence of `old`, if any. -/
def replaceFirst (old new : List Char) : List Char → List Char
  | [] => if old.isEmpty then new else []
  | c :: cs =>
    if old.isPrefixOf (c :: cs) then new ++ (c :: cs).drop old.length
    else c :: replaceFirst old new cs

/-- Worker for `replaceAll`; the counter skips the remainder of a
just-replaced occurrence so that replacements do not overlap. -/
def replaceAllGo (old new : List Char) : List Char → Nat → List Char
  | [], skip =>
    match skip with
    | 0 => if old.isEmpty then new else []
    | _ + 1 => []
  | _ :: cs, skip + 1 => replaceAllGo old new cs skip
  | c :: cs, 0 =>
    if old.isPrefixOf (c :: cs) then
      new ++ replaceAllGo old new cs (old.length - 1)
    else c :: replaceAllGo old new cs 0

/-- Model of `str.replace(old, new)`: replace every non-overlapping
occurrence left to right. -/
def replaceAll (s old new : List Char) : List Char :=
  replaceAllGo old new s 0

/-- Loop of `_mask_tags`: replace the first occurrence of each found
tag by its indexed placeholder. -/
def maskLoop : List Char → List (List Char) → Nat → List Char
  | masked, [], _ => masked
  | masked, t :: ts, i => maskLoop (replaceFirst t (placeholder i) masked) ts (i + 1)

/-- Model of `_mask_tags(text)`. -/
def mask_tags (text : List Char) : List Char × List (List Char) :=
  (maskLoop text (findall_tags text) 0, findall_tags text)

/-- Loop of `_unmask_tags`. -/
def unmaskLoop : List Char → List (List Char) → Nat → List Char
  | t, [], _ => t
  | t, tag :: ts, i => unmaskLoop (replaceAll t (placeholder i) tag) ts (i + 1)

/-- Model of `_unmask_tags(text, tags)`. -/
def unmask_tags (text : List Char) (tags : List (List Char)) : List Char :=
  unmaskLoop text tags 0

/-! ### The batched, retried driver -/

def MAX_RETRIES : Nat := 3

def RETRY_DELAYS : List Nat := [1, 2, 4]

/-- Post-processing after `_parse_response` in `_translate_batch`:
`result[id] = _unmask_tags(result[id], tags_map[i])` for every record
whose id is in the result and whose text contained tags. -/
def applyUnmask : TransMap → List StringRecord → TransMap
  | result, [] => result
  | result, r :: rs =>
    applyUnmask
      (if (result.lookup r.record_id).isSome ∧
          ¬(mask_tags r.text).2.isEmpty then
        dictUpd result r.record_id
          (unmask_tags ((result.lookup r.record_id).getD [])
            (mask_tags r.text).2)
      else result) rs

/-- Outcome of `_translate_batch` against a call oracle: the result
map, the next global call index, and the sleeps performed. -/
structure BatchOutcome where
  result : TransMap
  nextCall : Nat
  sleeps : List Nat
deriving DecidableEq, Repr

/-- Retry loop of `_translate_batch`.  `oracle i` is the text returned
by the `i`-th chat-completion call of the run, `none` standing for a
raised exception.  `remaining` counts the attempts left (starting at
`MAX_RETRIES`); a failure with attempts left sleeps
`RETRY_DELAYS[attempt]` and retries; the final failure logs and falls
through to `return {}`. -/
def tbGo (oracle : Nat → Option (List Char)) (records : List StringRecord) :
    Nat → Nat → List Nat → BatchOutcome
  | 0, idx, acc => ⟨[], idx, acc⟩
  | remaining + 1, idx, acc =>
    match oracle idx with
    | some responseText =>
      ⟨applyUnmask (parse_response responseText records) records,
        idx + 1, acc⟩
    | none =>
      if remaining = 0 then ⟨[], idx + 1, acc⟩
      else tbGo oracle records remaining (idx + 1)
        (acc ++ [RETRY_DELAYS.getD (MAX_RETRIES - (remaining + 1)) 0])

/-- Model of `_translate_batch`, starting at global call index `idx`. -/
def translate_batch (oracle : Nat → Option (List Char))
    (records : List StringRecord) (idx : Nat) : BatchOutcome :=
  tbGo oracle records MAX_RETRIES idx []

/-- Consecutive chunks of size `bs` (`records[i : i + batch_size]`);
fuelled, with `length` fuel sufficient for every positive `bs`. -/
def chunksGo (bs : Nat) : Nat → List StringRecord → List (List StringRecord)
  | 0, _ => []
  | _, [] => []
  | fuel + 1, l => l.take bs :: chunksGo bs fuel (l.drop bs)

/-- Model of the batching loop of `translate_records`: returns the
accumulated translation map and the total number of model calls. -/
def translate_records (oracle : Nat → Option (List Char))
    (records : List StringRecord) (batchSize : Nat) : TransMap × Nat :=
  if records.isEmpty then ([], 0)
  else
    (chunksGo batchSize records.length records).foldl
      (fun st batch =>
        let out := translate_batch oracle batch st.2
        (dictUpdAll st.1 out.result, out.nextCall))
      ([], 0)

example : parse_response
    ['[', '1', ']', ' ', 'X', Char.ofNat 10, '[', '2', ']', ' ', 'Y']
    [⟨['a'], ['p']⟩, ⟨['b'], ['q']⟩] =
    [(['a'], ['X']), (['b'], ['Y'])] := by decide

example : mask_tags ['a', '<', 'b', '>', 'c'] =
    (['a', '{', '{', 'T', 'A', 'G', '_', '0', '}', '}', 'c'],
     [['<', 'b', '>']]) := by decide

example : unmask_tags
    ['a', '{', '{', 'T', 'A', 'G', '_', '0', '}', '}', 'c']
    [['<', 'b', '>']] = ['a', '<', 'b', '>', 'c'] := by decide

example : translate_batch (fun _ => none) [⟨['a'], ['p']⟩] 0 =
    ⟨[], 3, [1, 2]⟩ := by decide

example : translate_records
    (fun i => if i = 0 then
      some ['[', '1', ']', ' ', 'X', Char.ofNat 10, '[', '2', ']', ' ', 'Y']
      else none)
    [⟨['a'], ['p']⟩, ⟨['b'], ['q']⟩, ⟨['c'], ['r']⟩, ⟨['d'], ['s']⟩] 2 =
    ([(['a'], ['X']), (['b'], ['Y'])], 4) := by decide

/-- C6 counterexample: the reply `"[1]"` contains number 1 with an
empty translation, yet the record numbered 1 receives its original
source text rather than the empty translation the claim assigns it. -/
theorem claim6_counterexample_present_empty_translation :
    parseNumbered ['[', '1', ']'] = [(1, [])] ∧
    parse_response ['[', '1', ']'] [⟨['i', 'd'], ['h', 'i']⟩] =
      [(['i', 'd'], ['h', 'i'])] ∧
    (['h', 'i'] : List Char) ≠ [] :=
  ⟨by decide, by decide, by decide⟩

/-- The value `_parse_response` assigns to the record at 0-based
position `j`: the numbered translation `j+1` when it is non-empty after
trimming, the record's original text otherwise. -/
def respValue (translations : List (Nat × List Char)) (j : Nat)
    (r : StringRecord) : List Char :=
  if ((translations.lookup (j + 1)).getD []).isEmpty then r.text
  else (translations.lookup (j + 1)).getD []

theorem dictUpd_fresh {acc : TransMap} {k : List Char} {v : List Char}
    (h : ∀ p ∈ acc, p.1 ≠ k) : dictUpd acc k v = acc ++ [(k, v)] := by
  rw [dictUpd, if_neg]
  simp only [List.any_eq_true, beq_iff_eq, not_exists, not_and]
  intro p hp
  exact h p hp

theorem buildResult_eq (tr : List (Nat × List Char)) :
    ∀ (rs : List StringRecord) (i : Nat) (acc : TransMap),
    (∀ r ∈ rs, ∀ p ∈ acc, p.1 ≠ r.record_id) →
    (rs.map (·.record_id)).Nodup →
    buildResult tr rs i acc =
      acc ++ (List.enumFrom i rs).map
        (fun p => (p.2.record_id, respValue tr p.1 p.2)) := by
  intro rs
  induction rs with
  | nil => intro i acc _ _; simp [buildResult]
  | cons r rs' ih =>
    intro i acc hfresh hnd
    rw [buildResult]
    have hstep : (if ((tr.lookup (i + 1)).getD []).isEmpty then
        dictUpd acc r.record_id r.text
      else dictUpd acc r.record_id ((tr.lookup (i + 1)).getD [])) =
        dictUpd acc r.record_id (respValue tr i r) := by
      rw [respValue]
      by_cases hc : ((tr.lookup (i + 1)).getD []).isEmpty = true
      · rw [if_pos hc, if_pos hc]
      · rw [if_neg hc, if_neg hc]
    rw [hstep, dictUpd_fresh (fun p hp => hfresh r (List.mem_cons_self r rs') p hp)]
    rw [List.map_cons, List.nodup_cons] at hnd
    have hfresh' : ∀ r' ∈ rs', ∀ p ∈ acc ++ [(r.record_id, respValue tr i r)],
        p.1 ≠ r'.record_id := by
      intro r' hr' p hp
      rcases List.mem_append.1 hp with hpa | hpb
      · exact hfresh r' (List.mem_cons_of_mem r hr') p hpa
      · rcases List.mem_singleton.1 hpb with rfl
        intro hcontra
        refine hnd.1 ?_
        rw [show r.record_id = r'.record_id from hcontra]
        exact List.mem_map_of_mem (·.record_id) hr'
    rw [ih (i + 1) _ hfresh' hnd.2]
    rw [List.enumFrom_cons, List.map_cons, List.append_assoc]
    rfl

theorem lookup_map_enumFrom (tr : List (Nat × List Char)) :
    ∀ (rs : List StringRecord) (i0 j : Nat) (hj : j < rs.length),
    (rs.map (·.record_id)).Nodup →
    ((List.enumFrom i0 rs).map
        (fun p => (p.2.record_id, respValue tr p.1 p.2))).lookup
      (rs.get ⟨j, hj⟩).record_id =
      some (respValue tr (i0 + j) (rs.get ⟨j, hj⟩)) := by
  intro rs
  induction rs with
  | nil => intro i0 j hj _; simp at hj
  | cons r rs' ih =>
    intro i0 j hj hnd
    rw [List.map_cons, List.nodup_cons] at hnd
    match j with
    | 0 =>
      rw [List.enumFrom_cons, List.map_cons]
      show List.lookup r.record_id _ = _
      rw [List.lookup_cons]
      simp
    | j' + 1 =>
      have hj' : j' < rs'.length := by simpa using Nat.lt_of_succ_lt_succ hj
      have hget : ((r :: rs').get ⟨j' + 1, hj⟩) = rs'.get ⟨j', hj'⟩ := rfl
      rw [List.enumFrom_cons, List.map_cons, hget]
      show List.lookup _ (_ :: _) = _
      rw [List.lookup_cons]
      have hne : ((rs'.get ⟨j', hj'⟩).record_id == r.record_id) = false := by
        rw [beq_eq_false_iff_ne]
        intro hcontra
        refine hnd.1 ?_
        rw [← hcontra]
        exact List.mem_map_of_mem (·.record_id) (rs'.get_mem _ _)
      rw [hne]
      have := ih (i0 + 1) j' hj' hnd.2
      rw [(by omega : i0 + (j' + 1) = i0 + 1 + j')]
      exact this

/-- C6 amended.  For every reply and records with distinct ids the
reply parser returns a map whose keys are exactly the input record ids
in order (no key is lost); record `j` receives the translation numbered
`j+1` (continuation lines joined with a newline and the result trimmed)
when that translation is non-empty after trimming, and the record's
original source text when the number is missing from the reply or its
translation trims to the empty string. -/
theorem claim6_reply_parser_amended (records : List StringRecord)
    (resp : List Char) (hnd : (records.map (·.record_id)).Nodup) :
    (parse_response resp records).map Prod.fst =
      records.map (·.record_id) ∧
    ∀ j (hj : j < records.length),
      (parse_response resp records).lookup
          (records.get ⟨j, hj⟩).record_id =
        some (respValue (parseNumbered resp) j (records.get ⟨j, hj⟩)) := by
  have hb := buildResult_eq (parseNumbered resp) records 0 []
    (by intro r _ p hp; simp at hp) hnd
  rw [parse_response, hb]
  constructor
  · rw [List.nil_append, List.map_map]
    have : ∀ (l : List StringRecord) (i0 : Nat),
        (List.enumFrom i0 l).map
          ((fun pr => pr.1) ∘ (fun p : Nat × StringRecord =>
            (p.2.record_id, respValue (parseNumbered resp) p.1 p.2))) =
          l.map (·.record_id) := by
      intro l
      induction l with
      | nil => intro i0; rfl
      | cons x xs ihl =>
        intro i0
        rw [List.enumFrom_cons, List.map_cons, List.map_cons, ihl]
        rfl
    exact this records 0
  · intro j hj
    rw [List.nil_append]
    have := lookup_map_enumFrom (parseNumbered resp) records 0 j hj hnd
    rw [Nat.zero_add] at this
    exact this

/-- Witness for C6 amended, at a reply that numbers only the second
record: the first falls back to its source text, no key is lost. -/
theorem claim6_reply_parser_amended_witness :
    (([⟨['a'], ['p']⟩, ⟨['b'], ['q']⟩] :
        List StringRecord).map (·.record_id)).Nodup ∧
    ((parse_response ['[', '2', ']', ' ', 'Z']
        [⟨['a'], ['p']⟩, ⟨['b'], ['q']⟩]).map Prod.fst =
      ([⟨['a'], ['p']⟩, ⟨['b'], ['q']⟩] :
        List StringRecord).map (·.record_id) ∧
    ∀ j (hj : j < ([⟨['a'], ['p']⟩, ⟨['b'], ['q']⟩] :
        List StringRecord).length),
      (parse_response ['[', '2', ']', ' ', 'Z']
          [⟨['a'], ['p']⟩, ⟨['b'], ['q']⟩]).lookup
        (([⟨['a'], ['p']⟩, ⟨['b'], ['q']⟩] :
          List StringRecord).get ⟨j, hj⟩).record_id =
        some (respValue (parseNumbered ['[', '2', ']', ' ', 'Z']) j
          (([⟨['a'], ['p']⟩, ⟨['b'], ['q']⟩] :
            List StringRecord).get ⟨j, hj⟩))) :=
  ⟨by decide,
    claim6_reply_parser_amended [⟨['a'], ['p']⟩, ⟨['b'], ['q']⟩]
      ['[', '2', ']', ' ', 'Z'] (by decide)⟩

/-- Case analysis of `_translate_batch`: at most three calls, sleeping
1s after the first failure and 2s after the second; the third failure
returns the empty map without sleeping — the configured 4-second delay
`RETRY_DELAYS[2]` is unreachable. -/
theorem translate_batch_cases (oracle : Nat → Option (List Char))
    (records : List StringRecord) (idx : Nat) :
    translate_batch oracle records idx =
      match oracle idx with
      | some t =>
        ⟨applyUnmask (parse_response t records) records, idx + 1, []⟩
      | none =>
        match oracle (idx + 1) with
        | some t =>
          ⟨applyUnmask (parse_response t records) records, idx + 2, [1]⟩
        | none =>
          match oracle (idx + 2) with
          | some t =>
            ⟨applyUnmask (parse_response t records) records, idx + 3, [1, 2]⟩
          | none => ⟨[], idx + 3, [1, 2]⟩ := by
  rw [translate_batch, MAX_RETRIES, tbGo]
  cases h0 : oracle idx with
  | some t => rfl
  | none =>
    rw [tbGo]
    cases h1 : oracle (idx + 1) with
    | some t => rfl
    | none =>
      rw [tbGo]
      cases h2 : oracle (idx + 2) with
      | some t => rfl
      | none => rfl

/-- C7 counterexample: a batch whose model call always fails performs
exactly 3 calls and sleeps `[1, 2]` — not the `[1, 2, 4]` before
attempts 2, 3, 4 that the claim asserts, and not 4 attempts. -/
theorem claim7_counterexample_retry_delays :
    translate_batch (fun _ => none) [⟨['a'], ['p']⟩] 0 =
      ⟨[], 3, [1, 2]⟩ ∧
    ¬ (translate_batch (fun _ => none) [⟨['a'], ['p']⟩] 0).sleeps =
      [1, 2, 4] ∧
    ¬ (translate_batch (fun _ => none) [⟨['a'], ['p']⟩] 0).nextCall =
      0 + 4 :=
  ⟨by decide, by decide, by decide⟩

/-- C7 amended.  Every batch makes between 1 and 3 model calls with
backoff sleeps a prefix of `[1, 2]` (the 4-second entry of
`RETRY_DELAYS` is never slept); a batch that exhausts its attempts
contributes the empty map while later batches proceed, so that with
`batch_size = 2` and 4 records, where the first batch succeeds and the
second always fails, exactly `1 + 3` calls occur and the final map
holds only the first batch's two keys. -/
theorem claim7_retry_and_batch_isolation_amended :
    (∀ (oracle : Nat → Option (List Char)) (records : List StringRecord)
      (idx : Nat),
      ((translate_batch oracle records idx).nextCall - idx ≤ MAX_RETRIES ∧
        idx < (translate_batch oracle records idx).nextCall) ∧
      ((translate_batch oracle records idx).sleeps = [] ∨
        (translate_batch oracle records idx).sleeps = [1] ∨
        (translate_batch oracle records idx).sleeps = [1, 2])) ∧
    ((∀ i, i ≠ 0 → (fun j => if j = 0 then
        some ['[', '1', ']', ' ', 'X', Char.ofNat 10, '[', '2', ']', ' ', 'Y']
        else none) i = none) ∧
      translate_records (fun j => if j = 0 then
        some ['[', '1', ']', ' ', 'X', Char.ofNat 10, '[', '2', ']', ' ', 'Y']
        else none)
        [⟨['a'], ['p']⟩, ⟨['b'], ['q']⟩, ⟨['c'], ['r']⟩, ⟨['d'], ['s']⟩] 2 =
      ([(['a'], ['X']), (['b'], ['Y'])], 1 + 3)) := by
  constructor
  · intro oracle records idx
    rw [translate_batch_cases, MAX_RETRIES]
    cases h0 : oracle idx with
    | some t => exact ⟨⟨by dsimp only []; omega, by dsimp only []; omega⟩,
        Or.inl rfl⟩
    | none =>
      cases h1 : oracle (idx + 1) with
      | some t => exact ⟨⟨by dsimp only []; omega, by dsimp only []; omega⟩,
          Or.inr (Or.inl rfl)⟩
      | none =>
        cases h2 : oracle (idx + 2) with
        | some t => exact ⟨⟨by dsimp only []; omega, by dsimp only []; omega⟩,
            Or.inr (Or.inr rfl)⟩
        | none => exact ⟨⟨by dsimp only []; omega, by dsimp only []; omega⟩,
            Or.inr (Or.inr rfl)⟩
  · exact ⟨fun i hi => by simp [hi], by decide⟩

/-! ## The orchestrator (engine/translator.py)

The deduplication block of `Translator._run_task` (lines building
`seen_keys`, `dedup_records`, `dedup_map`, and the later fan-out into
`new_translations`) is modelled verbatim; the task bookkeeping around
it is distilled to the pure data flow: progress reports, locking and
the HTTP callbacks carry no data into the translation map or the final
status, the cache query result and the LLM driver output enter as
oracle values (both components swallow their own failures in the
source), and `write_esm`'s byte rewriting is `rewrite_esm_bytes`. -/

/-- Model of `record_id.rsplit(":", 1)` followed by
`parts[-1] if len(parts) > 1 else ""`. -/
def subTypeOf (rid : List Char) : List Char :=
  if rid.contains ':' then (rid.reverse.takeWhile (· ≠ ':')).reverse
  else []

/-- The deduplication key `(sub_type, source_text)`. -/
def dkey (r : StringRecord) : List Char × List Char :=
  (subTypeOf r.record_id, r.text)

/-- State of the deduplication loop: `seen_keys`, `dedup_records`,
`dedup_map`. -/
structure DedupState where
  seen : List ((List Char × List Char) × List Char)
  dedups : List StringRecord
  dmap : List (List Char × List (List Char))

/-- Python `dedup_map[first_id].append(rid)`. -/
def appendToEntry (m : List (List Char × List (List Char)))
    (fid rid : List Char) : List (List Char × List (List Char)) :=
  m.map (fun p => if p.1 == fid then (p.1, p.2 ++ [rid]) else p)

/-- The deduplication loop of `_run_task` over the uncached records. -/
def dedupGo : List StringRecord → DedupState → DedupState
  | [], st => st
  | r :: rest, st =>
    match st.seen.lookup (dkey r) with
    | none => dedupGo rest
        ⟨st.seen ++ [(dkey r, r.record_id)], st.dedups ++ [r],
          st.dmap ++ [(r.record_id, [r.record_id])]⟩
    | some firstId => dedupGo rest
        ⟨st.seen, st.dedups, appendToEntry st.dmap firstId r.record_id⟩

/-- The `(dedup_records, dedup_map)` pair computed from the uncached
records. -/
def dedup_records_map (uncached : List StringRecord) :
    List StringRecord × List (List Char × List (List Char)) :=
  ((dedupGo uncached ⟨[], [], []⟩).dedups, (dedupGo uncached ⟨[], [], []⟩).dmap)

/-- The fan-out `new_translations`: every translated first id is
expanded to all record ids collected for its key. -/
def expand (dtr : TransMap)
    (dmap : List (List Char × List (List Char))) : TransMap :=
  dtr.foldl
    (fun acc p =>
      ((dmap.lookup p.1).getD [p.1]).foldl
        (fun a rid => dictUpd a rid p.2) acc)
    []

/-- Task states of the orchestrator. -/
inductive TaskStatus where
  | waiting | parsing | translating | assembling | completed | failed
deriving DecidableEq, Repr

/-- Distilled outcome of one `_run_task` run: final status and error,
the list handed to the LLM driver, and the translation map given to
the writer. -/
structure RunOutcome where
  status : TaskStatus
  error : Option PyErr
  llmInput : List StringRecord
  translations : TransMap

/-- Distilled `Translator._run_task`: parse, filter by cache hits,
deduplicate, translate the deduplicated list, fan out, merge
`{**cached, **new}`, rewrite; any exception from the write step sets
the task to `failed` with that error, success sets `completed`. -/
def run_task (pr : Char → Bool) (fileBytes : Bytes) (cached : TransMap)
    (llm : List StringRecord → TransMap) : RunOutcome :=
  match parse_esm_bytes pr fileBytes with
  | .error e => ⟨.failed, some e, [], []⟩
  | .ok records =>
    if records.isEmpty then ⟨.completed, none, [], []⟩
    else
      let uncached := records.filter
        (fun r => !(cached.lookup r.record_id).isSome)
      let newTranslations :=
        if uncached.isEmpty then []
        else expand (llm (dedup_records_map uncached).1)
          (dedup_records_map uncached).2
      match rewrite_esm_bytes fileBytes (dictUpdAll cached newTranslations) with
      | .error e => ⟨.failed, some e,
          if uncached.isEmpty then [] else (dedup_records_map uncached).1,
          dictUpdAll cached newTranslations⟩
      | .ok _ => ⟨.completed, none,
          if uncached.isEmpty then [] else (dedup_records_map uncached).1,
          dictUpdAll cached newTranslations⟩

/-- The pointwise rewrite of a matched subrecord whose replacement
payload overflows `u16` is the bare `struct.pack` range error. -/
theorem rewriteSub1_oversize (recTy : Bytes) (formId : Nat) (tr : TransMap)
    (tag : Bytes) (d : Bytes) (newText rid : List Char)
    (htr : isTranslatableSub recTy tag = true) (hd : 0 < d.length)
    (hid : build_record_id recTy formId tag = .ok rid)
    (hlook : tr.lookup rid = some newText)
    (hbig : (utf8Encode newText ++ [0]).length > 65535) :
    rewriteSub1 recTy formId tr ⟨tag, d⟩ = .error .structPackError := by
  rw [rewriteSub1]
  rw [if_pos (by simp [htr, hd])]
  rw [hid]
  dsimp only []
  rw [hlook]
  dsimp only []
  rw [if_pos hbig]

/-- Shared helper: an oversize replacement inside the single subrecord
of a single record makes the whole-file rewrite fail with the
`struct.pack("<H", ...)` range error — an error value that carries no
record id. -/
theorem rewrite_oversize_error (recTy : Bytes) (formId : Nat)
    (tr : TransMap) (tag : Bytes) (d : Bytes) (newText rid : List Char)
    (h t16 tp : Bytes)
    (htag4 : tag.length = 4) (htr : isTranslatableSub recTy tag = true)
    (hd : 0 < d.length) (hd16 : d.length < 2 ^ 16)
    (hid : build_record_id recTy formId tag = .ok rid)
    (hlook : tr.lookup rid = some newText)
    (hbig : (utf8Encode newText ++ [0]).length > 65535)
    (hh24 : h.length = 24) (hhg : h.take 4 ≠ GRUP)
    (hht : h.take 4 = recTy)
    (hhs : (h.drop 4).take 4 = u32le (encodeSubs [⟨tag, d⟩]).length)
    (hhf : readU32 h 12 = formId)
    (h16 : t16.length = 16) (htp : tp.length < 2 ^ 32) :
    rewrite_subrecords recTy formId tr (encodeSubs [⟨tag, d⟩]) =
      .error .structPackError ∧
    rewrite_esm_bytes
        (mkEsmFile t16 tp (.cons (.record h (encodeSubs [⟨tag, d⟩])) .nil))
        tr =
      .error .structPackError := by
  have hw1 : wfSubs [(⟨tag, d⟩ : EsmSub)] = true := by
    simp [wfSubs, wfSub, htag4]; omega
  have hsub1 := rewriteSub1_oversize recTy formId tr tag d newText rid htr
    hd hid hlook hbig
  have hsubs : rewrite_subrecords recTy formId tr (encodeSubs [⟨tag, d⟩]) =
      .error .structPackError := by
    rw [rewrite_subrecords]
    rw [rewriteSubsGo_decompose recTy formId tr _ _ hw1 (Nat.lt_succ_self _)]
    rw [rewriteSubsSpec, hsub1]
  refine ⟨hsubs, ?_⟩
  set payload := encodeSubs [(⟨tag, d⟩ : EsmSub)] with hpay
  have hT4 : TES4.length = 4 := by decide
  have hu4 : (u32le tp.length).length = 4 := u32le_length _
  set F := EsmForest.cons (.record h payload) .nil with hF
  have hencF : encodeForest F = h ++ (payload ++ []) := by
    rw [hF, encodeForest, encodeNode, encodeForest, List.append_nil,
      List.append_nil]
  have hassoc : mkEsmFile t16 tp F =
      TES4 ++ (u32le tp.length ++ (t16 ++ (tp ++ encodeForest F))) := by
    simp [mkEsmFile, List.append_assoc]
  have htake : (mkEsmFile t16 tp F).take 4 = TES4 := by
    rw [hassoc]
    exact take_append_len hT4.symm
  have hread : readU32 (mkEsmFile t16 tp F) 4 = tp.length := by
    rw [hassoc, (by rw [hT4] : 4 = TES4.length + 0), readU32_append_right,
      readU32_append_left (by omega)]
    exact readU32_u32le _ htp
  have hlenF : (mkEsmFile t16 tp F).length =
      24 + tp.length + (encodeForest F).length := by
    simp only [mkEsmFile, List.length_append, hT4, hu4, h16]
  have hdrop : (mkEsmFile t16 tp F).drop (24 + tp.length) =
      encodeForest F := by
    show (TES4 ++ u32le tp.length ++ t16 ++ tp ++ encodeForest F).drop
      (24 + tp.length) = encodeForest F
    exact drop_append_len (by simp [hT4, hu4, h16]; omega)
  rw [rewrite_esm_bytes]
  rw [if_neg (by omega)]
  rw [if_neg (not_not_intro htake)]
  rw [hread]
  rw [if_neg (by omega)]
  rw [hdrop]
  have hfuel : (mkEsmFile t16 tp F).length + 1 =
      (mkEsmFile t16 tp F).length + 1 := rfl
  rw [hencF]
  rw [rewriteRecsGo_record_step tr h payload [] (mkEsmFile t16 tp F).length
    hh24 hhg hhs (by
      rw [hpay]
      have := encodeSub_length (s := ⟨tag, d⟩) (by simp [wfSub, htag4]; omega)
      simp only [encodeSubs, List.map, List.flatten] at this ⊢
      simp [this]; omega)]
  rw [hht, hhf, hsubs]
  rfl

/-- `"A".encode("utf-8")` repeated: each `'A'` contributes the single
byte 65. -/
theorem utf8Encode_replicate_A (n : Nat) :
    utf8Encode (List.replicate n 'A') = List.replicate n 65 := by
  induction n with
  | zero => rfl
  | succ k ih =>
    rw [List.replicate_succ, utf8Encode, List.map_cons, List.flatten_cons,
      ← utf8Encode, ih, List.replicate_succ]
    rfl

/-- When the write step raises and the LLM oracle contributes nothing,
the distilled task run ends `failed` carrying the write error. -/
theorem run_task_write_error (pr : Char → Bool) (fb : Bytes)
    (cached : TransMap) (llm : List StringRecord → TransMap) (e : PyErr)
    (r0 : StringRecord) (rs : List StringRecord)
    (hp : parse_esm_bytes pr fb = .ok (r0 :: rs))
    (hllm : ∀ recs, llm recs = [])
    (hrw : rewrite_esm_bytes fb cached = .error e) :
    (run_task pr fb cached llm).status = .failed ∧
    (run_task pr fb cached llm).error = some e := by
  rw [run_task, hp]
  dsimp only []
  simp only [List.isEmpty_cons, Bool.false_eq_true, if_false]
  rw [hllm]
  have hexp : ∀ m, expand [] m = [] := fun _ => rfl
  rw [hexp, ite_self]
  have hda : dictUpdAll cached [] = cached := rfl
  rw [hda, hrw]
  exact ⟨rfl, rfl⟩

/-- A second single-record file: same `WEAP`/`FULL` shape as
`scratchFile` but form id `0x200`, so its composite id differs. -/
def scratchRecHeader2 : Bytes :=
  [87, 69, 65, 80] ++ u32le 9 ++ u32le 0 ++ u32le 512 ++ u32le 0 ++ [0, 0, 0, 0]

def scratchFile2 : Bytes := scratchTes4 ++ scratchRecHeader2 ++ scratchSub

def scratchId2 : List Char :=
  ['W', 'E', 'A', 'P', ':', '0', '0', '0', '0', '0', '2', '0', '0', ':', 'F', 'U', 'L', 'L']

/-- A replacement text whose UTF-8 encoding plus NUL is 65536 bytes,
one past the `u16` maximum. -/
def overText : List Char := List.replicate 65535 'A'

def overMap : TransMap := [(scratchId, overText)]

def overMap2 : TransMap := [(scratchId2, overText)]

/-- **C3** (counterexample).  Two files whose offending records have
different composite ids both abort with the identical error value: the
source hits the bare `struct.pack("<H", new_size)` range error
(`struct.error`), which is not a `PayloadTooLarge` and carries no
`record_id` — the two failures are indistinguishable, refuting
"carrying the offending record_id". -/
theorem claim3_counterexample_error_carries_no_id :
    rewrite_esm_bytes scratchFile overMap = .error .structPackError ∧
    rewrite_esm_bytes scratchFile2 overMap2 = .error .structPackError ∧
    scratchId ≠ scratchId2 := by
  have hbig : (utf8Encode overText ++ [0]).length > 65535 := by
    rw [overText, utf8Encode_replicate_A, List.length_append,
      List.length_replicate, List.length_cons, List.length_nil]
    omega
  have e1 : scratchFile = mkEsmFile (List.replicate 16 0) []
      (.cons (.record scratchRecHeader
        (encodeSubs [⟨FULL, [72, 105, 0]⟩])) .nil) := by decide
  have e2 : scratchFile2 = mkEsmFile (List.replicate 16 0) []
      (.cons (.record scratchRecHeader2
        (encodeSubs [⟨FULL, [72, 105, 0]⟩])) .nil) := by decide
  refine ⟨?_, ?_, by decide⟩
  · rw [e1]
    exact (rewrite_oversize_error [87, 69, 65, 80] 256 overMap FULL
      [72, 105, 0] overText scratchId scratchRecHeader
      (List.replicate 16 0) [] (by decide) (by decide) (by decide)
      (by decide) (by decide) (by simp [overMap, List.lookup]) hbig
      (by decide) (by decide) (by decide) (by decide) (by decide)
      (by decide) (by decide)).2
  · rw [e2]
    exact (rewrite_oversize_error [87, 69, 65, 80] 512 overMap2 FULL
      [72, 105, 0] overText scratchId2 scratchRecHeader2
      (List.replicate 16 0) [] (by decide) (by decide) (by decide)
      (by decide) (by decide) (by simp [overMap2, List.lookup]) hbig
      (by decide) (by decide) (by decide) (by decide) (by decide)
      (by decide) (by decide)).2

/-- **C3** (amended).  A translation whose rewritten payload (UTF-8
text plus NUL terminator) exceeds 65535 bytes makes the subrecord
rewrite, and hence the whole-file rewrite, abort with the bare
`struct.pack("<H", ...)` range error — an error value carrying no
record id — and the orchestrator transitions the task to `failed`
with that error. -/
theorem claim3_payload_too_large_amended (pr : Char → Bool)
    (recTy : Bytes) (formId : Nat) (tr : TransMap) (tag d : Bytes)
    (newText rid : List Char) (h t16 tp : Bytes)
    (r0 : StringRecord) (rs : List StringRecord)
    (htag4 : tag.length = 4) (htr : isTranslatableSub recTy tag = true)
    (hd : 0 < d.length) (hd16 : d.length < 2 ^ 16)
    (hid : build_record_id recTy formId tag = .ok rid)
    (hlook : tr.lookup rid = some newText)
    (hbig : (utf8Encode newText ++ [0]).length > 65535)
    (hh24 : h.length = 24) (hhg : h.take 4 ≠ GRUP)
    (hht : h.take 4 = recTy)
    (hhs : (h.drop 4).take 4 = u32le (encodeSubs [⟨tag, d⟩]).length)
    (hhf : readU32 h 12 = formId)
    (h16 : t16.length = 16) (htp : tp.length < 2 ^ 32)
    (hparse : parse_esm_bytes pr
      (mkEsmFile t16 tp (.cons (.record h (encodeSubs [⟨tag, d⟩])) .nil)) =
      .ok (r0 :: rs)) :
    rewrite_subrecords recTy formId tr (encodeSubs [⟨tag, d⟩]) =
      .error .structPackError ∧
    rewrite_esm_bytes
        (mkEsmFile t16 tp (.cons (.record h (encodeSubs [⟨tag, d⟩])) .nil))
        tr = .error .structPackError ∧
    (run_task pr
        (mkEsmFile t16 tp (.cons (.record h (encodeSubs [⟨tag, d⟩])) .nil))
        tr (fun _ => [])).status = .failed ∧
    (run_task pr
        (mkEsmFile t16 tp (.cons (.record h (encodeSubs [⟨tag, d⟩])) .nil))
        tr (fun _ => [])).error = some .structPackError := by
  obtain ⟨h1, h2⟩ := rewrite_oversize_error recTy formId tr tag d newText
    rid h t16 tp htag4 htr hd hd16 hid hlook hbig hh24 hhg hht hhs hhf
    h16 htp
  obtain ⟨h3, h4⟩ := run_task_write_error pr _ tr (fun _ => [])
    .structPackError r0 rs hparse (fun _ => rfl) h2
  exact ⟨h1, h2, h3, h4⟩

/-- Witness for the amended C3 theorem at a concrete one-record file
and a 65535-character replacement. -/
theorem claim3_payload_too_large_amended_witness :
    (utf8Encode overText ++ [0]).length > 65535 ∧
    (run_task asciiPrintable
      (mkEsmFile (List.replicate 16 0) []
        (.cons (.record scratchRecHeader
          (encodeSubs [⟨FULL, [72, 105, 0]⟩])) .nil))
      overMap (fun _ => [])).status = .failed := by
  have hbig : (utf8Encode overText ++ [0]).length > 65535 := by
    rw [overText, utf8Encode_replicate_A, List.length_append,
      List.length_replicate, List.length_cons, List.length_nil]
    omega
  refine ⟨hbig, ?_⟩
  exact (claim3_payload_too_large_amended asciiPrintable [87, 69, 65, 80]
    256 overMap FULL [72, 105, 0] overText scratchId scratchRecHeader
    (List.replicate 16 0) [] ⟨scratchId, ['H', 'i']⟩ []
    (by decide) (by decide) (by decide) (by decide) (by decide)
    (by simp [overMap, List.lookup]) hbig (by decide) (by decide)
    (by decide) (by decide) (by decide) (by decide) (by decide)
    (by decide)).2.2.1

/-! ### Deduplication invariants -/

/-- All record ids collected in the value lists of a `dedup_map`. -/
def dmapFlat (m : List (List Char × List (List Char))) : List (List Char) :=
  (m.map Prod.snd).flatten

theorem dmapFlat_append (a b : List (List Char × List (List Char))) :
    dmapFlat (a ++ b) = dmapFlat a ++ dmapFlat b := by
  rw [dmapFlat, dmapFlat, dmapFlat, List.map_append, List.flatten_append]

theorem dmapFlat_cons (p : List Char × List (List Char))
    (m : List (List Char × List (List Char))) :
    dmapFlat (p :: m) = p.2 ++ dmapFlat m := by
  rw [dmapFlat, dmapFlat, List.map_cons, List.flatten_cons]

theorem dedupGo_append (a b : List StringRecord) (st : DedupState) :
    dedupGo (a ++ b) st = dedupGo b (dedupGo a st) := by
  induction a generalizing st with
  | nil => rfl
  | cons r tl ih =>
    rw [List.cons_append]
    simp only [dedupGo]
    cases hr : st.seen.lookup (dkey r) <;> dsimp only [] <;> exact ih _

theorem dedupGo_seen_stable (l : List StringRecord) (st : DedupState)
    {k : List Char × List Char} {v : List Char}
    (h : st.seen.lookup k = some v) :
    (dedupGo l st).seen.lookup k = some v := by
  induction l generalizing st with
  | nil => exact h
  | cons r tl ih =>
    simp only [dedupGo]
    cases hr : st.seen.lookup (dkey r)
    · dsimp only []
      refine ih _ ?_
      show ((st.seen ++ [(dkey r, r.record_id)]).lookup k) = some v
      rw [List.lookup_append, h]
      rfl
    · dsimp only []
      exact ih _ h

theorem dedupGo_seen_none (l : List StringRecord) (st : DedupState)
    {k : List Char × List Char} (h : st.seen.lookup k = none)
    (hl : ∀ r ∈ l, dkey r ≠ k) :
    (dedupGo l st).seen.lookup k = none := by
  induction l generalizing st with
  | nil => exact h
  | cons r tl ih =>
    simp only [dedupGo]
    cases hr : st.seen.lookup (dkey r)
    · dsimp only []
      refine ih _ ?_ (fun x hx => hl x (List.mem_cons_of_mem _ hx))
      show ((st.seen ++ [(dkey r, r.record_id)]).lookup k) = none
      rw [List.lookup_append, h]
      have hne : (k == dkey r) = false :=
        beq_eq_false_iff_ne.mpr
          (fun he => hl r (List.mem_cons_self r tl) he.symm)
      simp [List.lookup_cons, hne]
    · dsimp only []
      exact ih _ h (fun x hx => hl x (List.mem_cons_of_mem _ hx))

theorem dedupGo_dedups_ext (l : List StringRecord) (st : DedupState) :
    ∃ ext, (dedupGo l st).dedups = st.dedups ++ ext := by
  induction l generalizing st with
  | nil => exact ⟨[], (List.append_nil _).symm⟩
  | cons r tl ih =>
    simp only [dedupGo]
    cases hr : st.seen.lookup (dkey r)
    · dsimp only []
      obtain ⟨ext, he⟩ := ih ⟨st.seen ++ [(dkey r, r.record_id)],
        st.dedups ++ [r], st.dmap ++ [(r.record_id, [r.record_id])]⟩
      exact ⟨[r] ++ ext, by rw [he, List.append_assoc]⟩
    · dsimp only []
      exact ih _

theorem dedupGo_dedups_sub (l : List StringRecord) (st : DedupState) :
    ∀ x ∈ (dedupGo l st).dedups, x ∈ st.dedups ∨ x ∈ l := by
  induction l generalizing st with
  | nil => exact fun x hx => Or.inl hx
  | cons r tl ih =>
    simp only [dedupGo]
    cases hr : st.seen.lookup (dkey r)
    · dsimp only []
      intro x hx
      rcases ih _ x hx with hx' | hx'
      · rcases List.mem_append.mp hx' with hx'' | hx''
        · exact Or.inl hx''
        · exact Or.inr (by
            rcases List.mem_singleton.mp hx'' with rfl
            exact List.mem_cons_self _ _)
      · exact Or.inr (List.mem_cons_of_mem _ hx')
    · dsimp only []
      intro x hx
      rcases ih _ x hx with hx' | hx'
      · exact Or.inl hx'
      · exact Or.inr (List.mem_cons_of_mem _ hx')

theorem appendToEntry_keys (m : List (List Char × List (List Char)))
    (fid rid : List Char) :
    (appendToEntry m fid rid).map Prod.fst = m.map Prod.fst := by
  rw [appendToEntry, List.map_map]
  refine List.map_congr_left (fun p _ => ?_)
  by_cases hp : (p.1 == fid) = true <;> simp [hp, Function.comp]

theorem appendToEntry_lookup_self
    (m : List (List Char × List (List Char))) (fid rid : List Char)
    {L : List (List Char)} (h : m.lookup fid = some L) :
    (appendToEntry m fid rid).lookup fid = some (L ++ [rid]) := by
  induction m with
  | nil => simp at h
  | cons p tl ih =>
    obtain ⟨k', L'⟩ := p
    rw [appendToEntry, List.map_cons]
    by_cases hk : k' = fid
    · subst hk
      rw [List.lookup_cons_self] at h
      simp only [beq_self_eq_true, if_true]
      rw [List.lookup_cons_self, Option.some_inj.mp h]
    · have hb : (k' == fid) = false := beq_eq_false_iff_ne.mpr hk
      have hb' : (fid == k') = false :=
        beq_eq_false_iff_ne.mpr (fun he => hk he.symm)
      simp only [hb, Bool.false_eq_true, if_false]
      rw [List.lookup_cons, hb'] at h
      rw [List.lookup_cons, hb']
      exact ih h

theorem appendToEntry_lookup_ne
    (m : List (List Char × List (List Char))) (fid rid k : List Char)
    (hne : k ≠ fid) :
    (appendToEntry m fid rid).lookup k = m.lookup k := by
  induction m with
  | nil => rfl
  | cons p tl ih =>
    obtain ⟨k', L'⟩ := p
    rw [appendToEntry, List.map_cons]
    by_cases hk : k' = fid
    · subst hk
      have hb : (k == k') = false := beq_eq_false_iff_ne.mpr hne
      simp only [beq_self_eq_true, if_true]
      rw [List.lookup_cons, List.lookup_cons, hb]
      exact ih
    · have hb : (k' == fid) = false := beq_eq_false_iff_ne.mpr hk
      simp only [hb, Bool.false_eq_true, if_false]
      rw [List.lookup_cons, List.lookup_cons]
      cases hkk : (k == k')
      · exact ih
      · rfl

theorem dedupGo_dmap_entry (l : List StringRecord) (st : DedupState)
    {fid : List Char} {L : List (List Char)}
    (h : st.dmap.lookup fid = some L) :
    ∃ ext, (dedupGo l st).dmap.lookup fid = some (L ++ ext) := by
  induction l generalizing st L with
  | nil => exact ⟨[], by rw [List.append_nil]; exact h⟩
  | cons r tl ih =>
    simp only [dedupGo]
    cases hr : st.seen.lookup (dkey r) with
    | none =>
      dsimp only []
      refine ih _ ?_
      show ((st.dmap ++ [(r.record_id, [r.record_id])]).lookup fid) =
        some L
      rw [List.lookup_append, h]
      rfl
    | some firstId =>
      dsimp only []
      by_cases hf : firstId = fid
      · subst hf
        obtain ⟨ext, he⟩ := ih (L := L ++ [r.record_id])
          ⟨st.seen, st.dedups, appendToEntry st.dmap firstId r.record_id⟩
          (appendToEntry_lookup_self st.dmap firstId r.record_id h)
        exact ⟨[r.record_id] ++ ext, by rw [he, List.append_assoc]⟩
      · refine ih ⟨st.seen, st.dedups,
          appendToEntry st.dmap firstId r.record_id⟩ ?_
        show (appendToEntry st.dmap firstId r.record_id).lookup fid = some L
        rw [appendToEntry_lookup_ne _ _ _ _ (fun he => hf he.symm)]
        exact h

/-- Invariant of the deduplication loop state: `seen_keys` mirrors
`dedup_records`, the `dedup_map` keys are exactly the deduplicated
record ids in order and are distinct, deduplicated keys are distinct,
and every `dedup_map` value list starts with its own key. -/
def DedupInv (st : DedupState) : Prop :=
  st.seen = st.dedups.map (fun r => (dkey r, r.record_id)) ∧
  st.dmap.map Prod.fst = st.dedups.map (fun r => r.record_id) ∧
  (st.dedups.map dkey).Nodup ∧
  (st.dmap.map Prod.fst).Nodup ∧
  (∀ p ∈ st.dmap, ∃ L0, p.2 = p.1 :: L0)

theorem appendToEntry_flat_count
    (m1 m2 : List (List Char × List (List Char))) (fid rid : List Char)
    (L : List (List Char))
    (h1 : ∀ p ∈ m1, p.1 ≠ fid) (h2 : ∀ p ∈ m2, p.1 ≠ fid) :
    appendToEntry (m1 ++ (fid, L) :: m2) fid rid =
      m1 ++ (fid, L ++ [rid]) :: m2 := by
  rw [appendToEntry, List.map_append, List.map_cons]
  have hm1 : m1.map
      (fun p => if p.1 == fid then (p.1, p.2 ++ [rid]) else p) = m1 := by
    induction m1 with
    | nil => rfl
    | cons q tq ihq =>
      rw [List.map_cons,
        if_neg (by simp [beq_eq_false_iff_ne.mpr (h1 q (List.mem_cons_self q tq))]),
        ihq (fun p hp => h1 p (List.mem_cons_of_mem _ hp))]
  have hm2 : m2.map
      (fun p => if p.1 == fid then (p.1, p.2 ++ [rid]) else p) = m2 := by
    induction m2 with
    | nil => rfl
    | cons q tq ihq =>
      rw [List.map_cons,
        if_neg (by simp [beq_eq_false_iff_ne.mpr (h2 q (List.mem_cons_self q tq))]),
        ihq (fun p hp => h2 p (List.mem_cons_of_mem _ hp))]
  rw [hm1, hm2]
  simp

/-- Core invariant/count theorem of the deduplication loop: the state
invariant is preserved, and the ids collected in the `dedup_map` value
lists grow by exactly the processed record ids (counted with
multiplicity). -/
theorem dedupGo_main (l : List StringRecord) (st : DedupState)
    (hinv : DedupInv st)
    (hids : ∀ r ∈ l, ¬ r.record_id ∈ st.dmap.map Prod.fst)
    (hlnd : (l.map (fun r => r.record_id)).Nodup) :
    DedupInv (dedupGo l st) ∧
    ∀ x, (dmapFlat (dedupGo l st).dmap).count x =
      (dmapFlat st.dmap).count x +
        (l.map (fun r => r.record_id)).count x := by
  induction l generalizing st with
  | nil => exact ⟨hinv, fun x => by simp [dedupGo]⟩
  | cons r tl ih =>
    obtain ⟨i1, i2, i3, i4, i5⟩ := hinv
    rw [List.map_cons, List.nodup_cons] at hlnd
    simp only [dedupGo]
    cases hr : st.seen.lookup (dkey r) with
    | none =>
      dsimp only []
      have hknew : ¬ dkey r ∈ st.dedups.map dkey := by
        intro hmem
        obtain ⟨x, hx, hxe⟩ := List.mem_map.mp hmem
        have : st.seen.lookup (dkey r) ≠ none := by
          rw [i1]
          simp only [ne_eq, List.lookup_eq_none_iff, not_forall]
          refine ⟨(dkey x, x.record_id), List.mem_map_of_mem _ hx, ?_⟩
          simp [hxe]
        exact this hr
      have hridnew : ¬ r.record_id ∈ st.dmap.map Prod.fst :=
        hids r (List.mem_cons_self r tl)
      have hinv' : DedupInv ⟨st.seen ++ [(dkey r, r.record_id)],
          st.dedups ++ [r], st.dmap ++ [(r.record_id, [r.record_id])]⟩ := by
        refine ⟨?_, ?_, ?_, ?_, ?_⟩
        · show st.seen ++ [(dkey r, r.record_id)] =
            (st.dedups ++ [r]).map (fun x => (dkey x, x.record_id))
          rw [List.map_append, i1]
          rfl
        · show (st.dmap ++ [(r.record_id, [r.record_id])]).map Prod.fst =
            (st.dedups ++ [r]).map (fun x => x.record_id)
          rw [List.map_append, List.map_append, i2]
          rfl
        · show ((st.dedups ++ [r]).map dkey).Nodup
          rw [List.map_append]
          simp only [List.nodup_append, List.map_cons, List.map_nil]
          exact ⟨i3, List.nodup_singleton _,
            by simpa [List.disjoint_singleton] using hknew⟩
        · show ((st.dmap ++ [(r.record_id, [r.record_id])]).map
            Prod.fst).Nodup
          rw [List.map_append]
          simp only [List.nodup_append, List.map_cons, List.map_nil]
          exact ⟨i4, List.nodup_singleton _,
            by simpa [List.disjoint_singleton] using hridnew⟩
        · intro p hp
          rcases List.mem_append.mp hp with hp' | hp'
          · exact i5 p hp'
          · rcases List.mem_singleton.mp hp' with rfl
            exact ⟨[], rfl⟩
      have hids' : ∀ x ∈ tl, ¬ x.record_id ∈
          (st.dmap ++ [(r.record_id, [r.record_id])]).map Prod.fst := by
        intro x hx hmem
        rw [List.map_append, List.mem_append] at hmem
        rcases hmem with hm | hm
        · exact hids x (List.mem_cons_of_mem _ hx) hm
        · have he : x.record_id = r.record_id := List.mem_singleton.mp hm
          exact hlnd.1 (by rw [← he]; exact List.mem_map_of_mem _ hx)
      obtain ⟨hi, hc⟩ := ih _ hinv' hids' hlnd.2
      refine ⟨hi, fun x => ?_⟩
      rw [hc x, dmapFlat_append]
      rw [List.count_append]
      have : dmapFlat [(r.record_id, [r.record_id])] = [r.record_id] := rfl
      rw [this, List.map_cons, List.count_cons]
      simp only [List.count_cons, List.count_nil]
      omega
    | some firstId =>
      dsimp only []
      have hfid : firstId ∈ st.dmap.map Prod.fst := by
        have hmem : (dkey r, firstId) ∈ st.seen := by
          obtain ⟨l1, l2, he, _⟩ := List.lookup_eq_some_iff.mp hr
          rw [he]
          exact List.mem_append.mpr (Or.inr (List.mem_cons_self _ _))
        rw [i1] at hmem
        obtain ⟨x, hx, hxe⟩ := List.mem_map.mp hmem
        rw [i2]
        have : x.record_id = firstId := congrArg Prod.snd hxe
        rw [← this]
        exact List.mem_map_of_mem _ hx
      obtain ⟨q, hq, hqe⟩ := List.mem_map.mp hfid
      obtain ⟨m1, m2, hm⟩ := List.append_of_mem hq
      have hkeys : (st.dmap.map Prod.fst).Nodup := i4
      rw [hm, List.map_append, List.map_cons] at hkeys
      rw [List.nodup_middle, List.nodup_cons] at hkeys
      have hnot1 : ∀ p ∈ m1, p.1 ≠ firstId := by
        intro p hp he
        refine hkeys.1 ?_
        rw [← List.map_append, hqe, ← he]
        exact List.mem_map_of_mem _ (List.mem_append.mpr (Or.inl hp))
      have hnot2 : ∀ p ∈ m2, p.1 ≠ firstId := by
        intro p hp he
        refine hkeys.1 ?_
        rw [← List.map_append, hqe, ← he]
        exact List.mem_map_of_mem _ (List.mem_append.mpr (Or.inr hp))
      have hqpair : q = (firstId, q.2) := by
        rw [← hqe]
      have happ : appendToEntry st.dmap firstId r.record_id =
          m1 ++ (firstId, q.2 ++ [r.record_id]) :: m2 := by
        rw [hm, hqpair]
        exact appendToEntry_flat_count m1 m2 firstId r.record_id q.2
          hnot1 hnot2
      have hinv' : DedupInv ⟨st.seen, st.dedups,
          appendToEntry st.dmap firstId r.record_id⟩ := by
        refine ⟨i1, ?_, i3, ?_, ?_⟩
        · show (appendToEntry st.dmap firstId r.record_id).map Prod.fst =
            st.dedups.map (fun x => x.record_id)
          rw [appendToEntry_keys, i2]
        · show ((appendToEntry st.dmap firstId r.record_id).map
            Prod.fst).Nodup
          rw [appendToEntry_keys]
          exact i4
        · intro p hp
          rw [happ] at hp
          rcases List.mem_append.mp hp with hp' | hp'
          · exact i5 p (by rw [hm]; exact List.mem_append.mpr (Or.inl hp'))
          · have hqmem : q ∈ st.dmap := by
              rw [hm]
              exact List.mem_append.mpr (Or.inr (List.mem_cons_self _ _))
            rcases List.mem_cons.mp hp' with rfl | hp''
            · obtain ⟨L0, hL0⟩ := i5 q hqmem
              refine ⟨L0 ++ [r.record_id], ?_⟩
              show q.2 ++ [r.record_id] = firstId :: (L0 ++ [r.record_id])
              rw [hL0, hqe]
              rfl
            · refine i5 p ?_
              rw [hm]
              exact List.mem_append.mpr
                (Or.inr (List.mem_cons_of_mem _ hp''))
      have hids' : ∀ x ∈ tl, ¬ x.record_id ∈
          (appendToEntry st.dmap firstId r.record_id).map Prod.fst := by
        intro x hx
        rw [appendToEntry_keys]
        exact hids x (List.mem_cons_of_mem _ hx)
      obtain ⟨hi, hc⟩ := ih _ hinv' hids' hlnd.2
      refine ⟨hi, fun x => ?_⟩
      rw [hc x]
      have hflat : dmapFlat (appendToEntry st.dmap firstId r.record_id) =
          dmapFlat m1 ++ (q.2 ++ [r.record_id]) ++ dmapFlat m2 := by
        rw [happ, dmapFlat_append, dmapFlat_cons]
        rw [← List.append_assoc]
      have hflat0 : dmapFlat st.dmap =
          dmapFlat m1 ++ q.2 ++ dmapFlat m2 := by
        rw [hm, dmapFlat_append, dmapFlat_cons]
        rw [← List.append_assoc]
      rw [hflat, hflat0, List.map_cons, List.count_cons]
      simp only [List.count_append]
      by_cases hxr : x = r.record_id
      · subst hxr
        simp only [List.count_cons, List.count_nil, beq_self_eq_true,
          if_true]
        omega
      · have h2 : (x == r.record_id) = false := beq_eq_false_iff_ne.mpr hxr
        simp only [List.count_cons, List.count_nil, h2, Bool.false_eq_true,
          if_false]
        omega

theorem dmap_entry_disjoint
    (m : List (List Char × List (List Char)))
    (hcount : ∀ x, (dmapFlat m).count x ≤ 1)
    {f1 f2 : List Char} {L1 L2 : List (List Char)}
    (h1 : m.lookup f1 = some L1) (h2 : (f2, L2) ∈ m)
    (hne : f1 ≠ f2) {x : List Char} (hx1 : x ∈ L1) : ¬ x ∈ L2 := by
  intro hx2
  obtain ⟨m1, m2, hm, _⟩ := List.lookup_eq_some_iff.mp h1
  have hflat : dmapFlat m = dmapFlat m1 ++ L1 ++ dmapFlat m2 := by
    rw [hm, dmapFlat_append, dmapFlat_cons, ← List.append_assoc]
  have h2' : (f2, L2) ∈ m1 ∨ (f2, L2) ∈ m2 := by
    rw [hm] at h2
    rcases List.mem_append.mp h2 with h | h
    · exact Or.inl h
    · rcases List.mem_cons.mp h with he | h
      · exact absurd (congrArg Prod.fst he).symm hne
      · exact Or.inr h
  have hmemflat : ∀ mp : List (List Char × List (List Char)),
      (f2, L2) ∈ mp → x ∈ dmapFlat mp := by
    intro mp hmp
    rw [dmapFlat]
    exact List.mem_flatten.mpr ⟨L2, List.mem_map_of_mem _ hmp, hx2⟩
  have hc := hcount x
  rw [hflat] at hc
  simp only [List.count_append] at hc
  have hcl1 : 1 ≤ L1.count x := List.count_pos_iff.mpr hx1
  rcases h2' with h | h
  · have : 1 ≤ (dmapFlat m1).count x :=
      List.count_pos_iff.mpr (hmemflat m1 h)
    omega
  · have : 1 ≤ (dmapFlat m2).count x :=
      List.count_pos_iff.mpr (hmemflat m2 h)
    omega

theorem dictUpd_lookup_self (m : TransMap) (k v : List Char) :
    (dictUpd m k v).lookup k = some v := by
  rw [dictUpd]
  by_cases ha : m.any (fun p => p.1 == k) = true
  · rw [if_pos ha]
    induction m with
    | nil => simp at ha
    | cons p tl ih =>
      obtain ⟨k', v'⟩ := p
      rw [List.map_cons]
      by_cases hk : k' = k
      · subst hk
        simp only [beq_self_eq_true, if_true]
        exact List.lookup_cons_self
      · have hb : (k' == k) = false := beq_eq_false_iff_ne.mpr hk
        have hb' : (k == k') = false :=
          beq_eq_false_iff_ne.mpr (fun he => hk he.symm)
        simp only [hb, Bool.false_eq_true, if_false]
        rw [List.lookup_cons, hb']
        refine ih ?_
        simp only [List.any_cons, hb, Bool.false_or] at ha
        exact ha
  · rw [if_neg ha]
    have hnone : m.lookup k = none := by
      rw [List.lookup_eq_none_iff]
      intro p hp
      simp only [List.any_eq_true, not_exists, not_and] at ha
      have := ha p hp
      simp only [bne_iff_ne, ne_eq]
      intro he
      exact this (by rw [he]; exact beq_self_eq_true p.1)
    rw [List.lookup_append, hnone, List.lookup_cons_self]
    rfl

theorem dictUpd_lookup_ne (m : TransMap) (k v k' : List Char)
    (h : k' ≠ k) : (dictUpd m k v).lookup k' = m.lookup k' := by
  rw [dictUpd]
  by_cases ha : m.any (fun p => p.1 == k) = true
  · rw [if_pos ha]
    clear ha
    induction m with
    | nil => rfl
    | cons p tl ih =>
      obtain ⟨k0, v0⟩ := p
      rw [List.map_cons]
      by_cases hk : (k0 == k) = true
      · simp only [hk, if_true]
        have hb0 : k' ≠ k0 := fun he => h (he.trans (eq_of_beq hk))
        rw [List.lookup_cons, List.lookup_cons, beq_eq_false_iff_ne.mpr h,
          beq_eq_false_iff_ne.mpr hb0]
        dsimp only []
        exact ih
      · simp only [hk, Bool.false_eq_true, if_false]
        rw [List.lookup_cons, List.lookup_cons]
        cases hkk : (k' == k0)
        · dsimp only []
          exact ih
        · rfl
  · rw [if_neg ha]
    rw [List.lookup_append]
    have hone : ([(k, v)] : TransMap).lookup k' = none := by
      rw [List.lookup_cons, beq_eq_false_iff_ne.mpr h]
      rfl
    rw [hone]
    cases m.lookup k' <;> rfl

theorem assignFold_lookup_mem (ids : List (List Char)) (acc : TransMap)
    (k t : List Char) (hk : k ∈ ids) :
    ((ids.foldl (fun a rid => dictUpd a rid t) acc)).lookup k = some t := by
  induction ids generalizing acc with
  | nil => cases hk
  | cons i tl ih =>
    rw [List.foldl_cons]
    by_cases hkt : k ∈ tl
    · exact ih _ hkt
    · have hki : k = i := by
        rcases List.mem_cons.mp hk with h | h
        · exact h
        · exact absurd h hkt
      subst hki
      have hpres : ∀ (l : List (List Char)) (a : TransMap), ¬ k ∈ l →
          ((l.foldl (fun a rid => dictUpd a rid t) a)).lookup k =
            a.lookup k := by
        intro l
        induction l with
        | nil => intro a _; rfl
        | cons j tj ihj =>
          intro a hnj
          rw [List.foldl_cons]
          rw [ihj _ (fun hc => hnj (List.mem_cons_of_mem _ hc))]
          exact dictUpd_lookup_ne a j t k
            (fun he => hnj (he ▸ List.mem_cons_self j tj))
      rw [hpres tl _ hkt]
      exact dictUpd_lookup_self acc k t

theorem assignFold_lookup_not_mem (ids : List (List Char))
    (acc : TransMap) (k t : List Char) (hk : ¬ k ∈ ids) :
    ((ids.foldl (fun a rid => dictUpd a rid t) acc)).lookup k =
      acc.lookup k := by
  induction ids generalizing acc with
  | nil => rfl
  | cons i tl ih =>
    rw [List.foldl_cons]
    rw [ih _ (fun hc => hk (List.mem_cons_of_mem _ hc))]
    exact dictUpd_lookup_ne acc i t k
      (fun he => hk (he ▸ List.mem_cons_self i tl))

theorem expandFold_lookup_not_mem (dmap : List (List Char × List (List Char)))
    (trPart : TransMap) (acc : TransMap) (k : List Char)
    (h : ∀ p ∈ trPart, ¬ k ∈ (dmap.lookup p.1).getD [p.1]) :
    ((trPart.foldl (fun acc p =>
        ((dmap.lookup p.1).getD [p.1]).foldl
          (fun a rid => dictUpd a rid p.2) acc) acc)).lookup k =
      acc.lookup k := by
  induction trPart generalizing acc with
  | nil => rfl
  | cons p tl ih =>
    rw [List.foldl_cons]
    rw [ih _ (fun x hx => h x (List.mem_cons_of_mem _ hx))]
    exact assignFold_lookup_not_mem _ acc k p.2
      (h p (List.mem_cons_self p tl))

theorem expand_lookup (d1 d2 : TransMap) (fid0 t : List Char)
    (dmap : List (List Char × List (List Char))) (k : List Char)
    (hk : k ∈ (dmap.lookup fid0).getD [fid0])
    (h2 : ∀ p ∈ d2, ¬ k ∈ (dmap.lookup p.1).getD [p.1]) :
    (expand (d1 ++ (fid0, t) :: d2) dmap).lookup k = some t := by
  rw [expand, List.foldl_append, List.foldl_cons]
  rw [expandFold_lookup_not_mem dmap d2 _ k h2]
  exact assignFold_lookup_mem _ _ k t hk

theorem dictUpd_keys_nodup (m : TransMap) (k v : List Char)
    (h : (m.map Prod.fst).Nodup) :
    ((dictUpd m k v).map Prod.fst).Nodup := by
  rw [dictUpd]
  by_cases ha : m.any (fun p => p.1 == k) = true
  · rw [if_pos ha]
    have : (m.map (fun p => if p.1 == k then (k, v) else p)).map Prod.fst =
        m.map Prod.fst := by
      rw [List.map_map]
      refine List.map_congr_left (fun p _ => ?_)
      by_cases hp : (p.1 == k) = true
      · simp only [Function.comp, hp, if_true]
        exact (eq_of_beq hp).symm
      · simp [Function.comp, hp]
    rw [this]
    exact h
  · rw [if_neg ha]
    rw [List.map_append]
    simp only [List.nodup_append, List.map_cons, List.map_nil]
    refine ⟨h, List.nodup_singleton _, ?_⟩
    simp only [List.disjoint_singleton]
    intro hmem
    obtain ⟨p, hp, hpe⟩ := List.mem_map.mp hmem
    simp only [List.any_eq_true, not_exists, not_and] at ha
    exact ha p hp (by rw [hpe]; exact beq_self_eq_true k)

theorem assignFold_keys_nodup (ids : List (List Char)) (t : List Char)
    (m : TransMap) (h : (m.map Prod.fst).Nodup) :
    (((ids.foldl (fun a rid => dictUpd a rid t) m)).map Prod.fst).Nodup := by
  induction ids generalizing m with
  | nil => exact h
  | cons i tl ih =>
    rw [List.foldl_cons]
    exact ih _ (dictUpd_keys_nodup m i t h)

theorem expand_keys_nodup (dtr : TransMap)
    (dmap : List (List Char × List (List Char))) :
    ((expand dtr dmap).map Prod.fst).Nodup := by
  rw [expand]
  have haux : ∀ (l : TransMap) (acc : TransMap),
      (acc.map Prod.fst).Nodup →
      ((l.foldl (fun acc p =>
          ((dmap.lookup p.1).getD [p.1]).foldl
            (fun a rid => dictUpd a rid p.2) acc) acc).map
        Prod.fst).Nodup := by
    intro l
    induction l with
    | nil => exact fun acc h => h
    | cons p tl ih =>
      intro acc h
      rw [List.foldl_cons]
      exact ih _ (assignFold_keys_nodup _ p.2 acc h)
  exact haux dtr [] (List.nodup_nil)

theorem dictUpdAll_lookup_some (m new : TransMap) (k v : List Char)
    (h : new.lookup k = some v) (hnd : (new.map Prod.fst).Nodup) :
    (dictUpdAll m new).lookup k = some v := by
  obtain ⟨n1, n2, hn, _⟩ := List.lookup_eq_some_iff.mp h
  subst hn
  rw [List.map_append, List.map_cons, List.nodup_middle,
    List.nodup_cons] at hnd
  have hk2 : ∀ p ∈ n2, p.1 ≠ k := by
    intro p hp he
    refine hnd.1 ?_
    show k ∈ List.map Prod.fst n1 ++ List.map Prod.fst n2
    rw [← List.map_append, ← he]
    have hpm : p ∈ n1 ++ n2 := List.mem_append.mpr (Or.inr hp)
    exact List.mem_map_of_mem Prod.fst hpm
  rw [dictUpdAll, List.foldl_append, List.foldl_cons]
  have hpres : ∀ (l : TransMap) (a : TransMap), (∀ p ∈ l, p.1 ≠ k) →
      ((l.foldl (fun acc p => dictUpd acc p.1 p.2) a)).lookup k =
        a.lookup k := by
    intro l
    induction l with
    | nil => exact fun a _ => rfl
    | cons p tl ih =>
      intro a hl
      rw [List.foldl_cons]
      rw [ih _ (fun x hx => hl x (List.mem_cons_of_mem _ hx))]
      exact dictUpd_lookup_ne a p.1 p.2 k
        (fun he => hl p (List.mem_cons_self p tl) he.symm)
  rw [hpres n2 _ hk2]
  exact dictUpd_lookup_self _ k v

theorem filter_key_len (l : List StringRecord)
    (K : List Char × List Char) (hnd : (l.map dkey).Nodup)
    (r : StringRecord) (hr : r ∈ l) (hk : dkey r = K) :
    (l.filter (fun x => dkey x == K)).length = 1 := by
  induction l with
  | nil => cases hr
  | cons a tl ih =>
    rw [List.map_cons, List.nodup_cons] at hnd
    rw [List.filter_cons]
    by_cases ha : dkey a = K
    · have hb : (dkey a == K) = true := by rw [ha]; exact beq_self_eq_true K
      simp only [hb, if_true]
      have hnil : tl.filter (fun x => dkey x == K) = [] := by
        rw [List.filter_eq_nil_iff]
        intro x hx hbx
        have hxk : dkey x = K := eq_of_beq hbx
        refine hnd.1 ?_
        rw [ha, ← hxk]
        exact List.mem_map_of_mem _ hx
      rw [hnil]
      rfl
    · have hb : (dkey a == K) = false := beq_eq_false_iff_ne.mpr ha
      rw [hb]
      simp only [Bool.false_eq_true, if_false]
      have hrt : r ∈ tl := by
        rcases List.mem_cons.mp hr with he | h
        · exact absurd (by rw [← he]; exact hk) ha
        · exact h
      exact ih hnd.2 hrt

theorem nodup_count_le_one {α : Type} [BEq α] [LawfulBEq α]
    {l : List α} (h : l.Nodup) (x : α) : l.count x ≤ 1 := by
  induction l with
  | nil => simp
  | cons a tl ih =>
    rw [List.nodup_cons] at h
    by_cases hxa : x = a
    · subst hxa
      rw [List.count_cons_self]
      have h0 : tl.count x = 0 := List.count_eq_zero_of_not_mem h.1
      omega
    · rw [List.count_cons_of_ne hxa]
      exact ih h.2

theorem run_task_fields (pr : Char → Bool) (fb : Bytes)
    (cached : TransMap) (llm : List StringRecord → TransMap)
    (records : List StringRecord)
    (hp : parse_esm_bytes pr fb = .ok records)
    (hne : (records.filter
      (fun r => !(cached.lookup r.record_id).isSome)).isEmpty = false) :
    (run_task pr fb cached llm).llmInput =
      (dedup_records_map (records.filter
        (fun r => !(cached.lookup r.record_id).isSome))).1 ∧
    (run_task pr fb cached llm).translations =
      dictUpdAll cached
        (expand
          (llm (dedup_records_map (records.filter
            (fun r => !(cached.lookup r.record_id).isSome))).1)
          (dedup_records_map (records.filter
            (fun r => !(cached.lookup r.record_id).isSome))).2) := by
  have hrecne : records.isEmpty = false := by
    cases records with
    | nil => simp at hne
    | cons a l => rfl
  rw [run_task, hp]
  dsimp only []
  rw [hrecne]
  simp only [Bool.false_eq_true, if_false]
  rw [hne]
  simp only [Bool.false_eq_true, if_false]
  refine ⟨?_, ?_⟩ <;> (split <;> rfl)

/-- **C5**.  In the distilled `_run_task` pipeline, two uncached
records `r1` and `r2` sharing the deduplication key
`(sub_type, source_text)` (with `r1` the first record of that key)
produce exactly one representative in the list handed to the LLM
driver — `r1` is in it, `r2` is not, and the key occurs exactly once —
and after the driver translates `r1.record_id` to `t`, both
`r1.record_id` and `r2.record_id` are mapped to `t` in the final
translation map `{**cached, **new}`. -/
theorem claim5_dedup_single_call_fanout
    (pr : Char → Bool) (fb : Bytes) (cached : TransMap)
    (records pre mid post : List StringRecord) (r1 r2 : StringRecord)
    (llm : List StringRecord → TransMap) (t : List Char)
    (hparse : parse_esm_bytes pr fb = .ok records)
    (hu : records.filter (fun r => !(cached.lookup r.record_id).isSome) =
      pre ++ r1 :: (mid ++ r2 :: post))
    (hkey : dkey r1 = dkey r2)
    (hpre : ∀ x ∈ pre, dkey x ≠ dkey r1)
    (hnd : ((pre ++ r1 :: (mid ++ r2 :: post)).map
      (fun r => r.record_id)).Nodup)
    (htr : (llm (dedup_records_map
        (pre ++ r1 :: (mid ++ r2 :: post))).1).lookup r1.record_id =
      some t)
    (htrkeys : ∀ p ∈ llm (dedup_records_map
        (pre ++ r1 :: (mid ++ r2 :: post))).1,
      p.1 ∈ (dedup_records_map (pre ++ r1 :: (mid ++ r2 :: post))).1.map
        (fun r => r.record_id))
    (htrnd : ((llm (dedup_records_map
        (pre ++ r1 :: (mid ++ r2 :: post))).1).map Prod.fst).Nodup) :
    r1 ∈ (run_task pr fb cached llm).llmInput ∧
    ¬ r2 ∈ (run_task pr fb cached llm).llmInput ∧
    ((run_task pr fb cached llm).llmInput.filter
      (fun x => dkey x == dkey r1)).length = 1 ∧
    (run_task pr fb cached llm).translations.lookup r1.record_id =
      some t ∧
    (run_task pr fb cached llm).translations.lookup r2.record_id =
      some t := by
  have hinv0 : DedupInv ⟨[], [], []⟩ :=
    ⟨rfl, rfl, List.nodup_nil, List.nodup_nil,
      fun p hp => absurd hp (List.not_mem_nil p)⟩
  have hids0 : ∀ (l : List StringRecord), ∀ r ∈ l,
      ¬ r.record_id ∈ (([] : List (List Char × List (List Char))).map
        Prod.fst) :=
    fun _ r _ hm => absurd hm (List.not_mem_nil _)
  -- abbreviations
  have hndm : (pre.map (fun r => r.record_id) ++ r1.record_id ::
      (mid.map (fun r => r.record_id) ++ r2.record_id ::
        post.map (fun r => r.record_id))).Nodup := by
    have hmap : (pre ++ r1 :: (mid ++ r2 :: post)).map
        (fun r => r.record_id) =
        pre.map (fun r => r.record_id) ++ r1.record_id ::
          (mid.map (fun r => r.record_id) ++ r2.record_id ::
            post.map (fun r => r.record_id)) := by
      simp only [List.map_append, List.map_cons]
    rw [hmap] at hnd
    exact hnd
  have hndmid : (r1.record_id :: (pre.map (fun r => r.record_id) ++
      (mid.map (fun r => r.record_id) ++ r2.record_id ::
        post.map (fun r => r.record_id)))).Nodup := by
    rw [← List.nodup_middle]
    exact hndm
  rw [List.nodup_cons] at hndmid
  have hr1pre : ¬ r1.record_id ∈ pre.map (fun r => r.record_id) :=
    fun h => hndmid.1 (List.mem_append.mpr (Or.inl h))
  have hr1ne2 : r1.record_id ≠ r2.record_id := by
    intro he
    refine hndmid.1 (List.mem_append.mpr (Or.inr
      (List.mem_append.mpr (Or.inr ?_))))
    rw [he]
    exact List.mem_cons_self _ _
  have hprend : (pre.map (fun r => r.record_id)).Nodup :=
    hndm.of_append_left
  -- full-run invariant and count
  obtain ⟨hinvF, hcountF⟩ := dedupGo_main (pre ++ r1 :: (mid ++ r2 :: post))
    ⟨[], [], []⟩ hinv0 (hids0 _) hnd
  have hle1 : ∀ x, ((pre ++ r1 :: (mid ++ r2 :: post)).map
      (fun r => r.record_id)).count x ≤ 1 :=
    fun x => nodup_count_le_one hnd x
  have hcount1 : ∀ x, (dmapFlat (dedupGo (pre ++ r1 :: (mid ++ r2 :: post))
      ⟨[], [], []⟩).dmap).count x ≤ 1 := by
    intro x
    have hc := hcountF x
    have h0 : (dmapFlat (⟨[], [], []⟩ : DedupState).dmap).count x = 0 :=
      rfl
    rw [h0] at hc
    have := hle1 x
    omega
  -- the staged walk through the loop
  have hA1 : (dedupGo pre ⟨[], [], []⟩).seen.lookup (dkey r1) = none :=
    dedupGo_seen_none pre _ rfl hpre
  obtain ⟨hinvP, _⟩ := dedupGo_main pre ⟨[], [], []⟩ hinv0 (hids0 _) hprend
  have hstep1 : dedupGo (r1 :: (mid ++ r2 :: post))
      (dedupGo pre ⟨[], [], []⟩) =
      dedupGo (mid ++ r2 :: post)
        ⟨(dedupGo pre ⟨[], [], []⟩).seen ++ [(dkey r1, r1.record_id)],
         (dedupGo pre ⟨[], [], []⟩).dedups ++ [r1],
         (dedupGo pre ⟨[], [], []⟩).dmap ++
           [(r1.record_id, [r1.record_id])]⟩ := by
    simp only [dedupGo]
    rw [hA1]
  have hB1 : ((dedupGo pre ⟨[], [], []⟩).seen ++
      [(dkey r1, r1.record_id)]).lookup (dkey r1) = some r1.record_id := by
    rw [List.lookup_append, hA1, List.lookup_cons_self]
    rfl
  have hnoneP : (dedupGo pre ⟨[], [], []⟩).dmap.lookup r1.record_id =
      none := by
    rw [List.lookup_eq_none_iff]
    intro p hp
    have hkmem : p.1 ∈ (dedupGo pre ⟨[], [], []⟩).dmap.map Prod.fst :=
      List.mem_map_of_mem _ hp
    rw [hinvP.2.1] at hkmem
    obtain ⟨x, hx, hxe⟩ := List.mem_map.mp hkmem
    have hxpre : x ∈ pre := by
      rcases dedupGo_dedups_sub pre ⟨[], [], []⟩ x hx with h0 | h0
      · exact absurd h0 (List.not_mem_nil x)
      · exact h0
    simp only [bne_iff_ne, ne_eq]
    intro he
    refine hr1pre ?_
    rw [he, ← hxe]
    exact List.mem_map_of_mem _ hxpre
  have hB2 : ((dedupGo pre ⟨[], [], []⟩).dmap ++
      [(r1.record_id, [r1.record_id])]).lookup r1.record_id =
      some [r1.record_id] := by
    rw [List.lookup_append, hnoneP, List.lookup_cons_self]
    rfl
  have hC1 : (dedupGo mid
      ⟨(dedupGo pre ⟨[], [], []⟩).seen ++ [(dkey r1, r1.record_id)],
       (dedupGo pre ⟨[], [], []⟩).dedups ++ [r1],
       (dedupGo pre ⟨[], [], []⟩).dmap ++
         [(r1.record_id, [r1.record_id])]⟩).seen.lookup (dkey r1) =
      some r1.record_id :=
    dedupGo_seen_stable mid _ hB1
  obtain ⟨ext1, hC2⟩ := dedupGo_dmap_entry mid
    ⟨(dedupGo pre ⟨[], [], []⟩).seen ++ [(dkey r1, r1.record_id)],
     (dedupGo pre ⟨[], [], []⟩).dedups ++ [r1],
     (dedupGo pre ⟨[], [], []⟩).dmap ++ [(r1.record_id, [r1.record_id])]⟩
    hB2
  have hKr2 : (dedupGo mid
      ⟨(dedupGo pre ⟨[], [], []⟩).seen ++ [(dkey r1, r1.record_id)],
       (dedupGo pre ⟨[], [], []⟩).dedups ++ [r1],
       (dedupGo pre ⟨[], [], []⟩).dmap ++
         [(r1.record_id, [r1.record_id])]⟩).seen.lookup (dkey r2) =
      some r1.record_id := by
    rw [← hkey]
    exact hC1
  have hstep2 : dedupGo (r2 :: post) (dedupGo mid
      ⟨(dedupGo pre ⟨[], [], []⟩).seen ++ [(dkey r1, r1.record_id)],
       (dedupGo pre ⟨[], [], []⟩).dedups ++ [r1],
       (dedupGo pre ⟨[], [], []⟩).dmap ++
         [(r1.record_id, [r1.record_id])]⟩) =
      dedupGo post
        ⟨(dedupGo mid
            ⟨(dedupGo pre ⟨[], [], []⟩).seen ++ [(dkey r1, r1.record_id)],
             (dedupGo pre ⟨[], [], []⟩).dedups ++ [r1],
             (dedupGo pre ⟨[], [], []⟩).dmap ++
               [(r1.record_id, [r1.record_id])]⟩).seen,
         (dedupGo mid
            ⟨(dedupGo pre ⟨[], [], []⟩).seen ++ [(dkey r1, r1.record_id)],
             (dedupGo pre ⟨[], [], []⟩).dedups ++ [r1],
             (dedupGo pre ⟨[], [], []⟩).dmap ++
               [(r1.record_id, [r1.record_id])]⟩).dedups,
         appendToEntry (dedupGo mid
            ⟨(dedupGo pre ⟨[], [], []⟩).seen ++ [(dkey r1, r1.record_id)],
             (dedupGo pre ⟨[], [], []⟩).dedups ++ [r1],
             (dedupGo pre ⟨[], [], []⟩).dmap ++
               [(r1.record_id, [r1.record_id])]⟩).dmap
           r1.record_id r2.record_id⟩ := by
    simp only [dedupGo]
    rw [hKr2]
  have hchain : dedupGo (pre ++ r1 :: (mid ++ r2 :: post)) ⟨[], [], []⟩ =
      dedupGo post
        ⟨(dedupGo mid
            ⟨(dedupGo pre ⟨[], [], []⟩).seen ++ [(dkey r1, r1.record_id)],
             (dedupGo pre ⟨[], [], []⟩).dedups ++ [r1],
             (dedupGo pre ⟨[], [], []⟩).dmap ++
               [(r1.record_id, [r1.record_id])]⟩).seen,
         (dedupGo mid
            ⟨(dedupGo pre ⟨[], [], []⟩).seen ++ [(dkey r1, r1.record_id)],
             (dedupGo pre ⟨[], [], []⟩).dedups ++ [r1],
             (dedupGo pre ⟨[], [], []⟩).dmap ++
               [(r1.record_id, [r1.record_id])]⟩).dedups,
         appendToEntry (dedupGo mid
            ⟨(dedupGo pre ⟨[], [], []⟩).seen ++ [(dkey r1, r1.record_id)],
             (dedupGo pre ⟨[], [], []⟩).dedups ++ [r1],
             (dedupGo pre ⟨[], [], []⟩).dmap ++
               [(r1.record_id, [r1.record_id])]⟩).dmap
           r1.record_id r2.record_id⟩ := by
    rw [dedupGo_append, hstep1, dedupGo_append, hstep2]
  have hD1 := appendToEntry_lookup_self
    (dedupGo mid
      ⟨(dedupGo pre ⟨[], [], []⟩).seen ++ [(dkey r1, r1.record_id)],
       (dedupGo pre ⟨[], [], []⟩).dedups ++ [r1],
       (dedupGo pre ⟨[], [], []⟩).dmap ++
         [(r1.record_id, [r1.record_id])]⟩).dmap
    r1.record_id r2.record_id hC2
  obtain ⟨ext2, hE1⟩ := dedupGo_dmap_entry post
    ⟨(dedupGo mid
        ⟨(dedupGo pre ⟨[], [], []⟩).seen ++ [(dkey r1, r1.record_id)],
         (dedupGo pre ⟨[], [], []⟩).dedups ++ [r1],
         (dedupGo pre ⟨[], [], []⟩).dmap ++
           [(r1.record_id, [r1.record_id])]⟩).seen,
     (dedupGo mid
        ⟨(dedupGo pre ⟨[], [], []⟩).seen ++ [(dkey r1, r1.record_id)],
         (dedupGo pre ⟨[], [], []⟩).dedups ++ [r1],
         (dedupGo pre ⟨[], [], []⟩).dmap ++
           [(r1.record_id, [r1.record_id])]⟩).dedups,
     appendToEntry (dedupGo mid
        ⟨(dedupGo pre ⟨[], [], []⟩).seen ++ [(dkey r1, r1.record_id)],
         (dedupGo pre ⟨[], [], []⟩).dedups ++ [r1],
         (dedupGo pre ⟨[], [], []⟩).dmap ++
           [(r1.record_id, [r1.record_id])]⟩).dmap
       r1.record_id r2.record_id⟩ hD1
  have hLfin : (dedupGo (pre ++ r1 :: (mid ++ r2 :: post))
      ⟨[], [], []⟩).dmap.lookup r1.record_id =
      some ((([r1.record_id] ++ ext1) ++ [r2.record_id]) ++ ext2) := by
    rw [hchain]
    exact hE1
  have hr1inL : r1.record_id ∈
      (([r1.record_id] ++ ext1) ++ [r2.record_id]) ++ ext2 := by
    simp
  have hr2inL : r2.record_id ∈
      (([r1.record_id] ++ ext1) ++ [r2.record_id]) ++ ext2 := by
    simp
  -- r1 is kept
  obtain ⟨e1, he1⟩ := dedupGo_dedups_ext mid
    ⟨(dedupGo pre ⟨[], [], []⟩).seen ++ [(dkey r1, r1.record_id)],
     (dedupGo pre ⟨[], [], []⟩).dedups ++ [r1],
     (dedupGo pre ⟨[], [], []⟩).dmap ++ [(r1.record_id, [r1.record_id])]⟩
  obtain ⟨e2, he2⟩ := dedupGo_dedups_ext post
    ⟨(dedupGo mid
        ⟨(dedupGo pre ⟨[], [], []⟩).seen ++ [(dkey r1, r1.record_id)],
         (dedupGo pre ⟨[], [], []⟩).dedups ++ [r1],
         (dedupGo pre ⟨[], [], []⟩).dmap ++
           [(r1.record_id, [r1.record_id])]⟩).seen,
     (dedupGo mid
        ⟨(dedupGo pre ⟨[], [], []⟩).seen ++ [(dkey r1, r1.record_id)],
         (dedupGo pre ⟨[], [], []⟩).dedups ++ [r1],
         (dedupGo pre ⟨[], [], []⟩).dmap ++
           [(r1.record_id, [r1.record_id])]⟩).dedups,
     appendToEntry (dedupGo mid
        ⟨(dedupGo pre ⟨[], [], []⟩).seen ++ [(dkey r1, r1.record_id)],
         (dedupGo pre ⟨[], [], []⟩).dedups ++ [r1],
         (dedupGo pre ⟨[], [], []⟩).dmap ++
           [(r1.record_id, [r1.record_id])]⟩).dmap
       r1.record_id r2.record_id⟩
  have hr1mem : r1 ∈ (dedupGo (pre ++ r1 :: (mid ++ r2 :: post))
      ⟨[], [], []⟩).dedups := by
    rw [hchain, he2]
    refine List.mem_append.mpr (Or.inl ?_)
    show r1 ∈ (dedupGo mid _).dedups
    rw [he1]
    exact List.mem_append.mpr (Or.inl
      (List.mem_append.mpr (Or.inr (List.mem_cons_self _ _))))
  -- r2 is dropped
  have hr2notmem : ¬ r2 ∈ (dedupGo (pre ++ r1 :: (mid ++ r2 :: post))
      ⟨[], [], []⟩).dedups := by
    intro habs
    have hk2 : r2.record_id ∈
        (dedupGo (pre ++ r1 :: (mid ++ r2 :: post))
          ⟨[], [], []⟩).dmap.map Prod.fst := by
      rw [hinvF.2.1]
      exact List.mem_map_of_mem _ habs
    obtain ⟨p, hp, hpe⟩ := List.mem_map.mp hk2
    obtain ⟨L0, hL0⟩ := hinvF.2.2.2.2 p hp
    have hr2inp : r2.record_id ∈ p.2 := by
      rw [hL0, hpe]
      exact List.mem_cons_self _ _
    have hpmem : (p.1, p.2) ∈ (dedupGo (pre ++ r1 :: (mid ++ r2 :: post))
        ⟨[], [], []⟩).dmap := hp
    refine dmap_entry_disjoint _ hcount1 hLfin hpmem ?_ hr2inL hr2inp
    rw [hpe]
    exact hr1ne2
  -- side condition: entries other than r1's never contain a member of Lfin
  have hside : ∀ k, k ∈ (([r1.record_id] ++ ext1) ++ [r2.record_id]) ++
      ext2 → ∀ p2, p2 ∈ (llm (dedup_records_map
        (pre ++ r1 :: (mid ++ r2 :: post))).1) → p2.1 ≠ r1.record_id →
      ¬ k ∈ (((dedupGo (pre ++ r1 :: (mid ++ r2 :: post))
        ⟨[], [], []⟩).dmap.lookup p2.1).getD [p2.1]) := by
    intro k hkL p2 hp2 hp2ne
    have hp2key : p2.1 ∈ (dedupGo (pre ++ r1 :: (mid ++ r2 :: post))
        ⟨[], [], []⟩).dmap.map Prod.fst := by
      rw [hinvF.2.1]
      exact htrkeys p2 hp2
    obtain ⟨q, hq, hqe⟩ := List.mem_map.mp hp2key
    have hsome : ((dedupGo (pre ++ r1 :: (mid ++ r2 :: post))
        ⟨[], [], []⟩).dmap.lookup p2.1).isSome := by
      refine List.lookup_isSome_iff.mpr ⟨q, hq, ?_⟩
      rw [hqe]
      exact beq_self_eq_true p2.1
    obtain ⟨Lp, hLp⟩ := Option.isSome_iff_exists.mp hsome
    rw [hLp]
    show ¬ k ∈ Lp
    have hentry : (p2.1, Lp) ∈ (dedupGo (pre ++ r1 :: (mid ++ r2 :: post))
        ⟨[], [], []⟩).dmap := by
      obtain ⟨a1, a2, ha, _⟩ := List.lookup_eq_some_iff.mp hLp
      rw [ha]
      exact List.mem_append.mpr (Or.inr (List.mem_cons_self _ _))
    exact dmap_entry_disjoint _ hcount1 hLfin hentry
      (fun he => hp2ne he.symm) hkL
  -- decompose the LLM output at r1's entry
  obtain ⟨d1, d2, hdec, hd1⟩ := List.lookup_eq_some_iff.mp htr
  have htrnd2 := htrnd
  rw [hdec, List.map_append, List.map_cons, List.nodup_middle,
    List.nodup_cons] at htrnd2
  have hd2ne : ∀ p2 ∈ d2, p2.1 ≠ r1.record_id := by
    intro p2 hp2 he
    refine htrnd2.1 ?_
    show (r1.record_id, t).1 ∈ List.map Prod.fst d1 ++ List.map Prod.fst d2
    rw [← List.map_append]
    have hpm : p2 ∈ d1 ++ d2 := List.mem_append.mpr (Or.inr hp2)
    have := List.mem_map_of_mem Prod.fst hpm
    rw [he] at this
    exact this
  have hd2side : ∀ k, k ∈ (([r1.record_id] ++ ext1) ++ [r2.record_id]) ++
      ext2 → ∀ p2 ∈ d2, ¬ k ∈ (((dedupGo (pre ++ r1 :: (mid ++ r2 :: post))
        ⟨[], [], []⟩).dmap.lookup p2.1).getD [p2.1]) := by
    intro k hkL p2 hp2
    refine hside k hkL p2 ?_ (hd2ne p2 hp2)
    rw [hdec]
    exact List.mem_append.mpr (Or.inr (List.mem_cons_of_mem _ hp2))
  have hexp : ∀ k, k ∈ (([r1.record_id] ++ ext1) ++ [r2.record_id]) ++
      ext2 → (expand (llm (dedup_records_map
        (pre ++ r1 :: (mid ++ r2 :: post))).1)
      (dedup_records_map (pre ++ r1 :: (mid ++ r2 :: post))).2).lookup k =
      some t := by
    intro k hkL
    rw [hdec]
    refine expand_lookup d1 d2 r1.record_id t _ k ?_ (hd2side k hkL)
    show k ∈ (((dedupGo (pre ++ r1 :: (mid ++ r2 :: post))
      ⟨[], [], []⟩).dmap.lookup r1.record_id).getD [r1.record_id])
    rw [hLfin]
    exact hkL
  -- plumb through run_task
  have hneB : ((records.filter
      (fun r => !(cached.lookup r.record_id).isSome)).isEmpty) = false := by
    rw [hu]
    cases pre <;> rfl
  obtain ⟨hfield1, hfield2⟩ := run_task_fields pr fb cached llm records
    hparse hneB
  rw [hu] at hfield1 hfield2
  rw [hfield1, hfield2]
  have hD1eq : (dedup_records_map (pre ++ r1 :: (mid ++ r2 :: post))).1 =
      (dedupGo (pre ++ r1 :: (mid ++ r2 :: post)) ⟨[], [], []⟩).dedups :=
    rfl
  refine ⟨?_, ?_, ?_, ?_, ?_⟩
  · rw [hD1eq]
    exact hr1mem
  · rw [hD1eq]
    exact hr2notmem
  · rw [hD1eq]
    exact filter_key_len _ (dkey r1) hinvF.2.2.1 r1 hr1mem rfl
  · exact dictUpdAll_lookup_some cached _ r1.record_id t
      (hexp r1.record_id hr1inL) (expand_keys_nodup _ _)
  · exact dictUpdAll_lookup_some cached _ r2.record_id t
      (hexp r2.record_id hr2inL) (expand_keys_nodup _ _)

/-- A file with two `WEAP` records (form ids `0x100` and `0x200`)
carrying identical `FULL` text. -/
def scratchFile5 : Bytes :=
  scratchTes4 ++ scratchRecHeader ++ scratchSub ++
    scratchRecHeader2 ++ scratchSub

/-- Witness for C5 at the concrete two-record file: the second record
does not reach the LLM driver, yet its id receives the shared
translation. -/
theorem claim5_dedup_single_call_fanout_witness :
    dkey ⟨scratchId, ['H', 'i']⟩ = dkey ⟨scratchId2, ['H', 'i']⟩ ∧
    ¬ (⟨scratchId2, ['H', 'i']⟩ : StringRecord) ∈
      (run_task asciiPrintable scratchFile5 []
        (fun _ => [(scratchId, ['H', 'e', 'j'])])).llmInput ∧
    (run_task asciiPrintable scratchFile5 []
      (fun _ => [(scratchId, ['H', 'e', 'j'])])).translations.lookup
      scratchId2 = some ['H', 'e', 'j'] := by
  have h := claim5_dedup_single_call_fanout asciiPrintable scratchFile5 []
    [⟨scratchId, ['H', 'i']⟩, ⟨scratchId2, ['H', 'i']⟩]
    [] [] [] ⟨scratchId, ['H', 'i']⟩ ⟨scratchId2, ['H', 'i']⟩
    (fun _ => [(scratchId, ['H', 'e', 'j'])]) ['H', 'e', 'j']
    (by decide) (by decide) (by decide) (by decide) (by decide)
    (by decide) (by decide) (by decide)
  exact ⟨by decide, h.2.1, h.2.2.2.2⟩

/-! ### Mask/unmask roundtrip -/

/-- `t` occurs as a contiguous substring of `s`. -/
def occursIn (t s : List Char) : Prop := ∃ a b, s = a ++ t ++ b

/-- No `>` anywhere (the inside of an unclosed candidate). -/
def tailNoGt (l : List Char) : Bool := l.all (fun c => c ≠ '>')

/-- Shape of the text strictly between two matches of `<[^>]+>`:
every `<` is immediately followed by `>` (an aborted empty candidate),
so no match can start inside it. -/
def gapOk : List Char → Bool
  | [] => true
  | [c] => c ≠ '<'
  | c :: d :: rest =>
    if c = '<' then d = '>' && gapOk rest
    else gapOk (d :: rest)

/-- Shape of the text after the last match: as `gapOk`, except that a
final `<` may open a candidate that never closes (no `>` follows). -/
def lastGapOk : List Char → Bool
  | [] => true
  | [_] => true
  | c :: d :: rest =>
    if c = '<' then
      if d = '>' then lastGapOk rest else tailNoGt (d :: rest)
    else lastGapOk (d :: rest)

/-- Shape of a regex match of `<[^>]+>`. -/
def TagShape (t : List Char) : Prop :=
  ∃ inner, t = '<' :: (inner ++ ['>']) ∧ inner ≠ [] ∧ tailNoGt inner = true

/-- The scan of `findall_tags`, additionally keeping the gap before
each match and the final gap: the decomposition of the input into
alternating gaps and matches. -/
def scanPartsGo : List Char → List Char → Option (List Char) →
    (List (List Char × List Char)) × List Char
  | [], gap, none => ([], gap)
  | [], gap, some buf => ([], gap ++ '<' :: buf)
  | c :: rest, gap, none =>
    if c = '<' then scanPartsGo rest gap (some [])
    else scanPartsGo rest (gap ++ [c]) none
  | c :: rest, gap, some buf =>
    if c = '>' then
      if buf.isEmpty then scanPartsGo rest (gap ++ ['<', '>']) none
      else ((gap, '<' :: (buf ++ ['>'])) :: (scanPartsGo rest [] none).1,
        (scanPartsGo rest [] none).2)
    else scanPartsGo rest gap (some (buf ++ [c]))

/-- Reassemble a gap/match decomposition into the original text. -/
def assembleRaw : List (List Char × List Char) → List Char → List Char
  | [], lg => lg
  | p :: ps, lg => p.1 ++ p.2 ++ assembleRaw ps lg

/-- Reassemble with each match replaced by its indexed placeholder. -/
def assembleMasked : List (List Char × List Char) → List Char → Nat →
    List Char
  | [], lg, _ => lg
  | p :: ps, lg, n => p.1 ++ placeholder n ++ assembleMasked ps lg (n + 1)

theorem scanPartsGo_tags (s : List Char) :
    ∀ (gap : List Char) (st : Option (List Char)),
    (scanPartsGo s gap st).1.map Prod.snd = scanTagsGo s st := by
  induction s with
  | nil =>
    intro gap st
    cases st <;> rfl
  | cons c rest ih =>
    intro gap st
    cases st with
    | none =>
      by_cases hc : c = '<'
      · simp only [scanPartsGo, scanTagsGo, hc, if_true]
        exact ih gap (some [])
      · simp only [scanPartsGo, scanTagsGo, hc, if_false]
        exact ih (gap ++ [c]) none
    | some buf =>
      by_cases hc : c = '>'
      · by_cases hb : buf.isEmpty = true
        · simp only [scanPartsGo, scanTagsGo, hc, hb, if_true]
          exact ih (gap ++ ['<', '>']) none
        · simp only [scanPartsGo, scanTagsGo, hc, hb, if_true,
            Bool.false_eq_true, if_false, List.map_cons]
          rw [ih [] none]
      · simp only [scanPartsGo, scanTagsGo, hc, if_false]
        exact ih gap (some (buf ++ [c]))

theorem scanPartsGo_assemble (s : List Char) :
    ∀ (gap : List Char) (st : Option (List Char)),
    assembleRaw (scanPartsGo s gap st).1 (scanPartsGo s gap st).2 =
      gap ++ (match st with
        | none => ([] : List Char)
        | some buf => '<' :: buf) ++ s := by
  induction s with
  | nil =>
    intro gap st
    cases st with
    | none => simp [scanPartsGo, assembleRaw]
    | some buf => simp [scanPartsGo, assembleRaw]
  | cons c rest ih =>
    intro gap st
    cases st with
    | none =>
      by_cases hc : c = '<'
      · simp only [scanPartsGo, hc, if_true]
        rw [ih gap (some [])]
        simp [hc]
      · simp only [scanPartsGo, hc, if_false]
        rw [ih (gap ++ [c]) none]
        simp
    | some buf =>
      by_cases hc : c = '>'
      · by_cases hb : buf.isEmpty = true
        · simp only [scanPartsGo, hc, hb, if_true]
          rw [ih (gap ++ ['<', '>']) none]
          have hbe : buf = [] := List.isEmpty_iff.mp hb
          subst hbe
          simp [hc]
        · simp only [scanPartsGo, hc, hb, if_true, Bool.false_eq_true,
            if_false]
          show (gap ++ ('<' :: (buf ++ ['>']))) ++
            assembleRaw (scanPartsGo rest [] none).1
              (scanPartsGo rest [] none).2 = _
          rw [ih [] none]
          simp [hc]
      · simp only [scanPartsGo, hc, if_false]
        rw [ih gap (some (buf ++ [c]))]
        simp [hc]

theorem gapOk_append : ∀ (n : Nat) (g h : List Char), g.length ≤ n →
    gapOk g = true → gapOk h = true → gapOk (g ++ h) = true := by
  intro n
  induction n with
  | zero =>
    intro g h hlen hg hh
    match g with
    | [] => exact hh
    | c :: g' => simp at hlen
  | succ n ih =>
    intro g h hlen hg hh
    match g with
    | [] => exact hh
    | [c] =>
      have hc : c ≠ '<' := by
        simpa [gapOk] using hg
      cases h with
      | nil => simpa using hg
      | cons d h' =>
        show gapOk (c :: d :: h') = true
        simp only [gapOk, if_neg hc]
        exact hh
    | c :: d :: g'' =>
      by_cases h1 : c = '<'
      · subst h1
        simp only [gapOk, if_true, Bool.and_eq_true,
          decide_eq_true_eq] at hg
        obtain ⟨hd, hg2⟩ := hg
        have hrec := ih g'' h (by simp at hlen; omega) hg2 hh
        subst hd
        show gapOk ('<' :: '>' :: (g'' ++ h)) = true
        simp [gapOk, hrec]
      · simp only [gapOk, if_neg h1] at hg
        have hrec := ih (d :: g'') h (by simp at hlen ⊢; omega) hg hh
        show gapOk (c :: (d :: g'' ++ h)) = true
        simp only [List.cons_append] at hrec ⊢
        simp only [gapOk, if_neg h1]
        exact hrec

theorem lastGapOk_append_left : ∀ (n : Nat) (g h : List Char),
    g.length ≤ n → gapOk g = true → lastGapOk h = true →
    lastGapOk (g ++ h) = true := by
  intro n
  induction n with
  | zero =>
    intro g h hlen hg hh
    match g with
    | [] => exact hh
    | c :: g' => simp at hlen
  | succ n ih =>
    intro g h hlen hg hh
    match g with
    | [] => exact hh
    | [c] =>
      have hc : c ≠ '<' := by
        simpa [gapOk] using hg
      cases h with
      | nil => rfl
      | cons d h' =>
        show lastGapOk (c :: d :: h') = true
        simp only [lastGapOk, if_neg hc]
        exact hh
    | c :: d :: g'' =>
      by_cases h1 : c = '<'
      · subst h1
        simp only [gapOk, if_true, Bool.and_eq_true,
          decide_eq_true_eq] at hg
        obtain ⟨hd, hg2⟩ := hg
        have hrec := ih g'' h (by simp at hlen; omega) hg2 hh
        subst hd
        show lastGapOk ('<' :: '>' :: (g'' ++ h)) = true
        simp [lastGapOk, hrec]
      · simp only [gapOk, if_neg h1] at hg
        have hrec := ih (d :: g'') h (by simp at hlen ⊢; omega) hg hh
        show lastGapOk (c :: (d :: g'' ++ h)) = true
        simp only [List.cons_append] at hrec ⊢
        simp only [lastGapOk, if_neg h1]
        exact hrec

theorem lastGapOk_open (buf : List Char) (hb : tailNoGt buf = true) :
    lastGapOk ('<' :: buf) = true := by
  match buf with
  | [] => rfl
  | d :: rest =>
    simp only [tailNoGt, List.all_cons, Bool.and_eq_true,
      decide_eq_true_eq] at hb
    have hd : d ≠ '>' := hb.1
    show lastGapOk ('<' :: d :: rest) = true
    simp only [lastGapOk, if_pos rfl, if_neg hd]
    show tailNoGt (d :: rest) = true
    simp only [tailNoGt, List.all_cons, Bool.and_eq_true,
      decide_eq_true_eq]
    exact ⟨hd, hb.2⟩

theorem scanPartsGo_shapes (s : List Char) :
    ∀ (gap : List Char) (st : Option (List Char)),
    gapOk gap = true →
    (match st with
      | none => True
      | some buf => tailNoGt buf = true) →
    (∀ p ∈ (scanPartsGo s gap st).1, gapOk p.1 = true ∧ TagShape p.2) ∧
    lastGapOk (scanPartsGo s gap st).2 = true := by
  induction s with
  | nil =>
    intro gap st hgap hst
    cases st with
    | none =>
      refine ⟨fun p hp => absurd hp (List.not_mem_nil p), ?_⟩
      show lastGapOk gap = true
      have := lastGapOk_append_left gap.length gap [] (Nat.le_refl _)
        hgap rfl
      simpa using this
    | some buf =>
      refine ⟨fun p hp => absurd hp (List.not_mem_nil p), ?_⟩
      show lastGapOk (gap ++ '<' :: buf) = true
      exact lastGapOk_append_left gap.length gap _ (Nat.le_refl _) hgap
        (lastGapOk_open buf hst)
  | cons c rest ih =>
    intro gap st hgap hst
    cases st with
    | none =>
      by_cases hc : c = '<'
      · simp only [scanPartsGo, hc, if_true]
        exact ih gap (some []) hgap rfl
      · simp only [scanPartsGo, hc, if_false]
        refine ih (gap ++ [c]) none ?_ trivial
        refine gapOk_append gap.length gap [c] (Nat.le_refl _) hgap ?_
        simp [gapOk, hc]
    | some buf =>
      by_cases hc : c = '>'
      · by_cases hb : buf.isEmpty = true
        · simp only [scanPartsGo, hc, hb, if_true]
          refine ih (gap ++ ['<', '>']) none ?_ trivial
          exact gapOk_append gap.length gap ['<', '>'] (Nat.le_refl _)
            hgap (by decide)
        · simp only [scanPartsGo, hc, hb, if_true, Bool.false_eq_true,
            if_false]
          obtain ⟨htail, hlast⟩ := ih [] none rfl trivial
          refine ⟨?_, hlast⟩
          intro p hp
          rcases List.mem_cons.mp hp with rfl | hp'
          · refine ⟨hgap, buf, rfl, ?_, hst⟩
            intro hbe
            rw [hbe] at hb
            exact hb rfl
          · exact htail p hp'
      · simp only [scanPartsGo, hc, if_false]
        refine ih gap (some (buf ++ [c])) hgap ?_
        show tailNoGt (buf ++ [c]) = true
        simp only [tailNoGt, List.all_append, List.all_cons, List.all_nil,
          Bool.and_eq_true, decide_eq_true_eq]
        exact ⟨by simpa [tailNoGt] using hst, hc, trivial⟩

theorem append_eq_append_split : ∀ (w x y z : List Char),
    w ++ x = y ++ z → w.length ≤ y.length →
    ∃ m, y = w ++ m ∧ x = m ++ z := by
  intro w
  induction w with
  | nil =>
    intro x y z h _
    exact ⟨y, rfl, h⟩
  | cons c w' ih =>
    intro x y z h hle
    match y with
    | [] => simp at hle
    | d :: y' =>
      simp only [List.cons_append, List.cons.injEq] at h
      obtain ⟨rfl, h2⟩ := h
      obtain ⟨m, hm1, hm2⟩ := ih x y' z h2 (by simpa using hle)
      exact ⟨m, by rw [hm1]; rfl, hm2⟩

theorem occ_trichotomy (X Y a t b : List Char)
    (h : X ++ Y = a ++ t ++ b) :
    (∃ X2, X = a ++ t ++ X2 ∧ b = X2 ++ Y) ∨
    (∃ A B, A ≠ [] ∧ B ≠ [] ∧ X = a ++ A ∧ t = A ++ B ∧ Y = B ++ b) ∨
    (∃ a2, a = X ++ a2 ∧ Y = a2 ++ t ++ b) := by
  by_cases h1 : X.length ≤ a.length
  · right; right
    obtain ⟨m, hm1, hm2⟩ := append_eq_append_split X Y a (t ++ b)
      (by rw [h, List.append_assoc]) h1
    exact ⟨m, hm1, by rw [hm2, ← List.append_assoc]⟩
  · push_neg at h1
    by_cases h2 : a.length + t.length ≤ X.length
    · left
      obtain ⟨m, hm1, hm2⟩ := append_eq_append_split (a ++ t) b X Y
        h.symm (by simp; omega)
      exact ⟨m, by rw [hm1, List.append_assoc], hm2⟩
    · right; left
      push_neg at h2
      obtain ⟨A, hA1, hA2⟩ := append_eq_append_split a (t ++ b) X Y
        (by rw [List.append_assoc] at h; rw [h]) (Nat.le_of_lt h1)
      have hAlen : A.length < t.length := by
        have hx : X.length = a.length + A.length := by
          rw [hA1]; simp
        omega
      obtain ⟨B, hB1, hB2⟩ := append_eq_append_split A Y t b hA2.symm
        (Nat.le_of_lt hAlen)
      refine ⟨A, B, ?_, ?_, hA1, hB1, hB2⟩
      · intro hnil
        subst hnil
        have hx : X.length = a.length := by rw [hA1]; simp
        omega
      · intro hnil
        subst hnil
        have ht : t.length = A.length := by rw [hB1]; simp
        omega

theorem natDigitsGo_digit : ∀ (fuel n : Nat) (c : Char),
    c ∈ natDigitsGo fuel n → ∃ d, d < 10 ∧ c = digitChar d := by
  intro fuel
  induction fuel with
  | zero => intro n c hc; cases hc
  | succ fuel ih =>
    intro n c hc
    rw [natDigitsGo] at hc
    by_cases hn : n < 10
    · rw [if_pos hn] at hc
      rcases List.mem_singleton.mp hc with rfl
      exact ⟨n, hn, rfl⟩
    · rw [if_neg hn] at hc
      rcases List.mem_append.mp hc with hc' | hc'
      · exact ih (n / 10) c hc'
      · rcases List.mem_singleton.mp hc' with rfl
        exact ⟨n % 10, Nat.mod_lt n (by omega), rfl⟩

theorem toDecimal_digit (n : Nat) (c : Char) (hc : c ∈ toDecimal n) :
    ∃ d, d < 10 ∧ c = digitChar d :=
  natDigitsGo_digit (n + 1) n c hc

theorem digitChar_ne (d : Nat) (hd : d < 10) :
    digitChar d ≠ '{' ∧ digitChar d ≠ '}' ∧ digitChar d ≠ '<' ∧
      digitChar d ≠ '>' := by
  interval_cases d <;> refine ⟨by decide, by decide, by decide, by decide⟩

theorem natDigitsGo_ne_nil (fuel n : Nat) (h : 0 < fuel) :
    natDigitsGo fuel n ≠ [] := by
  match fuel, h with
  | fuel + 1, _ =>
    rw [natDigitsGo]
    by_cases hn : n < 10
    · rw [if_pos hn]
      exact List.cons_ne_nil _ _
    · rw [if_neg hn]
      intro hc
      rcases List.append_eq_nil.mp hc with ⟨_, h2⟩
      exact List.cons_ne_nil _ _ h2

theorem toDecimal_ne_nil (n : Nat) : toDecimal n ≠ [] :=
  natDigitsGo_ne_nil (n + 1) n (Nat.succ_pos n)

theorem toDecimal_len (n : Nat) : 1 ≤ (toDecimal n).length := by
  cases hd : toDecimal n with
  | nil => exact absurd hd (toDecimal_ne_nil n)
  | cons c l => simp

theorem placeholder_len (n : Nat) : 9 ≤ (placeholder n).length := by
  show 9 ≤ ('{' :: '{' :: 'T' :: 'A' :: 'G' :: '_' ::
    (toDecimal n ++ ['}', '}'])).length
  simp only [List.length_cons, List.length_append]
  have := toDecimal_len n
  simp
  omega

theorem placeholder_no_lt (n : Nat) : ¬ '<' ∈ placeholder n := by
  intro hmem
  rw [placeholder] at hmem
  simp only [List.mem_cons, List.mem_append, List.mem_singleton,
    List.not_mem_nil, or_false] at hmem
  rcases hmem with h | h | h | h | h | h | h | h | h
  · exact absurd h (by decide)
  · exact absurd h (by decide)
  · exact absurd h (by decide)
  · exact absurd h (by decide)
  · exact absurd h (by decide)
  · exact absurd h (by decide)
  · obtain ⟨d, hd, he⟩ := toDecimal_digit n '<' h
    exact (digitChar_ne d hd).2.2.1 he.symm
  · exact absurd h (by decide)
  · exact absurd h (by decide)

theorem placeholder_drop2 (n : Nat) : (placeholder n).drop 2 =
    'T' :: 'A' :: 'G' :: '_' :: (toDecimal n ++ ['}', '}']) := rfl

theorem placeholder_no_brace_drop2 (n : Nat) :
    ¬ '{' ∈ (placeholder n).drop 2 := by
  intro hmem
  rw [placeholder_drop2] at hmem
  simp only [List.mem_cons, List.mem_append, List.mem_singleton,
    List.not_mem_nil, or_false] at hmem
  rcases hmem with h | h | h | h | h | h | h
  · exact absurd h (by decide)
  · exact absurd h (by decide)
  · exact absurd h (by decide)
  · exact absurd h (by decide)
  · obtain ⟨d, hd, he⟩ := toDecimal_digit n '{' h
    exact (digitChar_ne d hd).1 he.symm
  · exact absurd h (by decide)
  · exact absurd h (by decide)

theorem natDigitsGo_fuel : ∀ (f1 f2 n : Nat), n < f1 → n < f2 →
    natDigitsGo f1 n = natDigitsGo f2 n := by
  intro f1
  induction f1 with
  | zero => intro f2 n h1 _; omega
  | succ f1 ih =>
    intro f2 n h1 h2
    match f2 with
    | 0 => omega
    | f2 + 1 =>
      rw [natDigitsGo, natDigitsGo]
      by_cases hn : n < 10
      · rw [if_pos hn, if_pos hn]
      · rw [if_neg hn, if_neg hn]
        have hlt : n / 10 < n := Nat.div_lt_self (by omega) (by omega)
        rw [ih f2 (n / 10) (by omega) (by omega)]

theorem digitChar_inj : ∀ (a b : Nat), a < 10 → b < 10 →
    digitChar a = digitChar b → a = b := by
  intro a b ha hb
  interval_cases a <;> interval_cases b <;> decide

theorem last_append_inj {a b : List Char} {x y : Char}
    (h : a ++ [x] = b ++ [y]) : a = b ∧ x = y := by
  have hr := congrArg List.reverse h
  simp only [List.reverse_append, List.reverse_cons, List.reverse_nil,
    List.nil_append, List.singleton_append, List.cons.injEq] at hr
  obtain ⟨rfl, h2⟩ := hr
  exact ⟨by rw [← List.reverse_reverse a, h2, List.reverse_reverse], rfl⟩

theorem natDigitsGo_inj : ∀ (f n m : Nat), n < f → m < f →
    natDigitsGo f n = natDigitsGo f m → n = m := by
  intro f
  induction f with
  | zero => intro n m h1 _ _; omega
  | succ f ih =>
    intro n m h1 h2 heq
    rw [natDigitsGo, natDigitsGo] at heq
    by_cases hn : n < 10
    · rw [if_pos hn] at heq
      by_cases hm : m < 10
      · rw [if_pos hm] at heq
        simp only [List.cons.injEq, and_true] at heq
        exact digitChar_inj n m hn hm heq
      · rw [if_neg hm] at heq
        exfalso
        have hne := natDigitsGo_ne_nil f (m / 10) (by omega)
        cases hh : natDigitsGo f (m / 10) with
        | nil => exact hne hh
        | cons c l =>
          rw [hh] at heq
          have hlen := congrArg List.length heq
          simp at hlen
    · rw [if_neg hn] at heq
      by_cases hm : m < 10
      · rw [if_pos hm] at heq
        exfalso
        have hne := natDigitsGo_ne_nil f (n / 10) (by omega)
        cases hh : natDigitsGo f (n / 10) with
        | nil => exact hne hh
        | cons c l =>
          rw [hh] at heq
          have hlen := congrArg List.length heq
          simp at hlen
      · rw [if_neg hm] at heq
        obtain ⟨hmain, hlast⟩ := last_append_inj heq
        have hd1 : n / 10 < n := Nat.div_lt_self (by omega) (by omega)
        have hd2 : m / 10 < m := Nat.div_lt_self (by omega) (by omega)
        have he1 := ih (n / 10) (m / 10) (by omega) (by omega) hmain
        have he2 := digitChar_inj (n % 10) (m % 10)
          (Nat.mod_lt n (by omega)) (Nat.mod_lt m (by omega)) hlast
        omega

theorem toDecimal_inj (n m : Nat) (h : toDecimal n = toDecimal m) :
    n = m := by
  rw [toDecimal, toDecimal] at h
  rw [natDigitsGo_fuel (n + 1) (n + m + 1) n (by omega) (by omega)] at h
  rw [natDigitsGo_fuel (m + 1) (n + m + 1) m (by omega) (by omega)] at h
  exact natDigitsGo_inj (n + m + 1) n m (by omega) (by omega) h

theorem digits_brace_inj : ∀ (d1 d2 X : List Char),
    (∀ c ∈ d1, c ≠ '}') → (∀ c ∈ d2, c ≠ '}') →
    d1 ++ ['}', '}'] = d2 ++ ['}', '}'] ++ X → d1 = d2 ∧ X = [] := by
  intro d1
  induction d1 with
  | nil =>
    intro d2 X _ hd2 h
    match d2 with
    | [] =>
      simp only [List.nil_append] at h
      have hlen := congrArg List.length h
      simp only [List.length_append, List.length_cons,
        List.length_nil] at hlen
      have hX : X = [] := List.length_eq_zero.mp (by omega)
      exact ⟨rfl, hX⟩
    | c :: d2' =>
      exfalso
      simp only [List.nil_append, List.cons_append,
        List.cons.injEq] at h
      exact hd2 c (List.mem_cons_self _ _) h.1.symm
  | cons c d1' ih =>
    intro d2 X hd1 hd2 h
    match d2 with
    | [] =>
      exfalso
      simp only [List.nil_append, List.cons_append,
        List.cons.injEq] at h
      exact hd1 c (List.mem_cons_self _ _) h.1
    | c2 :: d2' =>
      simp only [List.cons_append, List.cons.injEq] at h
      obtain ⟨rfl, h2⟩ := h
      obtain ⟨hh1, hh2⟩ := ih d2' X
        (fun x hx => hd1 x (List.mem_cons_of_mem _ hx))
        (fun x hx => hd2 x (List.mem_cons_of_mem _ hx))
        h2
      exact ⟨by rw [hh1], hh2⟩

theorem toDecimal_no_brace (n : Nat) : ∀ c ∈ toDecimal n, c ≠ '}' := by
  intro c hc
  obtain ⟨d, hd, he⟩ := toDecimal_digit n c hc
  rw [he]
  exact (digitChar_ne d hd).2.1

theorem placeholder_prefix_eq (a b : Nat) (X : List Char)
    (h : placeholder a = placeholder b ++ X) : a = b ∧ X = [] := by
  rw [placeholder, placeholder] at h
  simp only [List.cons_append, List.cons.injEq, true_and] at h
  obtain ⟨hd, hX⟩ := digits_brace_inj (toDecimal a) (toDecimal b) X
    (toDecimal_no_brace a) (toDecimal_no_brace b) h
  exact ⟨toDecimal_inj a b hd, hX⟩

theorem placeholder_overlap (a b : Nat) (A B C : List Char)
    (h1 : placeholder a = A ++ B) (h2 : placeholder b = B ++ C)
    (hB : B ≠ []) : A = [] ∧ a = b ∧ C = [] := by
  match B, hB with
  | c :: B', _ =>
    have hc : c = '{' := by
      rw [placeholder] at h2
      simp only [List.cons_append, List.cons.injEq] at h2
      exact h2.1.symm
    subst hc
    match A with
    | [] =>
      obtain ⟨hab, hC⟩ := placeholder_prefix_eq b a C
        (by rw [h2]; rw [List.nil_append] at h1; rw [h1])
      exact ⟨rfl, hab.symm, hC⟩
    | a0 :: A' =>
      exfalso
      match A' with
      | [] =>
        rw [placeholder] at h1
        simp only [List.cons_append, List.nil_append,
          List.cons.injEq, true_and] at h1
        obtain ⟨ha0, hB'⟩ := h1
        rw [placeholder] at h2
        rw [← hB'] at h2
        simp only [List.cons_append, List.cons.injEq] at h2
        exact absurd h2.2.1 (by decide)
      | a1 :: A'' =>
        refine placeholder_no_brace_drop2 a ?_
        rw [h1]
        show '{' ∈ ((a0 :: a1 :: A'') ++ ('{' :: B')).drop 2
        rw [List.cons_append, List.cons_append, List.drop_succ_cons,
          List.drop_succ_cons, List.drop_zero]
        exact List.mem_append.mpr (Or.inr (List.mem_cons_self _ _))

theorem tagShape_gt_mem (t : List Char) (ht : TagShape t) : '>' ∈ t := by
  obtain ⟨inner, rfl, _, _⟩ := ht
  simp

theorem tagShape_head (t : List Char) (ht : TagShape t) :
    ∃ i0 rest, t = '<' :: i0 :: rest ∧ i0 ≠ '>' := by
  obtain ⟨inner, rfl, hne, hno⟩ := ht
  match inner, hne with
  | i0 :: inner', _ =>
    refine ⟨i0, inner' ++ ['>'], rfl, ?_⟩
    simp only [tailNoGt, List.all_cons, Bool.and_eq_true,
      decide_eq_true_eq] at hno
    exact hno.1

theorem gap_no_tag : ∀ (n : Nat) (g X t a b : List Char),
    g.length ≤ n → gapOk g = true → TagShape t →
    g ++ X = a ++ t ++ b → g.length ≤ a.length := by
  intro n
  induction n with
  | zero =>
    intro g X t a b hlen hg ht h
    match g with
    | [] => exact Nat.zero_le _
    | c :: g' => simp at hlen
  | succ n ih =>
    intro g X t a b hlen hg ht h
    obtain ⟨i0, trest, hte, hi0⟩ := tagShape_head t ht
    match g with
    | [] => exact Nat.zero_le _
    | [c] =>
      have hc : c ≠ '<' := by simpa [gapOk] using hg
      match a with
      | [] =>
        exfalso
        rw [hte] at h
        simp only [List.nil_append, List.cons_append, List.singleton_append,
          List.cons.injEq] at h
        exact hc h.1
      | a0 :: a' => simp
    | c :: d :: g'' =>
      by_cases h1 : c = '<'
      · subst h1
        simp only [gapOk, if_true, Bool.and_eq_true,
          decide_eq_true_eq] at hg
        obtain ⟨hd, hg2⟩ := hg
        subst hd
        match a with
        | [] =>
          exfalso
          rw [hte] at h
          simp only [List.nil_append, List.cons_append,
            List.cons.injEq] at h
          exact hi0 h.2.1.symm
        | [a0] =>
          exfalso
          rw [hte] at h
          simp only [List.cons_append, List.nil_append,
            List.cons.injEq] at h
          exact absurd h.2.1 (by decide)
        | a0 :: a1 :: a'' =>
          simp only [List.cons_append, List.cons.injEq] at h
          have hrec := ih g'' X t a'' b (by simp at hlen; omega) hg2 ht
            h.2.2
          simp only [List.length_cons]
          omega
      · simp only [gapOk, if_neg h1] at hg
        match a with
        | [] =>
          exfalso
          rw [hte] at h
          simp only [List.nil_append, List.cons_append,
            List.cons.injEq] at h
          exact h1 h.1
        | a0 :: a' =>
          simp only [List.cons_append, List.cons.injEq] at h
          have hrec := ih (d :: g'') X t a' b
            (by simp at hlen ⊢; omega) hg ht h.2
          simp only [List.length_cons] at hrec ⊢
          omega

theorem no_gt_no_tag (u t a b : List Char) (hu : tailNoGt u = true)
    (ht : TagShape t) (h : u = a ++ t ++ b) : False := by
  have hgt : '>' ∈ u := by
    rw [h]
    exact List.mem_append.mpr (Or.inl (List.mem_append.mpr
      (Or.inr (tagShape_gt_mem t ht))))
  simp only [tailNoGt, List.all_eq_true, decide_eq_true_eq] at hu
  exact hu '>' hgt rfl

theorem lastgap_no_tag : ∀ (n : Nat) (lg t a b : List Char),
    lg.length ≤ n → lastGapOk lg = true → TagShape t →
    lg = a ++ t ++ b → False := by
  intro n
  induction n with
  | zero =>
    intro lg t a b hlen hlg ht h
    match lg with
    | [] =>
      obtain ⟨i0, trest, hte, hi0⟩ := tagShape_head t ht
      rw [hte] at h
      have hl2 := congrArg List.length h
      simp only [List.length_nil, List.length_append,
        List.length_cons] at hl2
      omega
    | c :: g' => simp at hlen
  | succ n ih =>
    intro lg t a b hlen hlg ht h
    obtain ⟨i0, trest, hte, hi0⟩ := tagShape_head t ht
    match lg with
    | [] =>
      rw [hte] at h
      have hl2 := congrArg List.length h
      simp only [List.length_nil, List.length_append,
        List.length_cons] at hl2
      omega
    | [c] =>
      rw [hte] at h
      have hl2 := congrArg List.length h
      simp only [List.length_nil, List.length_append,
        List.length_cons] at hl2
      omega
    | c :: d :: rest =>
      by_cases h1 : c = '<'
      · subst h1
        by_cases h2 : d = '>'
        · subst h2
          have hlg2 : lastGapOk rest = true := by
            simpa [lastGapOk] using hlg
          match a with
          | [] =>
            rw [hte] at h
            simp only [List.nil_append, List.cons_append,
              List.cons.injEq] at h
            exact hi0 h.2.1.symm
          | [a0] =>
            rw [hte] at h
            simp only [List.cons_append, List.nil_append,
              List.cons.injEq] at h
            exact absurd h.2.1 (by decide)
          | a0 :: a1 :: a'' =>
            simp only [List.cons_append, List.cons.injEq] at h
            exact ih rest t a'' b (by simp at hlen; omega) hlg2 ht h.2.2
        · have htail : tailNoGt (d :: rest) = true := by
            simpa [lastGapOk, h2] using hlg
          match a with
          | [] =>
            have hgt : '>' ∈ ('<' :: d :: rest) := by
              rw [h, List.nil_append]
              exact List.mem_append.mpr (Or.inl (tagShape_gt_mem t ht))
            simp only [tailNoGt, List.all_cons, List.all_eq_true,
              Bool.and_eq_true, decide_eq_true_eq] at htail
            simp only [List.mem_cons] at hgt
            rcases hgt with h' | h' | h'
            · exact absurd h'.symm (by decide)
            · exact htail.1 h'.symm
            · exact htail.2 '>' h' rfl
          | a0 :: a' =>
            simp only [List.cons_append, List.cons.injEq] at h
            exact no_gt_no_tag (d :: rest) t a' b htail ht h.2
      · have hlg2 : lastGapOk (d :: rest) = true := by
          simpa [lastGapOk, h1] using hlg
        match a with
        | [] =>
          rw [hte] at h
          simp only [List.nil_append, List.cons_append,
            List.cons.injEq] at h
          exact h1 h.1
        | a0 :: a' =>
          simp only [List.cons_append, List.cons.injEq] at h
          exact ih (d :: rest) t a' b (by simp at hlen ⊢; omega) hlg2 ht
            h.2

theorem ph_no_tag (j : Nat) (X t a b : List Char) (ht : TagShape t)
    (h : placeholder j ++ X = a ++ t ++ b) :
    (placeholder j).length ≤ a.length := by
  rcases occ_trichotomy (placeholder j) X a t b h with
    ⟨X2, hX1, _⟩ | ⟨A, B, hA, _, hXA, htAB, _⟩ | ⟨a2, ha2, _⟩
  · exfalso
    refine placeholder_no_lt j ?_
    rw [hX1]
    obtain ⟨i0, trest, hte, _⟩ := tagShape_head t ht
    rw [hte]
    exact List.mem_append.mpr (Or.inl (List.mem_append.mpr (Or.inr
      (List.mem_cons_self _ _))))
  · exfalso
    refine placeholder_no_lt j ?_
    rw [hXA]
    match A, hA with
    | c :: A', _ =>
      obtain ⟨i0, trest, hte, _⟩ := tagShape_head t ht
      rw [hte] at htAB
      have hc : c = '<' := by
        simp only [List.cons_append, List.cons.injEq] at htAB
        exact htAB.1.symm
      subst hc
      exact List.mem_append.mpr (Or.inr (List.mem_cons_self _ _))
  · rw [ha2]
    simp

theorem blocks_no_tag : ∀ (blocks : List (List Char)) (X t a b : List Char),
    (∀ blk ∈ blocks, gapOk blk = true ∨ ∃ j, blk = placeholder j) →
    TagShape t → blocks.flatten ++ X = a ++ t ++ b →
    blocks.flatten.length ≤ a.length := by
  intro blocks
  induction blocks with
  | nil =>
    intro X t a b _ _ _
    exact Nat.zero_le _
  | cons blk blocks' ih =>
    intro X t a b hbl ht h
    rw [List.flatten_cons] at h ⊢
    rw [List.append_assoc] at h
    have hblk : blk.length ≤ a.length := by
      rcases hbl blk (List.mem_cons_self _ _) with hg | ⟨j, rfl⟩
      · exact gap_no_tag blk.length blk (blocks'.flatten ++ X) t a b
          (Nat.le_refl _) hg ht h
      · exact ph_no_tag j (blocks'.flatten ++ X) t a b ht h
    obtain ⟨a', ha1, ha2⟩ := append_eq_append_split blk
      (blocks'.flatten ++ X) a (t ++ b)
      (by rw [h, List.append_assoc]) hblk
    have hih := ih X t a' b
      (fun x hx => hbl x (List.mem_cons_of_mem _ hx)) ht
      (by rw [ha2, List.append_assoc])
    rw [ha1]
    simp only [List.length_append]
    omega

theorem isPrefixOf_append_self : ∀ (l r : List Char),
    l.isPrefixOf (l ++ r) = true := by
  intro l
  induction l with
  | nil =>
    intro r
    rw [List.nil_append]
    cases r <;> rfl
  | cons c l' ih =>
    intro r
    rw [List.cons_append, List.isPrefixOf_cons₂_self]
    exact ih r

theorem isPrefixOf_exists : ∀ (l s : List Char),
    l.isPrefixOf s = true → ∃ r, s = l ++ r := by
  intro l
  induction l with
  | nil => intro s _; exact ⟨s, rfl⟩
  | cons c l' ih =>
    intro s h
    match s with
    | [] => simp [List.isPrefixOf] at h
    | b :: s' =>
      rw [List.isPrefixOf_cons₂] at h
      simp only [Bool.and_eq_true, beq_iff_eq] at h
      obtain ⟨rfl, h2⟩ := h
      obtain ⟨r, hr⟩ := ih s' h2
      exact ⟨r, by rw [hr]; rfl⟩

theorem replaceFirst_at : ∀ (P old new R : List Char), old ≠ [] →
    (∀ a b, P ++ old ++ R = a ++ old ++ b → P.length ≤ a.length) →
    replaceFirst old new (P ++ old ++ R) = P ++ new ++ R := by
  intro P
  induction P with
  | nil =>
    intro old new R hne _
    simp only [List.nil_append]
    match old, hne with
    | o :: os, _ =>
      rw [List.cons_append, replaceFirst, ← List.cons_append,
        if_pos (isPrefixOf_append_self (o :: os) R)]
      rw [List.drop_left]
  | cons p P' ih =>
    intro old new R hne hP
    show replaceFirst old new (p :: (P' ++ old ++ R)) = _
    rw [replaceFirst]
    rw [if_neg ?hpref]
    case hpref =>
      intro hisp
      obtain ⟨r, hr⟩ := isPrefixOf_exists old _ hisp
      have := hP [] r (by rw [List.nil_append, ← hr]; rfl)
      simp at this
    rw [ih old new R hne (fun a b hab => by
      have := hP (p :: a) b (by
        simp only [List.cons_append]
        rw [hab])
      simpa using this)]
    rfl

theorem replaceAllGo_skip : ∀ (Xs R old new : List Char),
    replaceAllGo old new (Xs ++ R) Xs.length = replaceAllGo old new R 0 := by
  intro Xs
  induction Xs with
  | nil => intro R old new; rw [List.nil_append, List.length_nil]
  | cons x Xs' ih =>
    intro R old new
    rw [List.cons_append, List.length_cons]
    show replaceAllGo old new (x :: (Xs' ++ R)) (Xs'.length + 1) = _
    rw [replaceAllGo]
    exact ih R old new

theorem replaceAllGo_no_occ : ∀ (R old new : List Char), old ≠ [] →
    (∀ a b, R ≠ a ++ old ++ b) → replaceAllGo old new R 0 = R := by
  intro R
  induction R with
  | nil =>
    intro old new hne _
    match old, hne with
    | o :: os, _ => rfl
  | cons c R' ih =>
    intro old new hne hno
    rw [replaceAllGo]
    rw [if_neg ?hpref]
    case hpref =>
      intro hisp
      obtain ⟨r, hr⟩ := isPrefixOf_exists old _ hisp
      exact hno [] r (by rw [List.nil_append, hr])
    rw [ih old new hne (fun a b hab =>
      hno (c :: a) b (by
        simp only [List.cons_append]
        rw [← hab]))]

theorem replaceAll_single : ∀ (P old new R : List Char), old ≠ [] →
    (∀ a b, P ++ old ++ R = a ++ old ++ b → a = P) →
    replaceAll (P ++ old ++ R) old new = P ++ new ++ R := by
  intro P
  induction P with
  | nil =>
    intro old new R hne hP
    simp only [List.nil_append]
    match old, hne with
    | o :: os, _ =>
      rw [replaceAll, List.cons_append, replaceAllGo, ← List.cons_append,
        if_pos (isPrefixOf_append_self (o :: os) R)]
      have hlen : (o :: os).length - 1 = os.length := by simp
      rw [hlen, replaceAllGo_skip os R (o :: os) new]
      rw [replaceAllGo_no_occ R (o :: os) new (List.cons_ne_nil o os)
        (fun a b hab => by
          have h2 := hP ((o :: os) ++ a) b (by
            simp only [List.nil_append, List.append_assoc, hab])
          have h3 := congrArg List.length h2
          simp at h3)]
  | cons p P' ih =>
    intro old new R hne hP
    show replaceAll (p :: (P' ++ old ++ R)) old new = _
    rw [replaceAll, replaceAllGo]
    rw [if_neg ?hpref]
    case hpref =>
      intro hisp
      obtain ⟨r, hr⟩ := isPrefixOf_exists old _ hisp
      have := hP [] r (by rw [List.nil_append, ← hr]; rfl)
      exact absurd this.symm (List.cons_ne_nil p P')
    have hih := ih old new R hne (fun a b hab => by
      have := hP (p :: a) b (by
        simp only [List.cons_append]
        rw [hab])
      simpa using this)
    rw [replaceAll] at hih
    rw [hih]
    rfl

theorem maskLoop_decomp : ∀ (parts : List (List Char × List Char))
    (lg : List Char) (blocks : List (List Char)) (n : Nat),
    (∀ blk ∈ blocks, gapOk blk = true ∨ ∃ j, blk = placeholder j) →
    (∀ p ∈ parts, gapOk p.1 = true ∧ TagShape p.2) →
    maskLoop (blocks.flatten ++ assembleRaw parts lg)
      (parts.map Prod.snd) n =
      blocks.flatten ++ assembleMasked parts lg n := by
  intro parts
  induction parts with
  | nil => intro lg blocks n _ _; rfl
  | cons p parts' ih =>
    intro lg blocks n hbl hsh
    obtain ⟨hg, ht⟩ := hsh p (List.mem_cons_self _ _)
    have htne : p.2 ≠ [] := by
      obtain ⟨inner, hi, _, _⟩ := ht
      rw [hi]
      exact List.cons_ne_nil _ _
    rw [List.map_cons, maskLoop]
    have hcur : blocks.flatten ++ assembleRaw (p :: parts') lg =
        (blocks.flatten ++ p.1) ++ p.2 ++ assembleRaw parts' lg := by
      rw [assembleRaw]
      simp [List.append_assoc]
    rw [hcur]
    have hP : ∀ a b,
        (blocks.flatten ++ p.1) ++ p.2 ++ assembleRaw parts' lg =
          a ++ p.2 ++ b →
        (blocks.flatten ++ p.1).length ≤ a.length := by
      intro a b hab
      have hfl : (blocks ++ [p.1]).flatten = blocks.flatten ++ p.1 := by
        simp
      have hres := blocks_no_tag (blocks ++ [p.1])
        (p.2 ++ assembleRaw parts' lg) p.2 a b
        (by
          intro blk hblk
          rcases List.mem_append.mp hblk with hb1 | hb1
          · exact hbl blk hb1
          · rcases List.mem_singleton.mp hb1 with rfl
            exact Or.inl hg)
        ht
        (by
          rw [hfl]
          rw [List.append_assoc] at hab
          exact hab)
      rw [hfl] at hres
      exact hres
    rw [replaceFirst_at (blocks.flatten ++ p.1) p.2 (placeholder n)
      (assembleRaw parts' lg) htne hP]
    have hargs : (blocks.flatten ++ p.1) ++ placeholder n ++
        assembleRaw parts' lg =
        (blocks ++ [p.1, placeholder n]).flatten ++
          assembleRaw parts' lg := by
      simp [List.append_assoc]
    rw [hargs]
    rw [ih lg (blocks ++ [p.1, placeholder n]) (n + 1)
      (by
        intro blk hblk
        rcases List.mem_append.mp hblk with hb1 | hb1
        · exact hbl blk hb1
        · rcases List.mem_cons.mp hb1 with rfl | hb2
          · exact Or.inl hg
          · rcases List.mem_singleton.mp hb2 with rfl
            exact Or.inr ⟨n, rfl⟩)
      (fun q hq => hsh q (List.mem_cons_of_mem _ hq))]
    rw [assembleMasked]
    simp [List.append_assoc]

theorem mask_tags_eq (s : List Char) :
    mask_tags s =
      (assembleMasked (scanPartsGo s [] none).1
        (scanPartsGo s [] none).2 0,
       (scanPartsGo s [] none).1.map Prod.snd) := by
  have htags : findall_tags s =
      (scanPartsGo s [] none).1.map Prod.snd :=
    (scanPartsGo_tags s [] none).symm
  have hassemble : s = assembleRaw (scanPartsGo s [] none).1
      (scanPartsGo s [] none).2 := by
    have h := scanPartsGo_assemble s [] none
    simpa using h.symm
  obtain ⟨hsh, hlg⟩ := scanPartsGo_shapes s [] none rfl trivial
  rw [mask_tags, htags]
  refine congrArg₂ Prod.mk ?_ rfl
  have hm := maskLoop_decomp (scanPartsGo s [] none).1
    (scanPartsGo s [] none).2 [] 0
    (fun blk hblk => absurd hblk (List.not_mem_nil blk)) hsh
  simp only [List.flatten_nil, List.nil_append] at hm
  rw [← hassemble] at hm
  exact hm

/-- `u` contains no placeholder `{{TAG_m}}` as a substring. -/
def NoPh (u : List Char) : Prop :=
  ∀ (m : Nat) (a b : List Char), u ≠ a ++ placeholder m ++ b

theorem noPh_append_left (X Y : List Char) (h : NoPh (X ++ Y)) :
    NoPh X := by
  intro m a b hab
  refine h m a (b ++ Y) ?_
  rw [hab]
  simp [List.append_assoc]

theorem noPh_append_right (X Y : List Char) (h : NoPh (X ++ Y)) :
    NoPh Y := by
  intro m a b hab
  refine h m (X ++ a) b ?_
  rw [hab]
  simp [List.append_assoc]

theorem placeholder_ne_nil (n : Nat) : placeholder n ≠ [] := by
  rw [placeholder]
  exact List.cons_ne_nil _ _

theorem placeholder_contain (m n : Nat) (A B2 : List Char)
    (h : placeholder m = A ++ placeholder n ++ B2) :
    A = [] ∧ m = n ∧ B2 = [] := by
  match A with
  | [] =>
    rw [List.nil_append] at h
    obtain ⟨hmn, hB⟩ := placeholder_prefix_eq m n B2 h
    exact ⟨rfl, hmn, hB⟩
  | [a0] =>
    exfalso
    rw [placeholder] at h
    rw [placeholder] at h
    simp only [List.cons_append, List.nil_append, List.cons.injEq,
      true_and] at h
    exact absurd h.2.1 (by decide)
  | a0 :: a1 :: A'' =>
    exfalso
    refine placeholder_no_brace_drop2 m ?_
    rw [h]
    have he : ((a0 :: a1 :: A'') ++ placeholder n ++ B2) =
        a0 :: a1 :: (A'' ++ placeholder n ++ B2) := by
      simp
    rw [he, List.drop_succ_cons, List.drop_succ_cons, List.drop_zero]
    refine List.mem_append.mpr (Or.inl (List.mem_append.mpr
      (Or.inr ?_)))
    rw [placeholder]
    exact List.mem_cons_self _ _

theorem masked_no_ph : ∀ (parts : List (List Char × List Char))
    (lg : List Char) (n m : Nat),
    NoPh (assembleRaw parts lg) → m < n →
    ∀ a b, assembleMasked parts lg n ≠ a ++ placeholder m ++ b := by
  intro parts
  induction parts with
  | nil =>
    intro lg n m hno _ a b
    exact hno m a b
  | cons p parts' ih =>
    intro lg n m hno hm a b hab
    rw [assembleMasked, List.append_assoc] at hab
    rcases occ_trichotomy p.1
      (placeholder n ++ assembleMasked parts' lg (n + 1)) a
      (placeholder m) b hab with
      ⟨X2, hX1, _⟩ | ⟨A, B, hA, hB, hXA, hAB, hY⟩ | ⟨a2, ha2, hY⟩
    · refine noPh_append_left p.1 (p.2 ++ assembleRaw parts' lg) ?_
        m a X2 hX1
      have he : assembleRaw (p :: parts') lg =
          p.1 ++ (p.2 ++ assembleRaw parts' lg) := by
        rw [assembleRaw, List.append_assoc]
      rw [← he]
      exact hno
    · by_cases hlen : B.length ≤ (placeholder n).length
      · obtain ⟨C, hC1, _⟩ := append_eq_append_split B b (placeholder n)
          (assembleMasked parts' lg (n + 1)) hY.symm hlen
        obtain ⟨hAnil, _, _⟩ := placeholder_overlap m n A B C hAB hC1 hB
        exact hA hAnil
      · push_neg at hlen
        obtain ⟨B2, hB21, _⟩ := append_eq_append_split (placeholder n)
          (assembleMasked parts' lg (n + 1)) B b hY (Nat.le_of_lt hlen)
        rw [hB21, ← List.append_assoc] at hAB
        obtain ⟨hAnil, _, _⟩ := placeholder_contain m n A B2 hAB
        exact hA hAnil
    · rcases occ_trichotomy (placeholder n)
        (assembleMasked parts' lg (n + 1)) a2 (placeholder m) b hY with
        ⟨X2, hX1, _⟩ | ⟨A, B, hA, hB, hXA, hAB, hY2⟩ | ⟨a3, ha3, hY2⟩
      · obtain ⟨_, hnm, _⟩ := placeholder_contain n m a2 X2 hX1
        omega
      · obtain ⟨_, hnm, _⟩ := placeholder_overlap n m a2 A B hXA hAB hA
        omega
      · refine ih lg (n + 1) m ?_ (by omega) a3 b hY2
        refine noPh_append_right (p.1 ++ p.2) (assembleRaw parts' lg) ?_
        have he : assembleRaw (p :: parts') lg =
            (p.1 ++ p.2) ++ assembleRaw parts' lg := by
          rw [assembleRaw]
        rw [← he]
        exact hno

theorem unmaskLoop_decomp : ∀ (parts : List (List Char × List Char))
    (lg R : List Char) (n : Nat),
    NoPh (R ++ assembleRaw parts lg) →
    unmaskLoop (R ++ assembleMasked parts lg n) (parts.map Prod.snd) n =
      R ++ assembleRaw parts lg := by
  intro parts
  induction parts with
  | nil => intro lg R n _; rfl
  | cons p parts' ih =>
    intro lg R n hno
    rw [List.map_cons, unmaskLoop]
    have hcur : R ++ assembleMasked (p :: parts') lg n =
        (R ++ p.1) ++ placeholder n ++
          assembleMasked parts' lg (n + 1) := by
      rw [assembleMasked]
      simp [List.append_assoc]
    rw [hcur]
    have hraww : R ++ assembleRaw (p :: parts') lg =
        ((R ++ p.1) ++ p.2) ++ assembleRaw parts' lg := by
      rw [assembleRaw]
      simp [List.append_assoc]
    have hnoP : NoPh (R ++ p.1) := by
      refine noPh_append_left (R ++ p.1)
        (p.2 ++ assembleRaw parts' lg) ?_
      have he : (R ++ p.1) ++ (p.2 ++ assembleRaw parts' lg) =
          R ++ assembleRaw (p :: parts') lg := by
        rw [assembleRaw]
        simp [List.append_assoc]
      rw [he]
      exact hno
    have hnoRest : NoPh (assembleRaw parts' lg) := by
      refine noPh_append_right ((R ++ p.1) ++ p.2)
        (assembleRaw parts' lg) ?_
      rw [← hraww]
      exact hno
    have huniq : ∀ a b,
        (R ++ p.1) ++ placeholder n ++
          assembleMasked parts' lg (n + 1) =
          a ++ placeholder n ++ b → a = R ++ p.1 := by
      intro a b hab
      rw [List.append_assoc] at hab
      rcases occ_trichotomy (R ++ p.1)
        (placeholder n ++ assembleMasked parts' lg (n + 1)) a
        (placeholder n) b hab with
        ⟨X2, hX1, _⟩ | ⟨A, B, hA, hB, hXA, hAB, hY⟩ | ⟨a2, ha2, hY⟩
      · exact absurd hX1 (hnoP n a X2)
      · by_cases hlen : B.length ≤ (placeholder n).length
        · obtain ⟨C, hC1, _⟩ := append_eq_append_split B b
            (placeholder n) (assembleMasked parts' lg (n + 1))
            hY.symm hlen
          obtain ⟨hAnil, _, _⟩ := placeholder_overlap n n A B C hAB
            hC1 hB
          exact absurd hAnil hA
        · push_neg at hlen
          obtain ⟨B2, hB21, _⟩ := append_eq_append_split
            (placeholder n) (assembleMasked parts' lg (n + 1)) B b hY
            (Nat.le_of_lt hlen)
          rw [hB21, ← List.append_assoc] at hAB
          obtain ⟨hAnil, _, _⟩ := placeholder_contain n n A B2 hAB
          exact absurd hAnil hA
      · rcases occ_trichotomy (placeholder n)
          (assembleMasked parts' lg (n + 1)) a2 (placeholder n) b
          hY with
          ⟨X2, hX1, _⟩ | ⟨A, B, hA, hB, hXA, hAB, hY2⟩ |
          ⟨a3, ha3, hY2⟩
        · obtain ⟨hA2nil, _, _⟩ := placeholder_contain n n a2 X2 hX1
          rw [ha2, hA2nil, List.append_nil]
        · obtain ⟨hA2nil, _, _⟩ := placeholder_overlap n n a2 A B hXA
            hAB hA
          rw [ha2, hA2nil, List.append_nil]
        · exact absurd hY2 (masked_no_ph parts' lg (n + 1) n hnoRest
            (by omega) a3 b)
    rw [replaceAll_single (R ++ p.1) (placeholder n) p.2
      (assembleMasked parts' lg (n + 1)) (placeholder_ne_nil n) huniq]
    rw [ih lg ((R ++ p.1) ++ p.2) (n + 1) (by rw [← hraww]; exact hno)]
    rw [hraww]

/-- **C8**.  For every source string containing no `{{TAG_n}}`
substring, `_mask_tags` decomposes the string along the left-to-right
regex matches of `<[^>]+>` and replaces the `i`-th match by the
placeholder `{{TAG_i}}` (the retained tag list being exactly the
matches in order), and `_unmask_tags` on the masked text with that tag
list restores the original string exactly. -/
theorem claim8_mask_unmask_roundtrip (s : List Char)
    (hno : ∀ (m : Nat) (a b : List Char), s ≠ a ++ placeholder m ++ b) :
    s = assembleRaw (scanPartsGo s [] none).1 (scanPartsGo s [] none).2 ∧
    mask_tags s =
      (assembleMasked (scanPartsGo s [] none).1
        (scanPartsGo s [] none).2 0,
       (scanPartsGo s [] none).1.map Prod.snd) ∧
    unmask_tags (mask_tags s).1 (mask_tags s).2 = s := by
  have hassemble : s = assembleRaw (scanPartsGo s [] none).1
      (scanPartsGo s [] none).2 := by
    have h := scanPartsGo_assemble s [] none
    simpa using h.symm
  refine ⟨hassemble, mask_tags_eq s, ?_⟩
  rw [mask_tags_eq]
  show unmask_tags (assembleMasked (scanPartsGo s [] none).1
    (scanPartsGo s [] none).2 0)
    ((scanPartsGo s [] none).1.map Prod.snd) = s
  rw [unmask_tags]
  have hu := unmaskLoop_decomp (scanPartsGo s [] none).1
    (scanPartsGo s [] none).2 [] 0
    (by
      rw [List.nil_append, ← hassemble]
      exact hno)
  simp only [List.nil_append] at hu
  rw [hu, ← hassemble]

/-- Witness for C8 at the concrete source `a<b>c` (too short to
contain any placeholder, whose length is at least 9). -/
theorem claim8_mask_unmask_roundtrip_witness :
    unmask_tags (mask_tags ['a', '<', 'b', '>', 'c']).1
      (mask_tags ['a', '<', 'b', '>', 'c']).2 =
      ['a', '<', 'b', '>', 'c'] ∧
    (mask_tags ['a', '<', 'b', '>', 'c']).2 = [['<', 'b', '>']] := by
  refine ⟨(claim8_mask_unmask_roundtrip ['a', '<', 'b', '>', 'c']
    (fun m a b hab => by
      have h1 := congrArg List.length hab
      have h2 := placeholder_len m
      simp only [List.length_append, List.length_cons,
        List.length_nil] at h1
      omega)).2.2, by decide⟩

end SfAutoTl
